import Mathlib

/-!
Verification of the spanned-json-parser repository.

The embedding models the crate at the level of Unicode scalar values: the
input `&str` becomes a `List Char`.  Counting `\n` bytes in a UTF-8 byte
slice agrees with counting `'\n'` characters, because the byte 0x0A never
occurs inside a multi-byte UTF-8 sequence, and `bytecount::num_chars`
counts exactly the Unicode scalar values, i.e. the length of the char
list.  Machine integers (`usize` line/col counters, `u64`/`i64` number
payloads) are modelled as `Nat`/`Int`; the source never lets the counters
underflow past zero in reachable states, and the `u64`/`i64` range checks
of `str::parse` are modelled explicitly.
-/

namespace SJP

/-- Mirror of `Position` from src/value.rs: 1-indexed column and line
(field order as in the source). -/
structure Position where
  col : Nat
  line : Nat
deriving DecidableEq, Repr

/-- `Position::default()` (usize defaults, i.e. zero). -/
def Position.zero : Position := ⟨0, 0⟩

/-- Mirror of `Input` from src/input.rs: the remaining view of the source
plus the line/column of its first character. -/
structure Input where
  data : List Char
  line : Nat
  col : Nat
deriving DecidableEq, Repr

/-- `Input::new`: full view at position (1, 1). -/
def Input.new (data : List Char) : Input := ⟨data, 1, 1⟩

/-- The suffix of `l` strictly after its last `'\n'` (all of `l` when no
newline occurs).  This is `old_data[last_index..]` in
`Input::slice_common`, where `last_index` is one past the last `\n`
found by the `Memchr` scan, or `0` when none is found. -/
def afterLastNl (l : List Char) : List Char :=
  (l.reverse.takeWhile (fun c => c ≠ '\n')).reverse

/-- The position reached from `(line, col)` after consuming `consumed`,
exactly as computed by `Input::slice_common` in src/input.rs:
`lines_to_add` newlines are counted in the consumed bytes and added to
`line`; `col` (the variable) is `num_chars` of the slice after the last
newline; the new column is `self.col + col` when no newline was crossed
and `col + 1` otherwise. -/
def slicePos (line col : Nat) (consumed : List Char) : Nat × Nat :=
  (line + consumed.count '\n',
    if consumed.count '\n' = 0 then col + (afterLastNl consumed).length
    else (afterLastNl consumed).length + 1)

/-- `Input::slice(n..)` (through `slice_common`): drop `n` characters and
recompute the position.  When the offset is zero the position is kept
unchanged (the `offset == 0` early return). -/
def Input.advance (i : Input) (n : Nat) : Input :=
  if (i.data.take n).isEmpty then ⟨i.data.drop n, i.line, i.col⟩
  else
    ⟨i.data.drop n, (slicePos i.line i.col (i.data.take n)).1,
      (slicePos i.line i.col (i.data.take n)).2⟩

/-- Mirror of `Position::from(Input)`. -/
def Position.ofInput (i : Input) : Position := ⟨i.col, i.line⟩

/-- Mirror of `Position::from_ahead(Input)`: same line, column one less
(the start/end character has already been consumed). -/
def Position.fromAhead (i : Input) : Position := ⟨i.col - 1, i.line⟩

/-- Source order on positions: `(line, col)` lexicographic, strict. -/
def Position.lt (p q : Position) : Prop :=
  p.line < q.line ∨ (p.line = q.line ∧ p.col < q.col)

/-- Source order on positions: `(line, col)` lexicographic, non-strict. -/
def Position.le (p q : Position) : Prop :=
  p.line < q.line ∨ (p.line = q.line ∧ p.col ≤ q.col)

instance (p q : Position) : Decidable (Position.lt p q) := by
  unfold Position.lt; infer_instance

instance (p q : Position) : Decidable (Position.le p q) := by
  unfold Position.le; infer_instance

/-! ### Error model (src/error.rs) -/

/-- The `nom::error::ErrorKind` values the embedded combinators can
produce (`anychar`/`take` produce `Eof`, `char` produces `Char` via the
default `from_char`, `tag` produces `Tag`, `verify` produces `Verify`,
`map_opt` produces `MapOpt`, `none_of` produces `NoneOf`, and the
infinite-loop guards of `fold_many0` / `separated_list0` produce their
own kinds). -/
inductive NomKind where
  | eof | chr | tag | verify | mapOpt | noneOf | many0 | sepList
deriving DecidableEq, Repr

/-- Mirror of `Kind` from src/error.rs (the field `NomError` wraps the
low-level nom kind). -/
inductive Kind where
  | MissingQuote
  | MissingArrayBracket
  | MissingComma
  | MissingObjectBracket
  | InvalidKey (s : String)
  | MissingChar (c : Char)
  | MissingColon
  | CharsAfterRoot (s : String)
  | NotAnHex (s : String)
  | NotAString
  | NotABool
  | NotANull
  | NotAnObject
  | NotAnArray
  | NotANumber
  | InvalidValue (s : String)
  | TrailingComma
  | NomError (k : NomKind)
  | ToBeDefined
deriving DecidableEq, Repr

/-- Mirror of `Error` from src/error.rs.  The source field `end` is a Lean
keyword and is called `stop` here. -/
structure Error where
  start : Position
  stop : Position
  kind : Kind
deriving DecidableEq, Repr

/-- `Error::new`. -/
def Error.new (start stop : Position) (kind : Kind) : Error := ⟨start, stop, kind⟩

/-- `Error::default()`: default (zero) positions and `ToBeDefined`. -/
def Error.default : Error := ⟨Position.zero, Position.zero, .ToBeDefined⟩

/-- `ParseError::from_error_kind` for `Error`: both positions at the
input's position, kind `NomError(kind)`. -/
def fromErrorKind (i : Input) (k : NomKind) : Error :=
  ⟨Position.ofInput i, Position.ofInput i, .NomError k⟩

/-- `FromExternalError::from_external_error` for `Error`: both positions
at the input's position, kind `ToBeDefined`. -/
def fromExternalError (i : Input) : Error :=
  ⟨Position.ofInput i, Position.ofInput i, .ToBeDefined⟩

/-! ### Value model (src/value.rs)

`f64` payloads are abstracted by the accepted literal text: the
development never depends on IEEE-754 values, only on which variant a
token produces (claims about float *values* are out of scope of this
embedding and are noted at their claims). -/

/-- Alias for Lean `String`, needed inside `Value` where the constructor
name `String` would shadow the type. -/
abbrev Str := String

/-- Alias for Lean `Bool`, needed inside `Value` where the constructor
name `Bool` would shadow the type. -/
abbrev Boolean := Bool

/-- Abstraction of an `f64` payload by the literal that produced it. -/
structure F64Lit where
  lit : String
deriving DecidableEq, Repr

/-- Mirror of `Number` from src/value.rs (`u64`/`i64` as `Nat`/`Int`, the
range checks live in the `str::parse` models below). -/
inductive Number where
  | PosInt (n : Nat)
  | NegInt (n : Int)
  | Float (f : F64Lit)
deriving DecidableEq, Repr

mutual

/-- Mirror of `Value` from src/value.rs.  `Object` is the
`HashMap<String, SpannedValue>` modelled as an association list with
unique keys (last writer wins, first-insertion order); HashMap iteration
order is arbitrary in the source, so no claim relies on the order. -/
inductive Value : Type where
  | Null : Value
  | Number (n : SJP.Number) : Value
  | String (s : Str) : Value
  | Bool (b : Boolean) : Value
  | Array (elems : List SpannedValue) : Value
  | Object (entries : List (Str × SpannedValue)) : Value

/-- Mirror of `SpannedValue` from src/value.rs (field `end` renamed to
`stop`). -/
inductive SpannedValue : Type where
  | mk (value : Value) (start : Position) (stop : Position) : SpannedValue

end

/-- Accessor for the `value` field of `SpannedValue`. -/
def SpannedValue.value : SpannedValue → Value
  | ⟨v, _, _⟩ => v

/-- Accessor for the `start` field of `SpannedValue`. -/
def SpannedValue.start : SpannedValue → Position
  | ⟨_, s, _⟩ => s

/-- Accessor for the `end` field of `SpannedValue` (renamed `stop`). -/
def SpannedValue.stop : SpannedValue → Position
  | ⟨_, _, e⟩ => e

/-- One `HashMap::insert` step on the association-list model: overwrite
in place when the key is present, append otherwise. -/
def insertPair (m : List (String × SpannedValue)) (k : String)
    (v : SpannedValue) : List (String × SpannedValue) :=
  match m with
  | [] => [(k, v)]
  | (k', v') :: rest =>
      if k' = k then (k, v) :: rest else (k', v') :: insertPair rest k v

/-- `tuple_vec.into_iter().collect::<HashMap<_, _>>()`: duplicates
collapse last-writer-wins.  Order is first-insertion order in the model
(the source HashMap has no meaningful order). -/
def collectPairs (l : List (String × SpannedValue)) :
    List (String × SpannedValue) :=
  l.foldl (fun m kv => insertPair m kv.1 kv.2) []

/-! ### Platform number parsing (modelled from the Rust standard library)

`number` in src/parser.rs re-parses the collected token with
`str::parse::<u64>`, `str::parse::<i64>` and `str::parse::<f64>`; these
are std behaviors, modelled here: integer parsing accepts an optional
sign followed by one or more ASCII decimal digits and enforces the
64-bit range (out-of-range is an error, not a wrap); float parsing
accepts `Sign? ('inf' | 'infinity' | 'nan' | Number)` case-insensitively
for the keywords, with `Number ::= (Digits | Digits '.' Digits? | '.'
Digits) Exp?` and `Exp ::= ('e'|'E') Sign? Digits` (since Rust 1.55
out-of-range finite literals saturate to infinity, so acceptance is
grammatical only). -/

/-- Numeric value of a nonempty all-digit decimal string. -/
def decDigitsVal : List Char → Option Nat
  | [] => none
  | l =>
      if l.all Char.isDigit then
        some (l.foldl (fun acc c => 10 * acc + (c.toNat - '0'.toNat)) 0)
      else none

/-- Modelled from std: `str::parse::<u64>` (optional `+`, digits,
64-bit bound). -/
def u64Body (l : List Char) : List Char :=
  match l with
  | c :: r => if c = '+' then r else l
  | [] => l

def parseU64 (l : List Char) : Option Nat :=
  match decDigitsVal (u64Body l) with
  | some v => if v < 2 ^ 64 then some v else none
  | none => none

/-- Modelled from std: `str::parse::<i64>` (optional sign, digits,
64-bit two's-complement bounds). -/
def parseI64 (l : List Char) : Option Int :=
  match l with
  | [] => none
  | c :: r =>
      if c = '-' then
        match decDigitsVal r with
        | some v => if v ≤ 2 ^ 63 then some (-(v : Int)) else none
        | none => none
      else if c = '+' then
        match decDigitsVal r with
        | some v => if v < 2 ^ 63 then some (v : Int) else none
        | none => none
      else
        match decDigitsVal l with
        | some v => if v < 2 ^ 63 then some (v : Int) else none
        | none => none

/-- Mantissa part of the std float grammar:
`Digits | Digits '.' Digits? | '.' Digits`. -/
def mantissaGrammar (l : List Char) : Bool :=
  let intPart := l.takeWhile Char.isDigit
  let rest := l.drop intPart.length
  match rest with
  | [] => !intPart.isEmpty
  | c :: frac =>
      if c = '.' then (!intPart.isEmpty || !frac.isEmpty) && frac.all Char.isDigit
      else false

/-- `Number ::= Mantissa Exp?` of the std float grammar. -/
def numberGrammar (l : List Char) : Bool :=
  let m := l.takeWhile (fun c => c ≠ 'e' && c ≠ 'E')
  match l.drop m.length with
  | [] => mantissaGrammar m
  | _ :: er =>
      let eb := match er with
        | c :: t => if c = '+' || c = '-' then t else er
        | [] => er
      mantissaGrammar m && !eb.isEmpty && eb.all Char.isDigit

/-- Case-insensitive keyword comparison for `inf`/`infinity`/`nan`. -/
def kwEq (l : List Char) (kw : List Char) : Bool :=
  l.map Char.toLower = kw

/-- Modelled from std: acceptance of `str::parse::<f64>`. -/
def f64Accepts (l : List Char) : Bool :=
  let body := match l with
    | c :: r => if c = '+' || c = '-' then r else l
    | [] => l
  kwEq body ['i', 'n', 'f'] || kwEq body ['i', 'n', 'f', 'i', 'n', 'i', 't', 'y']
    || kwEq body ['n', 'a', 'n'] || numberGrammar body

/-- Modelled from std: `str::parse::<f64>`, with the payload abstracted
by the literal. -/
def parseF64 (l : List Char) : Option F64Lit :=
  if f64Accepts l then some ⟨String.mk l⟩ else none

/-! ### nom primitives over `Input`

Each primitive consumes through `Input.advance` (the `Slice<RangeFrom>`
instance, i.e. `slice_common`), exactly as nom's combinators slice the
custom input type.  Results mirror nom's two-level errors: `errR` is
`Err::Error` (recoverable), `errF` is `Err::Failure` (fatal); `noFuel`
is the step-index of the embedding and is proved unreachable from
`parse`'s fuel. -/

/-- Result of a production: the remaining input and value, a recoverable
error, a fatal error, or fuel exhaustion (proved unreachable). -/
inductive PRes (α : Type) where
  | ok (i : Input) (a : α)
  | errR (e : Error)
  | errF (e : Error)
  | noFuel
deriving DecidableEq, Repr

/-- JSON whitespace per nom's `multispace0`/`multispace1`. -/
def isWsChar (c : Char) : Bool :=
  c = ' ' || c = '\t' || c = '\r' || c = '\n'

/-- `multispace0`, and also `many0(multispace1)` (both consume the
longest whitespace prefix and never fail). -/
def skipWs (i : Input) : Input :=
  i.advance (i.data.takeWhile isWsChar).length

/-- `str::starts_with(char)` on the fragment. -/
def Input.startsWith (i : Input) (c : Char) : Bool :=
  match i.data with
  | c' :: _ => c' = c
  | [] => false

/-- nom `anychar`. -/
def anychar (i : Input) : PRes Char :=
  match i.data with
  | [] => .errR (fromErrorKind i .eof)
  | c :: _ => .ok (i.advance 1) c

/-- nom `char(c)` (its error uses the default `from_char`, which is
`from_error_kind` with `ErrorKind::Char`). -/
def charP (c : Char) (i : Input) : PRes Char :=
  match i.data with
  | c' :: _ =>
      if c' = c then .ok (i.advance 1) c else .errR (fromErrorKind i .chr)
  | [] => .errR (fromErrorKind i .chr)

/-- nom `tag(t)` (complete: too-short input is also `ErrorKind::Tag`). -/
def tagP (t : List Char) (i : Input) : PRes Unit :=
  if i.data.take t.length = t then .ok (i.advance t.length) ()
  else .errR (fromErrorKind i .tag)

/-- The delimiter set of `take_until_delimiter` in src/parser.rs:
`" ,]}\n"`, plus `':'` when scanning a key. -/
def isDelim (isKey : Bool) (c : Char) : Bool :=
  c = ' ' || c = ',' || c = ']' || c = '\x7d' || c = '\n' || (isKey && c = ':')

/-- `take_until_delimiter` from src/parser.rs (`take_till` never fails,
so the result is a plain pair). -/
def take_until_delimiter (i : Input) (isKey : Bool) : Input × String :=
  let n := (i.data.takeWhile (fun c => !isDelim isKey c)).length
  (i.advance n, String.mk (i.data.take n))

/-! ### Productions (src/parser.rs) -/

/-- `parse_true`: after the consumed `t`, `tag("rue")`; any error is
turned by `or_else` into a fatal `InvalidValue` covering up to the next
delimiter. -/
def parse_true (i : Input) : PRes Bool :=
  match tagP ['r', 'u', 'e'] i with
  | .ok i' _ => .ok i' true
  | _ =>
      let start := Position.fromAhead i
      let r := take_until_delimiter i false
      .errF ⟨start, Position.fromAhead r.1,
        .InvalidValue (String.mk ('t' :: r.2.data))⟩

/-- `parse_false` (see `parse_true`). -/
def parse_false (i : Input) : PRes Bool :=
  match tagP ['a', 'l', 's', 'e'] i with
  | .ok i' _ => .ok i' false
  | _ =>
      let start := Position.fromAhead i
      let r := take_until_delimiter i false
      .errF ⟨start, Position.fromAhead r.1,
        .InvalidValue (String.mk ('f' :: r.2.data))⟩

/-- `null` (see `parse_true`). -/
def null (i : Input) : PRes Unit :=
  match tagP ['u', 'l', 'l'] i with
  | .ok i' _ => .ok i' ()
  | _ =>
      let start := Position.fromAhead i
      let r := take_until_delimiter i false
      .errF ⟨start, Position.fromAhead r.1,
        .InvalidValue (String.mk ('n' :: r.2.data))⟩

/-- `u16::from_str_radix(s, 16)` modelled from std: optional `+`, then
one or more hex digits; four hex digits always fit `u16`. -/
def parseU16Hex (l : List Char) : Option Nat :=
  let body := match l with
    | c :: r => if c = '+' then r else l
    | [] => l
  if body ≠ [] && body.all (fun c => c.isDigit
      || ('a' ≤ c && c ≤ 'f') || ('A' ≤ c && c ≤ 'F')) then
    let v := body.foldl (fun acc c =>
      16 * acc + (if c.isDigit then c.toNat - '0'.toNat
        else if 'a' ≤ c && c ≤ 'f' then c.toNat - 'a'.toNat + 10
        else c.toNat - 'A'.toNat + 10)) 0
    if v < 2 ^ 16 then some v else none
  else none

/-- `u16_hex` from src/parser.rs: `take(4)` then hex decoding; both
error paths (`take` too short, `from_str_radix` failure — the latter a
`map_res` external error) are remapped by `map_err` to a *recoverable*
`NotAnHex` whose span is the input position widened by 4 columns.  The
message slices the first four bytes of the fragment; the embedding takes
four characters (the payload is proved unreachable from `parse`). -/
def u16_hex (i : Input) : PRes Nat :=
  let p := Position.ofInput i
  let txt := if 4 ≤ i.data.length then String.mk (i.data.take 4) else ""
  let err : Error := ⟨p, ⟨p.col + 4, p.line⟩,
    .NotAnHex ("'" ++ txt ++ "' is an invalid hex number")⟩
  if i.data.length < 4 then .errR err
  else
    match parseU16Hex (i.data.take 4) with
    | some v => .ok (i.advance 4) v
    | none => .errR err

/-- The `alt` inside `unicode_escape`: either a non-surrogate code unit,
or a `verify`-checked surrogate pair combined as in the source. -/
def unicode_escape_alt (i : Input) : PRes Nat :=
  let pair : PRes Nat :=
    match u16_hex i with
    | .ok i1 hi =>
        match tagP ['\\', 'u'] i1 with
        | .ok i2 _ =>
            match u16_hex i2 with
            | .ok i3 lo =>
                if (0xD800 ≤ hi && hi < 0xDC00) && (0xDC00 ≤ lo && lo < 0xE000)
                then .ok i3 ((hi - 0xD800) * 1024 + (lo - 0xDC00) + 0x10000)
                else .errR (fromErrorKind i .verify)
            | r => r
        | .errR e => .errR e
        | .errF e => .errF e
        | .noFuel => .noFuel
    | r => r
  match u16_hex i with
  | .ok i1 cp =>
      if !(0xD800 ≤ cp && cp < 0xE000) then .ok i1 cp
      else pair
  | .errR _ => pair
  | .errF e => .errF e
  | .noFuel => .noFuel

/-- `std::char::from_u32`. -/
def charFromU32 (n : Nat) : Option Char :=
  if n.isValidChar then some (Char.ofNat n) else none

/-- `unicode_escape` from src/parser.rs: `map_opt(alt(..),
char::from_u32)` (the `map_opt` failure is at the original input). -/
def unicode_escape (i : Input) : PRes Char :=
  match unicode_escape_alt i with
  | .ok i' v =>
      match charFromU32 v with
      | some c => .ok i' c
      | none => .errR (fromErrorKind i .mapOpt)
  | .errR e => .errR e
  | .errF e => .errF e
  | .noFuel => .noFuel

/-- The single-character escape table of `parse_char`. -/
def escTable (c : Char) : Option Char :=
  if c = '"' || c = '\\' || c = '/' then some c
  else if c = 'b' then some '\x08'
  else if c = 'f' then some '\x0C'
  else if c = 'n' then some '\n'
  else if c = 'r' then some '\r'
  else if c = 't' then some '\t'
  else none

/-- `parse_char` from src/parser.rs: `none_of("\"")`, then for `\` the
`alt` of the escape table (via `map_res(anychar, ..)`) and `preceded
(char('u'), unicode_escape)`; `alt` reports the last branch's
recoverable error. -/
def parse_char (i : Input) : PRes Char :=
  match i.data with
  | [] => .errR (fromErrorKind i .noneOf)
  | c :: _ =>
      if c = '"' then .errR (fromErrorKind i .noneOf)
      else
        let i1 := i.advance 1
        if c = '\\' then
          match i1.data with
          | [] => .errR (fromErrorKind i1 .chr)
          | e :: _ =>
              match escTable e with
              | some d => .ok (i1.advance 1) d
              | none =>
                  if e = 'u' then unicode_escape (i1.advance 1)
                  else .errR (fromErrorKind i1 .chr)
        else .ok i1 c

/-- The `fold_many0(parse_char, ..)` loop of `string`: accumulate until
`parse_char` fails recoverably (stop) or fatally (propagate); nom's
infinite-loop guard (a success that consumed nothing) is modelled but
unreachable since `parse_char` always consumes.  The fuel is the step
index of the embedding (structural, proved sufficient from `parse`). -/
def string_body : Nat → Input → List Char → PRes (List Char)
  | 0, _, _ => .noFuel
  | fuel + 1, i, acc =>
      match parse_char i with
      | .ok i' c =>
          if i'.data.length = i.data.length then .errR (fromErrorKind i .many0)
          else string_body fuel i' (acc ++ [c])
      | .errR _ => .ok i acc
      | .errF e => .errF e
      | .noFuel => .noFuel

/-- `string` from src/parser.rs: the fold, then `cut(char('"'))`; any
fatal error of the whole `terminated` is remapped by `map_err` to
`MissingQuote` spanning from just before the opening quote to one column
before the failure. -/
def string : Nat → Input → PRes String
  | 0, _ => .noFuel
  | fuel + 1, i =>
      let start := Position.fromAhead i
      let r : PRes String :=
        match string_body fuel i [] with
        | .ok i1 acc =>
            match charP '"' i1 with
            | .ok i2 _ => .ok i2 (String.mk acc)
            | .errR e => .errF e
            | .errF e => .errF e
            | .noFuel => .noFuel
        | .errR e => .errR e
        | .errF e => .errF e
        | .noFuel => .noFuel
      match r with
      | .errF e => .errF ⟨start, ⟨e.stop.col - 1, e.stop.line⟩, .MissingQuote⟩
      | r => r

/-- The re-parse of the collected token in `number` (step 3 of the
production): floats when the token shows `.`/`e`/`E`, otherwise the
integer variant with fallback to float on overflow. -/
def classifyNumber (first_char : Char) (formatted : List Char) :
    Option Number :=
  if formatted.contains '.' || formatted.contains 'e'
      || formatted.contains 'E' then
    (parseF64 formatted).map (fun f => Number.Float f)
  else if first_char = '-' then
    match parseI64 formatted with
    | some v => some (.NegInt v)
    | none => (parseF64 formatted).map (fun f => Number.Float f)
  else
    match parseU64 formatted with
    | some v => some (.PosInt v)
    | none => (parseF64 formatted).map (fun f => Number.Float f)

/-- `number(first_char)` from src/parser.rs: `verify(digit0, ..)`
rejecting a leading zero (recoverable `NotANumber` at the production
start), then consume to the next delimiter, then classify the
concatenated token (failure is fatal `InvalidValue`). -/
def number (first_char : Char) (i : Input) : PRes Number :=
  let start := Position.fromAhead i
  let digs := i.data.takeWhile Char.isDigit
  if !(digs.isEmpty || first_char ≠ '0') then
    .errR ⟨start, start, .NotANumber⟩
  else
    let i1 := i.advance digs.length
    let r := take_until_delimiter i1 false
    let formatted := first_char :: (digs ++ r.2.data)
    match classifyNumber first_char formatted with
    | some num => .ok r.1 num
    | none =>
        .errF ⟨start, Position.fromAhead r.1,
          .InvalidValue (String.mk formatted)⟩

/-- Map over the `ok` value of a production result. -/
def PRes.mapv {α β : Type} (f : α → β) : PRes α → PRes β
  | .ok i a => .ok i (f a)
  | .errR e => .errR e
  | .errF e => .errF e
  | .noFuel => .noFuel

mutual

/-- `json_value` from src/parser.rs: skip whitespace
(`many0(multispace1)`), stamp `start`, dispatch on the first character,
stamp `end` from the input after the sub-production (before any further
whitespace); an unknown first character consumes to the next delimiter
and fails fatally with `InvalidValue`. -/
def json_value : Nat → Input → PRes SpannedValue
  | 0, _ => .noFuel
  | fuel + 1, i0 =>
      let i := skipWs i0
      let start := Position.ofInput i
      match anychar i with
      | .errR e => .errR e
      | .errF e => .errF e
      | .noFuel => .noFuel
      | .ok i1 c =>
          let r : PRes Value :=
            if c = '\x7b' then (hash fuel i1).mapv Value.Object
            else if c = '[' then (array fuel i1).mapv Value.Array
            else if c = '"' then (string fuel i1).mapv Value.String
            else if c = '-' || c.isDigit then
              (number c i1).mapv Value.Number
            else if c = 't' then (parse_true i1).mapv Value.Bool
            else if c = 'f' then (parse_false i1).mapv Value.Bool
            else if c = 'n' then (null i1).mapv (fun _ => Value.Null)
            else
              let tr := take_until_delimiter i1 false
              .errF ⟨start, Position.fromAhead tr.1,
                .InvalidValue (String.mk (c :: tr.2.data))⟩
          match r with
          | .ok i2 v => .ok i2 ⟨v, start, Position.fromAhead i2⟩
          | .errR e => .errR e
          | .errF e => .errF e
          | .noFuel => .noFuel

/-- The element parser of `array`'s `separated_list0`:
`or_else(json_value, ..)` — on any error, if (after whitespace) the next
character closes the array the error becomes fatal `TrailingComma` at
the element start, otherwise the original error is kept. -/
def arr_elem : Nat → Input → PRes SpannedValue
  | 0, _ => .noFuel
  | fuel + 1, i =>
      match json_value fuel i with
      | .ok i' v => .ok i' v
      | .noFuel => .noFuel
      | r =>
          if (skipWs i).startsWith ']' then
            .errF ⟨Position.fromAhead i, Position.fromAhead i, .TrailingComma⟩
          else r

/-- The separator parser of `array`: `preceded(multispace0,
or_else(char(','), ..))` — a missing comma before more content is fatal
`MissingComma` spanning from the array start to one column before the
failure. -/
def arr_sep (start : Position) (i : Input) : PRes Unit :=
  let i1 := skipWs i
  match charP ',' i1 with
  | .ok i2 _ => .ok i2 ()
  | .errF e => .errF e
  | .noFuel => .noFuel
  | .errR e =>
      let i2 := skipWs i1
      if !i2.data.isEmpty && !i2.startsWith ']' then
        .errF ⟨start, ⟨e.stop.col - 1, e.stop.line⟩, .MissingComma⟩
      else .errR e

/-- The `(sep, elem)*` loop of `separated_list0` for arrays (with nom's
require-progress guard, unreachable since the separator consumes); on a
recoverable element error the input from before the separator is
restored. -/
def arr_loop : Nat → Input → Position → List SpannedValue →
    PRes (List SpannedValue)
  | 0, _, _, _ => .noFuel
  | fuel + 1, i, start, acc =>
      match arr_sep start i with
      | .errR _ => .ok i acc
      | .errF e => .errF e
      | .noFuel => .noFuel
      | .ok i1 _ =>
          if i1.data.length = i.data.length then
            .errR (fromErrorKind i1 .sepList)
          else
            match arr_elem fuel i1 with
            | .errR _ => .ok i acc
            | .errF e => .errF e
            | .noFuel => .noFuel
            | .ok i2 v => arr_loop fuel i2 start (acc ++ [v])

/-- `separated_list0(sep, elem)` for arrays: first element (a
recoverable failure yields the empty list), then the loop. -/
def arr_items : Nat → Input → Position → PRes (List SpannedValue)
  | 0, _, _ => .noFuel
  | fuel + 1, i, start =>
      match arr_elem fuel i with
      | .errR _ => .ok i []
      | .errF e => .errF e
      | .noFuel => .noFuel
      | .ok i1 v => arr_loop fuel i1 start [v]

/-- `array` from src/parser.rs: `start` just before the consumed `[`;
whitespace, then either an immediate `]` (empty array), or a fatal
`MissingArrayBracket` on empty input, or the separated list terminated
by `]` (whose absence is remapped to fatal `MissingArrayBracket`
spanning from the `[`). -/
def array : Nat → Input → PRes (List SpannedValue)
  | 0, _ => .noFuel
  | fuel + 1, i0 =>
      let start := Position.fromAhead i0
      let i := skipWs i0
      if i.startsWith ']' then .ok (i.advance 1) []
      else if i.data.isEmpty then
        .errF ⟨start, ⟨start.col + 1, start.line⟩, .MissingArrayBracket⟩
      else
        match arr_items fuel i start with
        | .ok i1 elems =>
            let i2 := skipWs i1
            match charP ']' i2 with
            | .ok i3 _ => .ok i3 elems
            | .errR e =>
                .errF ⟨start, ⟨e.stop.col - 1, e.stop.line⟩,
                  .MissingArrayBracket⟩
            | .errF e => .errF e
            | .noFuel => .noFuel
        | .errR e => .errR e
        | .errF e => .errF e
        | .noFuel => .noFuel

/-- `key_value` from src/parser.rs: optional leading comma, whitespace;
a `}` or end of input with no comma ends the enclosing loop via
`Error::default()`; then the quoted key (`or_else`: a recoverable
failure becomes fatal `InvalidKey` up to the key delimiter set, starting
before the whitespace when the key text is empty), `cut` colon
(`MissingColon` at the position right after the key), and the value. -/
def key_value : Nat → Input → PRes (String × SpannedValue)
  | 0, _ => .noFuel
  | fuel + 1, i =>
      let c0 := charP ',' i
      let i0 := match c0 with
        | .ok i' _ => i'
        | _ => i
      let comma : Bool := match c0 with
        | .ok _ _ => true
        | _ => false
      let pos_before_space := Position.ofInput i0
      let i1 := skipWs i0
      if (i1.startsWith '\x7d' || i1.data.isEmpty) && !comma then
        .errR Error.default
      else
        let keyRes : PRes String :=
          match charP '"' i1 with
          | .ok i2 _ => string fuel i2
          | .errR e => .errR e
          | .errF e => .errF e
          | .noFuel => .noFuel
        match keyRes with
        | .ok i3 key =>
            let i4 := skipWs i3
            match charP ':' i4 with
            | .ok i5 _ =>
                match json_value fuel i5 with
                | .ok i6 v => .ok i6 (key, v)
                | .errR e => .errR e
                | .errF e => .errF e
                | .noFuel => .noFuel
            | .errR _ =>
                let p := Position.ofInput i3
                .errF ⟨p, p, .MissingColon⟩
            | .errF e => .errF e
            | .noFuel => .noFuel
        | .errR e0 =>
            let tr := take_until_delimiter i1 true
            let endp := Position.fromAhead tr.1
            let st := if tr.2.data.isEmpty then pos_before_space else e0.start
            .errF ⟨st, endp, .InvalidKey tr.2⟩
        | .errF e => .errF e
        | .noFuel => .noFuel

/-- The separator parser of `hash`: like the array separator, but a
comma followed (after whitespace) by `}` is fatal `TrailingComma` at the
comma (the `map_parser` lookahead does not consume the whitespace). -/
def hash_sep (start : Position) (i : Input) : PRes Unit :=
  let i1 := skipWs i
  match charP ',' i1 with
  | .ok i2 _ =>
      if (skipWs i2).startsWith '\x7d' then
        .errF ⟨Position.fromAhead i2, Position.fromAhead i2, .TrailingComma⟩
      else .ok i2 ()
  | .errF e => .errF e
  | .noFuel => .noFuel
  | .errR e =>
      let i2 := skipWs i1
      if !i2.data.isEmpty && !i2.startsWith '\x7d' then
        .errF ⟨start, ⟨e.stop.col - 1, e.stop.line⟩, .MissingComma⟩
      else .errR e

/-- The `(sep, elem)*` loop of `separated_list0` for objects. -/
def kv_loop : Nat → Input → Position → List (String × SpannedValue) →
    PRes (List (String × SpannedValue))
  | 0, _, _, _ => .noFuel
  | fuel + 1, i, start, acc =>
      match hash_sep start i with
      | .errR _ => .ok i acc
      | .errF e => .errF e
      | .noFuel => .noFuel
      | .ok i1 _ =>
          if i1.data.length = i.data.length then
            .errR (fromErrorKind i1 .sepList)
          else
            match key_value fuel i1 with
            | .errR _ => .ok i acc
            | .errF e => .errF e
            | .noFuel => .noFuel
            | .ok i2 kv => kv_loop fuel i2 start (acc ++ [kv])

/-- `separated_list0(sep, key_value)` for objects. -/
def kv_items : Nat → Input → Position → PRes (List (String × SpannedValue))
  | 0, _, _ => .noFuel
  | fuel + 1, i, start =>
      match key_value fuel i with
      | .errR _ => .ok i []
      | .errF e => .errF e
      | .noFuel => .noFuel
      | .ok i1 kv => kv_loop fuel i1 start [kv]

/-- `hash` from src/parser.rs: the separated list of `key_value`s
collected into the map, terminated by `}` (whose absence is remapped to
fatal `MissingObjectBracket` spanning from the `{`). -/
def hash : Nat → Input → PRes (List (String × SpannedValue))
  | 0, _ => .noFuel
  | fuel + 1, i =>
      let start := Position.fromAhead i
      match kv_items fuel i start with
      | .ok i1 pairs =>
          let i2 := skipWs i1
          match charP '\x7d' i2 with
          | .ok i3 _ => .ok i3 (collectPairs pairs)
          | .errR e =>
              .errF ⟨start, ⟨e.stop.col - 1, e.stop.line⟩,
                .MissingObjectBracket⟩
          | .errF e => .errF e
          | .noFuel => .noFuel
      | .errR e => .errR e
      | .errF e => .errF e
      | .noFuel => .noFuel

end

/-- `end_chars` from src/parser.rs: skip whitespace; any remaining text
is a fatal `CharsAfterRoot` carrying the formatted message, spanning
from the first non-whitespace character to just before end of input
(`many_till(anychar, eof)` consumes everything). -/
def end_chars (i : Input) : Except Error Input :=
  let rest := skipWs i
  if rest.data.isEmpty then .ok rest
  else
    let start := Position.ofInput rest
    let endi := rest.advance rest.data.length
    .error ⟨start, Position.fromAhead endi,
      .CharsAfterRoot ("Unexpected chararacters at the end: "
        ++ String.mk rest.data)⟩

/-- `parse` from src/parser.rs: `json_value` on the fresh input, then
`end_chars`; `unwrap_nom_error` merges recoverable and fatal errors.
The fuel `8 * (length + 1)` is proved sufficient (`parse` never returns
`none`): every edge of the call graph strictly decreases
`8 * remaining-length + rank`. -/
def parse (s : String) : Option (Except Error SpannedValue) :=
  match json_value (8 * (s.data.length + 1)) (Input.new s.data) with
  | .ok i v =>
      match end_chars i with
      | .ok _ => some (.ok v)
      | .error e => some (.error e)
  | .errR e => some (.error e)
  | .errF e => some (.error e)
  | .noFuel => none

/-! ### Predicates for the specification's invariants -/

/-- The ten user-facing error kinds of the specification's taxonomy
(§4.2 of the spec). -/
def isSurfaceKind : Kind → Bool
  | .MissingQuote => true
  | .MissingArrayBracket => true
  | .MissingComma => true
  | .MissingObjectBracket => true
  | .MissingColon => true
  | .InvalidKey _ => true
  | .InvalidValue _ => true
  | .NotAnHex _ => true
  | .CharsAfterRoot _ => true
  | .TrailingComma => true
  | _ => false

mutual

/-- Span sanity of a tree: every node has `start ≤ end` in source order
and strictly contains each child's span (children are array elements and
object member values). -/
def spanContainOK : SpannedValue → Bool
  | ⟨v, st, en⟩ => decide (Position.le st en) && childrenContainOK v st en

/-- Children of `v` are strictly inside `(st, en)` and recursively sane. -/
def childrenContainOK : Value → Position → Position → Bool
  | .Array es, st, en => elemsContainOK es st en
  | .Object prs, st, en => pairsContainOK prs st en
  | _, _, _ => true

/-- All array elements strictly inside `(st, en)`. -/
def elemsContainOK : List SpannedValue → Position → Position → Bool
  | [], _, _ => true
  | c :: cs, st, en =>
      decide (Position.lt st c.start) && decide (Position.lt c.stop en)
        && spanContainOK c && elemsContainOK cs st en

/-- All object member values strictly inside `(st, en)`. -/
def pairsContainOK : List (String × SpannedValue) → Position → Position → Bool
  | [], _, _ => true
  | (_, c) :: cs, st, en =>
      decide (Position.lt st c.start) && decide (Position.lt c.stop en)
        && spanContainOK c && pairsContainOK cs st en

end

/-- A position is 1-indexed: line and column at least 1. -/
def posOneIndexed (p : Position) : Bool :=
  decide (1 ≤ p.line) && decide (1 ≤ p.col)

mutual

/-- Every position in the tree (start and end of every node) is
1-indexed. -/
def spanPosOK : SpannedValue → Bool
  | ⟨v, st, en⟩ => posOneIndexed st && posOneIndexed en && valuePosOK v

/-- Positions inside the children of a value are 1-indexed. -/
def valuePosOK : Value → Bool
  | .Array es => elemsPosOK es
  | .Object prs => pairsPosOK prs
  | _ => true

/-- Positions in the array elements are 1-indexed. -/
def elemsPosOK : List SpannedValue → Bool
  | [] => true
  | c :: cs => spanPosOK c && elemsPosOK cs

/-- Positions in the object member values are 1-indexed. -/
def pairsPosOK : List (String × SpannedValue) → Bool
  | [] => true
  | (_, c) :: cs => spanPosOK c && pairsPosOK cs

end

/-! ### Canonical serialization (src/ser.rs plus the serde_json text
layer)

src/ser.rs lowers a `SpannedValue` to its inner `Value` (spans dropped)
and emits via a generic serde `Serializer`; the concrete canonical JSON
text encoding (digit emission for `u64`/`i64`, the string escape table,
bracket/comma/colon syntax) is serde_json's and is modelled from it:
two-character escapes for `"` `\` and the control characters BS HT LF FF
CR, `\u00xy` with lowercase hex for the other control characters, all
other characters verbatim.  An `f64` is emitted by serde_json through
ryu, which is not modelled: the model emits the recorded literal, and
every claim about serialization excludes `Float` leaves. -/

/-- Decimal digit character. -/
def digitChar (d : Nat) : Char := Char.ofNat ('0'.toNat + d)

/-- Digits of `n` (most significant first), by fuel-indexed division;
`natDigits` below instantiates the fuel. -/
def natDigitsAux : Nat → Nat → List Char
  | 0, _ => []
  | _ + 1, 0 => []
  | fuel + 1, n => natDigitsAux fuel (n / 10) ++ [digitChar (n % 10)]

/-- Decimal representation of a `u64` (std `Display`). -/
def natDigits (n : Nat) : List Char :=
  if n = 0 then ['0'] else natDigitsAux n n

/-- Lowercase hex digit character (serde_json's table). -/
def hexDigitChar (d : Nat) : Char :=
  if d < 10 then Char.ofNat ('0'.toNat + d) else Char.ofNat ('a'.toNat + d - 10)

/-- serde_json's escape of one character inside a string literal. -/
def escChar (c : Char) : List Char :=
  if c = '"' then ['\\', '"']
  else if c = '\\' then ['\\', '\\']
  else if c = '\x08' then ['\\', 'b']
  else if c = '\t' then ['\\', 't']
  else if c = '\n' then ['\\', 'n']
  else if c = '\x0C' then ['\\', 'f']
  else if c = '\x0D' then ['\\', 'r']
  else if c.toNat < 0x20 then
    ['\\', 'u', '0', '0', hexDigitChar (c.toNat / 16), hexDigitChar (c.toNat % 16)]
  else [c]

/-- serde_json's escape of a whole string body. -/
def escStr : List Char → List Char
  | [] => []
  | c :: cs => escChar c ++ escStr cs

/-- Emission of a `Number` (ser.rs forwards the variant payload to
`serialize_u64` / `serialize_i64` / `serialize_f64`). -/
def serNumber : Number → List Char
  | .PosInt n => natDigits n
  | .NegInt v => if v < 0 then '-' :: natDigits v.natAbs else natDigits v.natAbs
  | .Float f => f.lit.data

mutual

/-- `Serialize for SpannedValue`: serialize the inner value, dropping
the span. -/
def serSpanned : SpannedValue → List Char
  | ⟨v, _, _⟩ => serValue v

/-- `Serialize for Value` composed with canonical JSON text emission. -/
def serValue : Value → List Char
  | .Null => ['n', 'u', 'l', 'l']
  | .Number n => serNumber n
  | .String s => '"' :: (escStr s.data ++ ['"'])
  | .Bool true => ['t', 'r', 'u', 'e']
  | .Bool false => ['f', 'a', 'l', 's', 'e']
  | .Array es => '[' :: (serElems es ++ [']'])
  | .Object prs => '\x7b' :: (serPairs prs ++ ['\x7d'])

/-- Comma-separated serialization of array elements. -/
def serElems : List SpannedValue → List Char
  | [] => []
  | [x] => serSpanned x
  | x :: xs => serSpanned x ++ ',' :: serElems xs

/-- Comma-separated serialization of `"key": value` members. -/
def serPairs : List (String × SpannedValue) → List Char
  | [] => []
  | [(k, x)] => '"' :: (escStr k.data ++ ['"', ':'] ++ serSpanned x)
  | (k, x) :: xs =>
      '"' :: (escStr k.data ++ ['"', ':'] ++ serSpanned x) ++ ',' :: serPairs xs

end

/-- The canonical serialization of a parse result (a Rust
`serde_json::to_string` of the `SpannedValue`). -/
def serialize (v : SpannedValue) : String := String.mk (serSpanned v)

/-! ### Span-erased values (for comparison modulo spans) -/

/-- `SpannedValue` with every span dropped. -/
inductive JVal : Type where
  | null : JVal
  | num (n : Number) : JVal
  | str (s : String) : JVal
  | bool (b : Boolean) : JVal
  | arr (l : List JVal) : JVal
  | obj (l : List (String × JVal)) : JVal

mutual

/-- Erase the spans of a tree. -/
def eraseSp : SpannedValue → JVal
  | ⟨v, _, _⟩ => eraseVal v

/-- Erase the spans inside a value. -/
def eraseVal : Value → JVal
  | .Null => .null
  | .Number n => .num n
  | .String s => .str s
  | .Bool b => .bool b
  | .Array es => .arr (eraseElems es)
  | .Object prs => .obj (erasePairs prs)

/-- Erase spans across array elements. -/
def eraseElems : List SpannedValue → List JVal
  | [] => []
  | x :: xs => eraseSp x :: eraseElems xs

/-- Erase spans across object members. -/
def erasePairs : List (String × SpannedValue) → List (String × JVal)
  | [] => []
  | (k, x) :: xs => (k, eraseSp x) :: erasePairs xs

end

mutual

/-- The tree contains no `Float` leaf and no non-negative `NegInt`
leaf, and integer payloads are within the machine range (all true of
any `Float`-free parse result; hypotheses of the serialization
round-trip). -/
def serializableSp : SpannedValue → Bool
  | ⟨v, _, _⟩ => serializableVal v

/-- See `serializableSp`. -/
def serializableVal : Value → Bool
  | .Null => true
  | .Number (.PosInt n) => decide (n < 2 ^ 64)
  | .Number (.NegInt v) => decide (-(2 ^ 63 : Int) ≤ v) && decide (v < 0)
  | .Number (.Float _) => false
  | .String _ => true
  | .Bool _ => true
  | .Array es => serializableElems es
  | .Object prs => serializablePairs prs

/-- See `serializableSp`. -/
def serializableElems : List SpannedValue → Bool
  | [] => true
  | x :: xs => serializableSp x && serializableElems xs

/-- See `serializableSp`. -/
def serializablePairs : List (String × SpannedValue) → Bool
  | [] => true
  | (_, x) :: xs => serializableSp x && serializablePairs xs

end

mutual

/-- Integer payloads of all numbers in the tree lie in the 64-bit ranges
enforced by the number production (`u64` for `PosInt`, non-positive
`i64` for `NegInt`). -/
def numBoundedSp : SpannedValue → Bool
  | ⟨v, _, _⟩ => numBoundedVal v

/-- See `numBoundedSp`. -/
def numBoundedVal : Value → Bool
  | .Number (.PosInt n) => decide (n < 2 ^ 64)
  | .Number (.NegInt v) => decide (-(2 ^ 63 : Int) ≤ v) && decide (v ≤ 0)
  | .Array es => numBoundedElems es
  | .Object prs => numBoundedPairs prs
  | _ => true

/-- See `numBoundedSp`. -/
def numBoundedElems : List SpannedValue → Bool
  | [] => true
  | x :: xs => numBoundedSp x && numBoundedElems xs

/-- See `numBoundedSp`. -/
def numBoundedPairs : List (String × SpannedValue) → Bool
  | [] => true
  | (_, x) :: xs => numBoundedSp x && numBoundedPairs xs

end

/-- `i'` is `i` advanced past an in-bounds prefix. -/
def AdvOf (i i' : Input) : Prop :=
  ∃ n, n ≤ i.data.length ∧ i' = i.advance n

/-- `i'` is `i` advanced past a nonempty in-bounds prefix. -/
def AdvOf1 (i i' : Input) : Prop :=
  ∃ n, 1 ≤ n ∧ n ≤ i.data.length ∧ i' = i.advance n

/-- The input position is 1-indexed. -/
def posWF (i : Input) : Prop := 1 ≤ i.line ∧ 1 ≤ i.col

/-! ### Statements of the success invariant (proved by induction on the
fuel below; each production's `ok` results advance the input, keep the
position well-formed, and produce span-sane trees) -/

/-- Common facts about a production's successful output input: a
nonempty advance, well-formed, with column at least 2 (the last consumed
character of every production is not a newline). -/
def OkFacts (i i' : Input) : Prop :=
  AdvOf1 i i' ∧ posWF i' ∧ 2 ≤ i'.col

/-- Invariant of an already-parsed element `c` of an array or object
while the enclosing loop is at input `iCur`: its subtree is span-sane,
it starts strictly after `start0` (the enclosing bracket), and it ends
at `fromAhead` of some input that `iCur` has advanced from. -/
def ElemOK (start0 : Position) (iCur : Input) (c : SpannedValue) : Prop :=
  spanContainOK c = true ∧ spanPosOK c = true ∧ numBoundedSp c = true
  ∧ Position.lt start0 c.start
  ∧ ∃ a : Input, posWF a ∧ 2 ≤ a.col ∧ c.stop = Position.fromAhead a ∧ AdvOf a iCur

/-- Success invariant of `json_value` at a given fuel. -/
def JVOk (fuel : Nat) : Prop :=
  ∀ i i' v, posWF i → json_value fuel i = .ok i' v →
    OkFacts i i' ∧ v.start = Position.ofInput (skipWs i)
    ∧ v.stop = Position.fromAhead i'
    ∧ spanContainOK v = true ∧ spanPosOK v = true ∧ numBoundedSp v = true

/-- Success invariant of `array` at a given fuel. -/
def ArrOk (fuel : Nat) : Prop :=
  ∀ i i' es, posWF i → array fuel i = .ok i' es →
    OkFacts i i' ∧ ∀ c ∈ es, spanContainOK c = true ∧ spanPosOK c = true
      ∧ numBoundedSp c = true
      ∧ Position.lt (Position.fromAhead i) c.start
      ∧ Position.lt c.stop (Position.fromAhead i')

/-- Success invariant of `hash` at a given fuel. -/
def HashOk (fuel : Nat) : Prop :=
  ∀ i i' prs, posWF i → hash fuel i = .ok i' prs →
    OkFacts i i' ∧ ∀ kv ∈ prs, spanContainOK kv.2 = true
      ∧ spanPosOK kv.2 = true ∧ numBoundedSp kv.2 = true
      ∧ Position.lt (Position.fromAhead i) kv.2.start
      ∧ Position.lt kv.2.stop (Position.fromAhead i')

/-- Success invariant of `arr_elem` at a given fuel. -/
def AElemOk (fuel : Nat) : Prop :=
  ∀ i i' v, posWF i → arr_elem fuel i = .ok i' v →
    OkFacts i i' ∧ v.start = Position.ofInput (skipWs i)
    ∧ v.stop = Position.fromAhead i'
    ∧ spanContainOK v = true ∧ spanPosOK v = true ∧ numBoundedSp v = true

/-- Success invariant of `arr_loop` at a given fuel. -/
def ALoopOk (fuel : Nat) : Prop :=
  ∀ i start0 acc i' out, posWF i →
    (∀ c ∈ acc, ElemOK start0 i c) →
    (∃ b, posWF b ∧ start0 = Position.fromAhead b ∧ AdvOf b i) →
    arr_loop fuel i start0 acc = .ok i' out →
    AdvOf i i' ∧ posWF i' ∧ ∀ c ∈ out, ElemOK start0 i' c

/-- Success invariant of `arr_items` at a given fuel. -/
def AItemsOk (fuel : Nat) : Prop :=
  ∀ i start0 i' out, posWF i →
    (∃ b, posWF b ∧ start0 = Position.fromAhead b ∧ AdvOf b i) →
    arr_items fuel i start0 = .ok i' out →
    AdvOf i i' ∧ posWF i' ∧ ∀ c ∈ out, ElemOK start0 i' c

/-- Success invariant of `key_value` at a given fuel. -/
def KVOk (fuel : Nat) : Prop :=
  ∀ i i' kv, posWF i → key_value fuel i = .ok i' kv →
    OkFacts i i' ∧ spanContainOK kv.2 = true ∧ spanPosOK kv.2 = true
    ∧ numBoundedSp kv.2 = true
    ∧ Position.le (Position.ofInput i) kv.2.start
    ∧ ∃ a, posWF a ∧ 2 ≤ a.col ∧ kv.2.stop = Position.fromAhead a ∧ AdvOf a i'

/-- Success invariant of `kv_loop` at a given fuel. -/
def KLoopOk (fuel : Nat) : Prop :=
  ∀ i start0 acc i' out, posWF i →
    (∀ kv ∈ acc, ElemOK start0 i kv.2) →
    (∃ b, posWF b ∧ start0 = Position.fromAhead b ∧ AdvOf b i) →
    kv_loop fuel i start0 acc = .ok i' out →
    AdvOf i i' ∧ posWF i' ∧ ∀ kv ∈ out, ElemOK start0 i' kv.2

/-- Success invariant of `kv_items` at a given fuel. -/
def KItemsOk (fuel : Nat) : Prop :=
  ∀ i start0 i' out, posWF i →
    (∃ b, posWF b ∧ start0 = Position.fromAhead b ∧ AdvOf b i) →
    kv_items fuel i start0 = .ok i' out →
    AdvOf i i' ∧ posWF i' ∧ ∀ kv ∈ out, ElemOK start0 i' kv.2

/-- The error kinds that `parse` can return: the ten user-facing kinds
of the taxonomy plus `NotANumber` and the low-level `NomError` wrapper
(`ToBeDefined` is proved never to escape). -/
def surfaceableKind : Kind → Bool
  | .NotANumber => true
  | .NomError _ => true
  | k => isSurfaceKind k

/-- Every error (recoverable or fatal) of a production result carries a
kind that `parse` is allowed to surface. -/
def ErrOK {α : Type} (r : PRes α) : Prop :=
  ∀ e, r = .errR e ∨ r = .errF e → surfaceableKind e.kind = true

/-- Error-kind invariant of `json_value`. -/
def JVErr (fuel : Nat) : Prop := ∀ i, ErrOK (json_value fuel i)

/-- Error-kind invariant of `array`. -/
def ArrErr (fuel : Nat) : Prop := ∀ i, ErrOK (array fuel i)

/-- Error-kind invariant of `hash`. -/
def HashErr (fuel : Nat) : Prop := ∀ i, ErrOK (hash fuel i)

/-- Error-kind invariant of `arr_elem`. -/
def AElemErr (fuel : Nat) : Prop := ∀ i, ErrOK (arr_elem fuel i)

/-- Error-kind invariant of `arr_loop`. -/
def ALoopErr (fuel : Nat) : Prop :=
  ∀ i st acc, ErrOK (arr_loop fuel i st acc)

/-- Error-kind invariant of `arr_items`. -/
def AItemsErr (fuel : Nat) : Prop := ∀ i st, ErrOK (arr_items fuel i st)

/-- Error-kind invariant of `key_value`: fatal errors carry surfaceable
kinds; recoverable ones may also be `Error::default()` (the
object-member loops catch every recoverable error). -/
def KVErr (fuel : Nat) : Prop :=
  ∀ i e, (key_value fuel i = .errR e →
      surfaceableKind e.kind = true ∨ e = Error.default)
    ∧ (key_value fuel i = .errF e → surfaceableKind e.kind = true)

/-- Error-kind invariant of `kv_loop`. -/
def KLoopErr (fuel : Nat) : Prop :=
  ∀ i st acc, ErrOK (kv_loop fuel i st acc)

/-- Error-kind invariant of `kv_items`. -/
def KItemsErr (fuel : Nat) : Prop := ∀ i st, ErrOK (kv_items fuel i st)

/-- A suffix is a valid continuation after a serialized number token:
empty, or starting with one of the `take_until_delimiter` delimiters
(always the case inside serialized arrays and objects). -/
def restOk : List Char → Bool
  | [] => true
  | c :: _ => isDelim false c

/-- The text of the second and later serialized array elements (each
preceded by its comma); `serElems (x :: xs) = serSpanned x ++
serElemsSep xs`. -/
def serElemsSep : List SpannedValue → List Char
  | [] => []
  | x :: xs => ',' :: (serSpanned x ++ serElemsSep xs)

/-- The serialized text of one object member. -/
def pairTxt (p : String × SpannedValue) : List Char :=
  '"' :: (escStr p.1.data ++ ['"', ':'] ++ serSpanned p.2)

/-- The text of the second and later serialized object members. -/
def serPairsSep : List (String × SpannedValue) → List Char
  | [] => []
  | p :: ps => ',' :: (pairTxt p ++ serPairsSep ps)

/-- No key occurs twice in the list. -/
def keysND : List String → Bool
  | [] => true
  | k :: ks => !ks.contains k && keysND ks

mutual

/-- Every `Object` node of the tree has pairwise-distinct keys (true of
every parse result, whose objects are `collectPairs` images). -/
def dedupSp : SpannedValue → Bool
  | ⟨v, _, _⟩ => dedupVal v

/-- See `dedupSp`. -/
def dedupVal : Value → Bool
  | .Array es => dedupElems es
  | .Object prs => keysND (prs.map Prod.fst) && dedupPairs prs
  | _ => true

/-- See `dedupSp`. -/
def dedupElems : List SpannedValue → Bool
  | [] => true
  | x :: xs => dedupSp x && dedupElems xs

/-- See `dedupSp`. -/
def dedupPairs : List (String × SpannedValue) → Bool
  | [] => true
  | (_, x) :: xs => dedupSp x && dedupPairs xs

end

/-! ### The dedup invariant: every parse result has pairwise-distinct
keys at each object node (objects are `collectPairs` images) -/

/-- Dedup invariant of `json_value` at a given fuel. -/
def JVD (fuel : Nat) : Prop :=
  ∀ i i' v, json_value fuel i = .ok i' v → dedupSp v = true

/-- Dedup invariant of `array` at a given fuel. -/
def ArrD (fuel : Nat) : Prop :=
  ∀ i i' es, array fuel i = .ok i' es → ∀ c ∈ es, dedupSp c = true

/-- Dedup invariant of `hash` at a given fuel. -/
def HashD (fuel : Nat) : Prop :=
  ∀ i i' prs, hash fuel i = .ok i' prs →
    keysND (prs.map Prod.fst) = true ∧ ∀ kv ∈ prs, dedupSp kv.2 = true

/-- Dedup invariant of `arr_elem` at a given fuel. -/
def AElemD (fuel : Nat) : Prop :=
  ∀ i i' v, arr_elem fuel i = .ok i' v → dedupSp v = true

/-- Dedup invariant of `arr_loop` at a given fuel. -/
def ALoopD (fuel : Nat) : Prop :=
  ∀ i st acc i' out, (∀ c ∈ acc, dedupSp c = true) →
    arr_loop fuel i st acc = .ok i' out → ∀ c ∈ out, dedupSp c = true

/-- Dedup invariant of `arr_items` at a given fuel. -/
def AItemsD (fuel : Nat) : Prop :=
  ∀ i st i' out, arr_items fuel i st = .ok i' out →
    ∀ c ∈ out, dedupSp c = true

/-- Dedup invariant of `key_value` at a given fuel. -/
def KVD (fuel : Nat) : Prop :=
  ∀ i i' kv, key_value fuel i = .ok i' kv → dedupSp kv.2 = true

/-- Dedup invariant of `kv_loop` at a given fuel. -/
def KLoopD (fuel : Nat) : Prop :=
  ∀ i st acc i' out, (∀ kv ∈ acc, dedupSp kv.2 = true) →
    kv_loop fuel i st acc = .ok i' out → ∀ kv ∈ out, dedupSp kv.2 = true

/-- Dedup invariant of `kv_items` at a given fuel. -/
def KItemsD (fuel : Nat) : Prop :=
  ∀ i st i' out, kv_items fuel i st = .ok i' out →
    ∀ kv ∈ out, dedupSp kv.2 = true


mutual

/-- Size of a tree (for strong induction). -/
def sizeSp : SpannedValue → Nat
  | ⟨v, _, _⟩ => sizeVal v

/-- See `sizeSp`. -/
def sizeVal : Value → Nat
  | .Array es => 1 + sizeElems es
  | .Object prs => 1 + sizePairs prs
  | _ => 1

/-- See `sizeSp`. -/
def sizeElems : List SpannedValue → Nat
  | [] => 0
  | x :: xs => sizeSp x + sizeElems xs

/-- See `sizeSp`. -/
def sizePairs : List (String × SpannedValue) → Nat
  | [] => 0
  | (_, x) :: xs => sizeSp x + sizePairs xs

end

theorem Position.lt_trans {p q r : Position} (h₁ : Position.lt p q)
    (h₂ : Position.lt q r) : Position.lt p r := by
  rcases h₁ with h₁ | ⟨e₁, h₁⟩ <;> rcases h₂ with h₂ | ⟨e₂, h₂⟩ <;>
    unfold Position.lt <;> omega

theorem Position.le_of_lt {p q : Position} (h : Position.lt p q) :
    Position.le p q := by
  rcases h with h | ⟨e, h⟩ <;> unfold Position.le <;> omega

theorem Position.le_trans {p q r : Position} (h₁ : Position.le p q)
    (h₂ : Position.le q r) : Position.le p r := by
  rcases h₁ with h₁ | ⟨e₁, h₁⟩ <;> rcases h₂ with h₂ | ⟨e₂, h₂⟩ <;>
    unfold Position.le <;> omega

theorem Position.lt_of_lt_of_le {p q r : Position} (h₁ : Position.lt p q)
    (h₂ : Position.le q r) : Position.lt p r := by
  rcases h₁ with h₁ | ⟨e₁, h₁⟩ <;> rcases h₂ with h₂ | ⟨e₂, h₂⟩ <;>
    unfold Position.lt <;> omega

theorem Position.le_of_le_of_lt {p q r : Position} (h₁ : Position.le p q)
    (h₂ : Position.lt q r) : Position.lt p r := by
  rcases h₁ with h₁ | ⟨e₁, h₁⟩ <;> rcases h₂ with h₂ | ⟨e₂, h₂⟩ <;>
    unfold Position.lt <;> omega

/-- One-character position update: a newline moves to the next line and
resets the column to 1; any other scalar value advances the column by 1. -/
def stepPos (p : Nat × Nat) (c : Char) : Nat × Nat :=
  if c = '\n' then (p.1 + 1, 1) else (p.1, p.2 + 1)

theorem afterLastNl_nil : afterLastNl [] = [] := rfl

theorem afterLastNl_append_one (l : List Char) (c : Char) :
    afterLastNl (l ++ [c]) =
      if c = '\n' then [] else afterLastNl l ++ [c] := by
  unfold afterLastNl
  rw [List.reverse_append]
  simp only [List.reverse_cons, List.reverse_nil, List.nil_append,
    List.singleton_append, List.takeWhile_cons]
  by_cases h : c = '\n'
  · simp [h]
  · simp [h]

theorem slicePos_append_one (line col : Nat) (l : List Char) (c : Char) :
    slicePos line col (l ++ [c]) = stepPos (slicePos line col l) c := by
  unfold slicePos stepPos
  rw [afterLastNl_append_one]
  by_cases h : c = '\n'
  · simp only [h, if_true, List.count_append, List.count_cons, List.count_nil]
    simp
    omega
  · have hc : (List.count '\n' [c]) = 0 := by
      simp [List.count_cons, h]
    simp only [List.count_append, hc, Nat.add_zero, if_neg h]
    by_cases h0 : l.count '\n' = 0
    · simp [h0, List.length_append]; omega
    · simp only [h0, if_neg h0]
      simp [List.length_append]

/-- The batch position update of `slice_common` is the left fold of the
single-character update over the consumed prefix. -/
theorem slicePos_eq_foldl (line col : Nat) (l : List Char) :
    slicePos line col l = l.foldl stepPos (line, col) := by
  induction l using List.reverseRecOn with
  | nil => simp [slicePos, afterLastNl_nil]
  | append_singleton l c ih =>
    rw [slicePos_append_one, List.foldl_append, ih]
    rfl

theorem advance_zero (i : Input) : i.advance 0 = i := by
  simp [Input.advance]

/-- `advance` in terms of the fold (for nonempty prefixes; for `n = 0`
see `advance_zero` — the two agree since the fold over `[]` is the
identity). -/
theorem advance_eq_foldl (i : Input) (n : Nat) :
    i.advance n =
      ⟨i.data.drop n, ((i.data.take n).foldl stepPos (i.line, i.col)).1,
        ((i.data.take n).foldl stepPos (i.line, i.col)).2⟩ := by
  unfold Input.advance
  by_cases h : (i.data.take n).isEmpty
  · rw [if_pos h]
    rw [List.isEmpty_iff] at h
    rw [h]
    rfl
  · rw [if_neg h, slicePos_eq_foldl]

theorem advance_advance (i : Input) (a b : Nat) :
    (i.advance a).advance b = i.advance (a + b) := by
  rw [advance_eq_foldl, advance_eq_foldl, advance_eq_foldl]
  have h1 : (i.data.drop a).drop b = i.data.drop (a + b) := by
    rw [List.drop_drop, Nat.add_comm]
  have h2 : (i.data.take (a + b)).foldl stepPos (i.line, i.col)
      = ((i.data.drop a).take b).foldl stepPos
          ((i.data.take a).foldl stepPos (i.line, i.col)) := by
    rw [List.take_add, List.foldl_append]
  rw [h1, h2]

theorem afterLastNl_of_count_zero {l : List Char} (h : l.count '\n' = 0) :
    afterLastNl l = l := by
  unfold afterLastNl
  have hall : ∀ c ∈ l.reverse, c ≠ '\n' := by
    intro c hc
    rw [List.mem_reverse] at hc
    intro he
    subst he
    have := List.count_pos_iff.mpr hc
    omega
  rw [List.takeWhile_eq_self_iff.mpr ?_, List.reverse_reverse]
  intro c hc
  exact decide_eq_true (hall c hc)

theorem length_afterLastNl_le (l : List Char) :
    (afterLastNl l).length ≤ l.length := by
  unfold afterLastNl
  calc ((l.reverse.takeWhile (fun c => c ≠ '\n')).reverse).length
      = (l.reverse.takeWhile (fun c => c ≠ '\n')).length := List.length_reverse _
    _ ≤ l.reverse.length := (List.takeWhile_sublist _).length_le
    _ = l.length := List.length_reverse _

theorem afterLastNl_append_no_nl {a b : List Char} (h : b.count '\n' = 0) :
    afterLastNl (a ++ '\n' :: b) = b := by
  unfold afterLastNl
  rw [List.reverse_append, List.reverse_cons, List.append_assoc]
  have hself : List.takeWhile (fun c => decide (c ≠ '\n')) b.reverse
      = b.reverse := by
    refine List.takeWhile_eq_self_iff.mpr ?_
    intro c hc
    rw [List.mem_reverse] at hc
    refine decide_eq_true ?_
    intro he
    subst he
    have := List.count_pos_iff.mpr hc
    omega
  rw [List.takeWhile_append, hself, if_pos rfl, List.singleton_append,
    List.takeWhile_cons_of_neg (by simp), List.append_nil,
    List.reverse_reverse]

/-- Advancing preserves well-formedness of the position (line and column
at least 1). -/
theorem advance_pos_ge_one (i : Input) (n : Nat) (hl : 1 ≤ i.line)
    (hc : 1 ≤ i.col) : 1 ≤ (i.advance n).line ∧ 1 ≤ (i.advance n).col := by
  unfold Input.advance
  by_cases h : (i.data.take n).isEmpty
  · rw [if_pos h]; exact ⟨hl, hc⟩
  · rw [if_neg h]
    unfold slicePos
    constructor
    · simp only; omega
    · simp only
      by_cases h0 : (i.data.take n).count '\n' = 0
      · rw [if_pos h0]; omega
      · rw [if_neg h0]; omega

theorem advance_line_ge (i : Input) (n : Nat) :
    i.line ≤ (i.advance n).line := by
  unfold Input.advance
  by_cases h : (i.data.take n).isEmpty
  · rw [if_pos h]
  · rw [if_neg h]; unfold slicePos; simp only; omega

/-- A nonempty in-bounds advance strictly increases the position in
source order. -/
theorem ofInput_lt_advance (i : Input) (n : Nat) (h1 : 1 ≤ n)
    (h2 : n ≤ i.data.length) :
    Position.lt (Position.ofInput i) (Position.ofInput (i.advance n)) := by
  have hlen : (i.data.take n).length = n := by
    rw [List.length_take]; omega
  have hne : ¬(i.data.take n).isEmpty := by
    rw [List.isEmpty_iff, ← List.length_eq_zero]
    omega
  unfold Input.advance
  rw [if_neg hne]
  unfold slicePos Position.lt Position.ofInput
  by_cases h0 : (i.data.take n).count '\n' = 0
  · right
    refine ⟨by simp [h0], ?_⟩
    rw [if_pos h0, afterLastNl_of_count_zero h0, hlen]
    dsimp only
    omega
  · left
    simp only
    omega

theorem ofInput_le_advance (i : Input) (n : Nat) :
    Position.le (Position.ofInput i) (Position.ofInput (i.advance n)) := by
  unfold Input.advance
  by_cases h : (i.data.take n).isEmpty
  · rw [if_pos h]
    right
    exact ⟨rfl, le_refl _⟩
  · rw [if_neg h]
    unfold slicePos Position.le Position.ofInput
    by_cases h0 : (i.data.take n).count '\n' = 0
    · right
      constructor
      · simp [h0]
      · rw [if_pos h0]; dsimp only; omega
    · left; simp only; omega

/-- If the consumed prefix contains no newline, the line is unchanged and
the column advances by the prefix length. -/
theorem advance_no_nl (i : Input) (n : Nat)
    (h0 : (i.data.take n).count '\n' = 0) :
    (i.advance n).line = i.line ∧
      (i.advance n).col = i.col + (i.data.take n).length := by
  unfold Input.advance
  by_cases h : (i.data.take n).isEmpty
  · rw [if_pos h]
    rw [List.isEmpty_iff] at h
    simp [h]
  · rw [if_neg h]
    unfold slicePos
    refine ⟨by simp [h0], ?_⟩
    rw [if_pos h0, afterLastNl_of_count_zero h0]

/-- If the last consumed character is not a newline and at least one
character is consumed, the resulting column is at least 2. -/
theorem advance_col_ge_two (i : Input) (n : Nat) (hc : 1 ≤ i.col)
    (h1 : 1 ≤ n) (h2 : n ≤ i.data.length)
    (hlast : ∀ hne : i.data.take n ≠ [], (i.data.take n).getLast hne ≠ '\n') :
    2 ≤ (i.advance n).col := by
  have hlen : (i.data.take n).length = n := by
    rw [List.length_take]; omega
  have hne : i.data.take n ≠ [] := by
    rw [← List.length_pos_iff_ne_nil]; omega
  have hne' : ¬(i.data.take n).isEmpty := by
    rw [List.isEmpty_iff]; exact hne
  unfold Input.advance
  rw [if_neg hne']
  unfold slicePos
  simp only
  by_cases h0 : (i.data.take n).count '\n' = 0
  · rw [if_pos h0, afterLastNl_of_count_zero h0, hlen]; omega
  · rw [if_neg h0]
    have : 1 ≤ (afterLastNl (i.data.take n)).length := by
      unfold afterLastNl
      have hrne : (i.data.take n).reverse ≠ [] := by
        simpa using hne
      obtain ⟨x, xs, hx⟩ := List.exists_cons_of_ne_nil hrne
      have hxval : x ≠ '\n' := by
        have hh : (i.data.take n).getLast hne = x := by
          rw [List.getLast_eq_head_reverse]
          simp [hx]
        rw [← hh]
        exact hlast hne
      have hstep : List.takeWhile (fun c => decide (c ≠ '\n')) (x :: xs)
          = x :: List.takeWhile (fun c => decide (c ≠ '\n')) xs :=
        List.takeWhile_cons_of_pos (decide_eq_true hxval)
      rw [hx, hstep]
      simp
    omega

/-! ### Advance-relation toolkit -/

theorem advance_data (i : Input) (n : Nat) :
    (i.advance n).data = i.data.drop n := by
  unfold Input.advance
  by_cases h : (i.data.take n).isEmpty
  · rw [if_pos h]
  · rw [if_neg h]

theorem advance_length (i : Input) (n : Nat) :
    (i.advance n).data.length = i.data.length - n := by
  rw [advance_data, List.length_drop]

/-- Dichotomy of a nonempty in-bounds advance: either no newline was
crossed (same line, column advanced by exactly the prefix length) or the
line strictly increased. -/
theorem advance_dichotomy (i : Input) (n : Nat) (h2 : n ≤ i.data.length) :
    ((i.advance n).line = i.line ∧ (i.advance n).col = i.col + n)
  ∨ (i.line < (i.advance n).line) := by
  by_cases h0 : (i.data.take n).count '\n' = 0
  · left
    have := advance_no_nl i n h0
    rw [List.length_take] at this
    refine ⟨this.1, ?_⟩
    rw [this.2]
    congr 1
    omega
  · right
    have hne : ¬(i.data.take n).isEmpty := by
      rw [List.isEmpty_iff]
      intro hh
      rw [hh] at h0
      exact h0 rfl
    unfold Input.advance
    rw [if_neg hne]
    unfold slicePos
    simp only
    omega

theorem AdvOf.refl (i : Input) : AdvOf i i :=
  ⟨0, Nat.zero_le _, (advance_zero i).symm⟩

theorem AdvOf1.toAdvOf {a b : Input} (h : AdvOf1 a b) : AdvOf a b := by
  obtain ⟨n, _, h2, h3⟩ := h
  exact ⟨n, h2, h3⟩

theorem AdvOf.trans {a b c : Input} (h₁ : AdvOf a b) (h₂ : AdvOf b c) :
    AdvOf a c := by
  obtain ⟨n₁, hb₁, he₁⟩ := h₁
  obtain ⟨n₂, hb₂, he₂⟩ := h₂
  refine ⟨n₁ + n₂, ?_, ?_⟩
  · rw [he₁, advance_length] at hb₂
    omega
  · rw [he₂, he₁, advance_advance]

theorem AdvOf.trans1 {a b c : Input} (h₁ : AdvOf a b) (h₂ : AdvOf1 b c) :
    AdvOf1 a c := by
  obtain ⟨n₁, hb₁, he₁⟩ := h₁
  obtain ⟨n₂, h1₂, hb₂, he₂⟩ := h₂
  refine ⟨n₁ + n₂, by omega, ?_, ?_⟩
  · rw [he₁, advance_length] at hb₂
    omega
  · rw [he₂, he₁, advance_advance]

theorem AdvOf1.trans' {a b c : Input} (h₁ : AdvOf1 a b) (h₂ : AdvOf b c) :
    AdvOf1 a c := by
  obtain ⟨n₁, h1₁, hb₁, he₁⟩ := h₁
  obtain ⟨n₂, hb₂, he₂⟩ := h₂
  refine ⟨n₁ + n₂, by omega, ?_, ?_⟩
  · rw [he₁, advance_length] at hb₂
    omega
  · rw [he₂, he₁, advance_advance]

theorem AdvOf.posWF {a b : Input} (h : AdvOf a b) (hw : posWF a) : posWF b := by
  obtain ⟨n, _, he⟩ := h
  rw [he]
  exact advance_pos_ge_one a n hw.1 hw.2

theorem AdvOf.length_le {a b : Input} (h : AdvOf a b) :
    b.data.length ≤ a.data.length := by
  obtain ⟨n, _, he⟩ := h
  rw [he, advance_length]
  omega

theorem AdvOf1.length_lt {a b : Input} (h : AdvOf1 a b) :
    b.data.length < a.data.length := by
  obtain ⟨n, h1, h2, he⟩ := h
  rw [he, advance_length]
  omega

theorem AdvOf.ofInput_le {a b : Input} (h : AdvOf a b) :
    Position.le (Position.ofInput a) (Position.ofInput b) := by
  obtain ⟨n, _, he⟩ := h
  rw [he]
  exact ofInput_le_advance a n

theorem AdvOf1.ofInput_lt {a b : Input} (h : AdvOf1 a b) :
    Position.lt (Position.ofInput a) (Position.ofInput b) := by
  obtain ⟨n, h1, h2, he⟩ := h
  rw [he]
  exact ofInput_lt_advance a n h1 h2

theorem AdvOf1.ofInput_le_fromAhead {a b : Input} (h : AdvOf1 a b) :
    Position.le (Position.ofInput a) (Position.fromAhead b) := by
  obtain ⟨n, h1, h2, he⟩ := h
  rcases advance_dichotomy a n h2 with ⟨hl, hc⟩ | hl
  · rw [he]
    right
    unfold Position.ofInput Position.fromAhead
    constructor
    · exact hl.symm
    · simp only
      omega
  · rw [he]
    left
    exact hl

theorem AdvOf1.fromAhead_lt {a b : Input} (hc : 1 ≤ a.col) (h : AdvOf1 a b) :
    Position.lt (Position.fromAhead a) (Position.fromAhead b) := by
  obtain ⟨n, h1, h2, he⟩ := h
  rcases advance_dichotomy a n h2 with ⟨hl, hcc⟩ | hl
  · rw [he]
    right
    unfold Position.fromAhead
    constructor
    · exact hl.symm
    · simp only
      omega
  · rw [he]
    left
    exact hl

theorem fromAhead_lt_ofInput {a : Input} (hc : 1 ≤ a.col) :
    Position.lt (Position.fromAhead a) (Position.ofInput a) := by
  right
  refine ⟨rfl, ?_⟩
  show a.col - 1 < a.col
  omega

theorem fromAhead_le_ofInput (a : Input) :
    Position.le (Position.fromAhead a) (Position.ofInput a) := by
  right
  refine ⟨rfl, ?_⟩
  show a.col - 1 ≤ a.col
  omega

/-- Consuming a single non-newline character advances the column by one
on the same line. -/
theorem advance_one_cons {i : Input} {c : Char} {rest : List Char}
    (hd : i.data = c :: rest) (hnl : c ≠ '\n') :
    (i.advance 1).data = rest ∧ (i.advance 1).line = i.line
      ∧ (i.advance 1).col = i.col + 1 := by
  have ht : i.data.take 1 = [c] := by rw [hd]; rfl
  have h0 : (i.data.take 1).count '\n' = 0 := by
    rw [ht]
    simp [List.count_cons, hnl]
  have := advance_no_nl i 1 h0
  refine ⟨?_, this.1, ?_⟩
  · rw [advance_data, hd]
    rfl
  · rw [this.2, ht]
    rfl

/-- The advance past a newline-free prefix keeps the line and adds the
prefix length to the column. -/
theorem advance_no_nl_all {i : Input} {n : Nat}
    (h : ∀ c ∈ i.data.take n, c ≠ '\n') :
    (i.advance n).line = i.line
      ∧ (i.advance n).col = i.col + (i.data.take n).length := by
  have h0 : (i.data.take n).count '\n' = 0 := by
    rw [List.count_eq_zero]
    intro hmem
    exact absurd rfl (h _ hmem)
  exact advance_no_nl i n h0

/-! ### Primitive parser characterizations -/

theorem take_length_takeWhile (p : Char → Bool) (l : List Char) :
    l.take (l.takeWhile p).length = l.takeWhile p := by
  induction l with
  | nil => rfl
  | cons c t ih =>
      by_cases h : p c
      · rw [List.takeWhile_cons_of_pos h]
        simpa using ih
      · rw [List.takeWhile_cons_of_neg (by simpa using h)]
        rfl

theorem skipWs_advof (i : Input) : AdvOf i (skipWs i) :=
  ⟨(i.data.takeWhile isWsChar).length,
    by
      calc (i.data.takeWhile isWsChar).length
          ≤ i.data.length := (List.takeWhile_sublist _).length_le
      ,
    rfl⟩

theorem skipWs_data (i : Input) :
    (skipWs i).data = i.data.dropWhile isWsChar := by
  unfold skipWs
  rw [advance_data]
  generalize i.data = l
  induction l with
  | nil => rfl
  | cons c t ih =>
      by_cases h : isWsChar c
      · rw [List.takeWhile_cons_of_pos h, List.dropWhile_cons_of_pos h]
        simpa using ih
      · rw [List.takeWhile_cons_of_neg (by simpa using h),
          List.dropWhile_cons_of_neg (by simpa using h)]
        rfl

theorem skipWs_head_not_ws {i : Input} {c : Char} {rest : List Char}
    (h : (skipWs i).data = c :: rest) : isWsChar c = false := by
  rw [skipWs_data] at h
  have := List.head_dropWhile_not isWsChar i.data
  rw [h] at this
  simpa using this

theorem charP_ok {c : Char} {i i' : Input} {c' : Char}
    (h : charP c i = .ok i' c') :
    c' = c ∧ (∃ rest, i.data = c :: rest) ∧ i' = i.advance 1 := by
  unfold charP at h
  cases hd : i.data with
  | nil => rw [hd] at h; cases h
  | cons x rest =>
      rw [hd] at h
      have h2 : (if x = c then PRes.ok (i.advance 1) c
          else PRes.errR (fromErrorKind i .chr)) = PRes.ok i' c' := h
      by_cases hx : x = c
      · rw [if_pos hx] at h2
        cases h2
        exact ⟨rfl, ⟨rest, by rw [hx]⟩, rfl⟩
      · rw [if_neg hx] at h2
        cases h2

theorem tagP_ok {t : List Char} {i i' : Input} {u : Unit}
    (h : tagP t i = .ok i' u) :
    i.data.take t.length = t ∧ i' = i.advance t.length := by
  unfold tagP at h
  by_cases ht : i.data.take t.length = t
  · rw [if_pos ht] at h
    cases h
    exact ⟨ht, rfl⟩
  · rw [if_neg ht] at h
    cases h

theorem take_until_delimiter_spec (i : Input) (k : Bool) :
    AdvOf i (take_until_delimiter i k).1
  ∧ (take_until_delimiter i k).1.line = i.line
  ∧ i.col ≤ (take_until_delimiter i k).1.col := by
  unfold take_until_delimiter
  simp only
  have hb : (i.data.takeWhile (fun c => !isDelim k c)).length
      ≤ i.data.length := (List.takeWhile_sublist _).length_le
  have hnl : ∀ c ∈ i.data.take
      (i.data.takeWhile (fun c => !isDelim k c)).length, c ≠ '\n' := by
    intro c hc
    rw [take_length_takeWhile] at hc
    intro he
    subst he
    have := List.mem_takeWhile_imp hc
    simp [isDelim] at this
  have := advance_no_nl_all hnl
  exact ⟨⟨_, hb, rfl⟩, this.1, by omega⟩

/-! ### Success facts of the non-recursive productions -/

theorem u16_hex_ok {i i' : Input} {v : Nat} (h : u16_hex i = .ok i' v) :
    i' = i.advance 4 ∧ 4 ≤ i.data.length := by
  unfold u16_hex at h
  by_cases hl : i.data.length < 4
  · rw [if_pos hl] at h
    cases h
  · rw [if_neg hl] at h
    cases hp : parseU16Hex (i.data.take 4) with
    | some w => rw [hp] at h; cases h; exact ⟨rfl, by omega⟩
    | none => rw [hp] at h; cases h

theorem tagP_ok_len {t : List Char} {i i' : Input} {u : Unit}
    (h : tagP t i = .ok i' u) : t.length ≤ i.data.length := by
  have h1 := (tagP_ok h).1
  have h2 := congrArg List.length h1
  rw [List.length_take] at h2
  omega

theorem unicode_escape_alt_ok {i i' : Input} {v : Nat}
    (h : unicode_escape_alt i = .ok i' v) : AdvOf1 i i' := by
  unfold unicode_escape_alt at h
  cases h1 : u16_hex i with
  | ok i1 cp =>
      simp only [h1] at h
      obtain ⟨he1, hb1⟩ := u16_hex_ok h1
      have adv1 : AdvOf1 i i1 := ⟨4, by omega, hb1, he1⟩
      by_cases hs : (!(decide (0xD800 ≤ cp) && decide (cp < 0xE000))) = true
      · rw [if_pos hs] at h
        cases h
        exact adv1
      · rw [if_neg hs] at h
        cases h2 : tagP ['\\', 'u'] i1 with
        | ok i2 u =>
            simp only [h2] at h
            have he2 := (tagP_ok h2).2
            have hb2 := tagP_ok_len h2
            have adv2 : AdvOf i1 i2 := ⟨2, hb2, he2⟩
            cases h3 : u16_hex i2 with
            | ok i3 lo =>
                simp only [h3] at h
                obtain ⟨he3, hb3⟩ := u16_hex_ok h3
                have adv3 : AdvOf i2 i3 := ⟨4, hb3, he3⟩
                by_cases hcond : (decide (0xD800 ≤ cp) && decide (cp < 0xDC00)
                    && (decide (0xDC00 ≤ lo) && decide (lo < 0xE000))) = true
                · rw [if_pos hcond] at h
                  cases h
                  exact (adv1.trans' adv2).trans' adv3
                · rw [if_neg hcond] at h
                  cases h
            | errR e => simp only [h3] at h; cases h
            | errF e => simp only [h3] at h; cases h
            | noFuel => simp only [h3] at h; cases h
        | errR e => simp only [h2] at h; cases h
        | errF e => simp only [h2] at h; cases h
        | noFuel => simp only [h2] at h; cases h
  | errR e =>
      simp only [h1] at h
      cases h
  | errF e => simp only [h1] at h; cases h
  | noFuel => simp only [h1] at h; cases h

theorem unicode_escape_ok {i i' : Input} {c : Char}
    (h : unicode_escape i = .ok i' c) : AdvOf1 i i' := by
  unfold unicode_escape at h
  cases h1 : unicode_escape_alt i with
  | ok i1 v =>
      simp only [h1] at h
      cases h2 : charFromU32 v with
      | some d => simp only [h2] at h; cases h; exact unicode_escape_alt_ok h1
      | none => simp only [h2] at h; cases h
  | errR e => simp only [h1] at h; cases h
  | errF e => simp only [h1] at h; cases h
  | noFuel => simp only [h1] at h; cases h

theorem parse_char_ok {i i' : Input} {c : Char}
    (h : parse_char i = .ok i' c) : AdvOf1 i i' := by
  unfold parse_char at h
  cases hd : i.data with
  | nil => simp only [hd] at h; cases h
  | cons x rest =>
      simp only [hd] at h
      by_cases hq : x = '"'
      · rw [if_pos hq] at h
        cases h
      · rw [if_neg hq] at h
        have adv1 : AdvOf1 i (i.advance 1) :=
          ⟨1, le_refl 1, by rw [hd]; simp, rfl⟩
        by_cases hb : x = '\\'
        · rw [if_pos hb] at h
          cases hd2 : (i.advance 1).data with
          | nil => simp only [hd2] at h; cases h
          | cons e r2 =>
              simp only [hd2] at h
              have adv2 : AdvOf1 (i.advance 1) ((i.advance 1).advance 1) :=
                ⟨1, le_refl 1, by rw [hd2]; simp, rfl⟩
              cases he : escTable e with
              | some d =>
                  simp only [he] at h
                  cases h
                  exact adv1.trans' adv2.toAdvOf
              | none =>
                  simp only [he] at h
                  by_cases hu : e = 'u'
                  · rw [if_pos hu] at h
                    exact (adv1.trans' adv2.toAdvOf).trans'
                      (unicode_escape_ok h).toAdvOf
                  · rw [if_neg hu] at h
                    cases h
        · rw [if_neg hb] at h
          cases h
          exact adv1

theorem string_body_ok : ∀ fuel (i : Input) acc i' out,
    string_body fuel i acc = .ok i' out → AdvOf i i' := by
  intro fuel
  induction fuel with
  | zero => intro i acc i' out h; cases h
  | succ f ih =>
      intro i acc i' out h
      unfold string_body at h
      cases hp : parse_char i with
      | ok i1 c =>
          simp only [hp] at h
          by_cases hlen : i1.data.length = i.data.length
          · rw [if_pos hlen] at h
            cases h
          · rw [if_neg hlen] at h
            exact (parse_char_ok hp).toAdvOf.trans (ih _ _ _ _ h)
      | errR e =>
          simp only [hp] at h
          cases h
          exact AdvOf.refl i
      | errF e => simp only [hp] at h; cases h
      | noFuel => simp only [hp] at h; cases h

theorem string_ok {fuel : Nat} {i i' : Input} {s : String} (hw : posWF i)
    (h : string fuel i = .ok i' s) : OkFacts i i' := by
  cases fuel with
  | zero => cases h
  | succ f =>
      unfold string at h
      cases hb : string_body f i [] with
      | ok i1 acc =>
          simp only [hb] at h
          have advb : AdvOf i i1 := string_body_ok f i [] i1 acc hb
          cases hc : charP '"' i1 with
          | ok i2 cc =>
              simp only [hc] at h
              cases h
              obtain ⟨_, ⟨rest, hdd⟩, he⟩ := charP_ok hc
              have step := advance_one_cons hdd (by decide)
              have hw1 : posWF i1 := advb.posWF hw
              refine ⟨advb.trans1 ⟨1, le_refl 1, by rw [hdd]; simp, he⟩, ?_, ?_⟩
              · rw [he]
                exact advance_pos_ge_one i1 1 hw1.1 hw1.2
              · rw [he, step.2.2]
                have := hw1.2
                omega
          | errR e => simp only [hc] at h; cases h
          | errF e => simp only [hc] at h; cases h
          | noFuel => simp only [hc] at h; cases h
      | errR e => simp only [hb] at h; cases h
      | errF e => simp only [hb] at h; cases h
      | noFuel => simp only [hb] at h; cases h

theorem parseU64_lt {l : List Char} {v : Nat} (h : parseU64 l = some v) :
    v < 2 ^ 64 := by
  unfold parseU64 at h
  cases hd : decDigitsVal (u64Body l) with
  | none => rw [hd] at h; cases h
  | some w =>
      simp only [hd] at h
      by_cases hw : w < 2 ^ 64
      · rw [if_pos hw] at h
        cases h
        exact hw
      · rw [if_neg hw] at h
        cases h

theorem parseI64_neg {l : List Char} {v : Int}
    (h : parseI64 ('-' :: l) = some v) : -(2 ^ 63 : Int) ≤ v ∧ v ≤ 0 := by
  simp only [parseI64] at h
  rw [if_pos trivial] at h
  cases hd : decDigitsVal l with
  | none => rw [hd] at h; cases h
  | some w =>
      simp only [hd] at h
      by_cases hw : w ≤ 2 ^ 63
      · rw [if_pos hw] at h
        cases h
        constructor <;> omega
      · rw [if_neg hw] at h
        cases h

/-- Any number produced by the token classification has its payload in
the machine range of its variant. -/
theorem classify_bounds {first : Char} {tok : List Char} {nm : Number}
    (h : classifyNumber first (first :: tok) = some nm) :
    numBoundedVal (.Number nm) = true := by
  unfold classifyNumber at h
  by_cases hc : ((first :: tok).contains '.' || (first :: tok).contains 'e'
      || (first :: tok).contains 'E') = true
  · rw [if_pos hc] at h
    cases hp : parseF64 (first :: tok) with
    | some f => rw [hp] at h; cases h; rfl
    | none => rw [hp] at h; cases h
  · rw [if_neg hc] at h
    by_cases hm : first = '-'
    · rw [if_pos hm] at h
      cases hi : parseI64 (first :: tok) with
      | some v =>
          rw [hi] at h
          cases h
          rw [hm] at hi
          have hb := parseI64_neg hi
          simp only [numBoundedVal]
          rw [Bool.and_eq_true, decide_eq_true_iff, decide_eq_true_iff]
          exact hb
      | none =>
          rw [hi] at h
          cases hp : parseF64 (first :: tok) with
          | some f => rw [hp] at h; cases h; rfl
          | none => rw [hp] at h; cases h
    · rw [if_neg hm] at h
      cases hu : parseU64 (first :: tok) with
      | some v =>
          rw [hu] at h
          cases h
          simp only [numBoundedVal]
          rw [decide_eq_true_iff]
          exact parseU64_lt hu
      | none =>
          rw [hu] at h
          cases hp : parseF64 (first :: tok) with
          | some f => rw [hp] at h; cases h; rfl
          | none => rw [hp] at h; cases h

/-- `number` never crosses a newline: on success the input advances
within the line, and the produced payload is within the machine
ranges. -/
theorem number_ok {first : Char} {i i' : Input} {nm : Number}
    (h : number first i = .ok i' nm) :
    AdvOf i i' ∧ i'.line = i.line ∧ i.col ≤ i'.col
      ∧ numBoundedVal (.Number nm) = true := by
  unfold number at h
  by_cases hv : (!((i.data.takeWhile Char.isDigit).isEmpty
      || first ≠ '0')) = true
  · rw [if_pos hv] at h
    cases h
  · rw [if_neg hv] at h
    set digs := i.data.takeWhile Char.isDigit with hdigs
    have hnl : ∀ c ∈ i.data.take digs.length, c ≠ '\n' := by
      intro c hc
      rw [hdigs, take_length_takeWhile] at hc
      have := List.mem_takeWhile_imp hc
      intro he
      subst he
      simp at this
    have hb : digs.length ≤ i.data.length := (List.takeWhile_sublist _).length_le
    have adv1 : AdvOf i (i.advance digs.length) := ⟨digs.length, hb, rfl⟩
    have pos1 := advance_no_nl_all hnl
    have tspec := take_until_delimiter_spec (i.advance digs.length) false
    cases hcl : classifyNumber first (first :: (digs ++
        (take_until_delimiter (i.advance digs.length) false).2.data)) with
    | some num =>
        simp only [hcl] at h
        cases h
        refine ⟨adv1.trans tspec.1, ?_, ?_, ?_⟩
        · rw [tspec.2.1, pos1.1]
        · have h1 := tspec.2.2
          have h2 := pos1.2
          omega
        · -- payload bounds from the classification
          exact classify_bounds hcl
    | none =>
        simp only [hcl] at h
        cases h

/-- Keyword tails (`rue`, `alse`, `ull`) advance within the line by
their length. -/
theorem keyword_tail_ok {t : List Char} {i i' : Input} {u : Unit}
    (hnl : ∀ c ∈ t, c ≠ '\n') (hlen : 1 ≤ t.length)
    (h : tagP t i = .ok i' u) :
    AdvOf1 i i' ∧ i'.line = i.line ∧ i'.col = i.col + t.length := by
  obtain ⟨ht, he⟩ := tagP_ok h
  have hb := tagP_ok_len h
  have hnl' : ∀ c ∈ i.data.take t.length, c ≠ '\n' := by
    intro c hc
    rw [ht] at hc
    exact hnl c hc
  have := advance_no_nl_all hnl'
  have hlt : (i.data.take t.length).length = t.length := by rw [ht]
  refine ⟨⟨t.length, hlen, hb, he⟩, by rw [he, this.1], ?_⟩
  rw [he, this.2, hlt]

theorem parse_true_ok {i i' : Input} {b : Bool} (hw : posWF i)
    (h : parse_true i = .ok i' b) : OkFacts i i' := by
  unfold parse_true at h
  cases ht : tagP ['r', 'u', 'e'] i with
  | ok i1 u =>
      simp only [ht] at h
      cases h
      obtain ⟨adv, hl, hc⟩ := keyword_tail_ok (by decide) (by decide) ht
      refine ⟨adv, ⟨by rw [hl]; exact hw.1, ?_⟩, ?_⟩ <;>
        · rw [hc]
          have := hw.2
          simp only [List.length_cons, List.length_nil]
          omega
  | errR e => simp only [ht] at h; cases h
  | errF e => simp only [ht] at h; cases h
  | noFuel => simp only [ht] at h; cases h

theorem parse_false_ok {i i' : Input} {b : Bool} (hw : posWF i)
    (h : parse_false i = .ok i' b) : OkFacts i i' := by
  unfold parse_false at h
  cases ht : tagP ['a', 'l', 's', 'e'] i with
  | ok i1 u =>
      simp only [ht] at h
      cases h
      obtain ⟨adv, hl, hc⟩ := keyword_tail_ok (by decide) (by decide) ht
      refine ⟨adv, ⟨by rw [hl]; exact hw.1, ?_⟩, ?_⟩ <;>
        · rw [hc]
          have := hw.2
          simp only [List.length_cons, List.length_nil]
          omega
  | errR e => simp only [ht] at h; cases h
  | errF e => simp only [ht] at h; cases h
  | noFuel => simp only [ht] at h; cases h

theorem null_ok {i i' : Input} {u : Unit} (hw : posWF i)
    (h : null i = .ok i' u) : OkFacts i i' := by
  unfold null at h
  cases ht : tagP ['u', 'l', 'l'] i with
  | ok i1 w =>
      simp only [ht] at h
      cases h
      obtain ⟨adv, hl, hc⟩ := keyword_tail_ok (by decide) (by decide) ht
      refine ⟨adv, ⟨by rw [hl]; exact hw.1, ?_⟩, ?_⟩ <;>
        · rw [hc]
          have := hw.2
          simp only [List.length_cons, List.length_nil]
          omega
  | errR e => simp only [ht] at h; cases h
  | errF e => simp only [ht] at h; cases h
  | noFuel => simp only [ht] at h; cases h

/-- The array separator consumes whitespace and the comma. -/
theorem arr_sep_ok {st : Position} {i i2 : Input} {u : Unit} (hw : posWF i)
    (h : arr_sep st i = .ok i2 u) : OkFacts i i2 := by
  unfold arr_sep at h
  cases hc : charP ',' (skipWs i) with
  | ok i3 cc =>
      simp only [hc] at h
      cases h
      obtain ⟨_, ⟨rest, hd⟩, he⟩ := charP_ok hc
      have hwws : posWF (skipWs i) := (skipWs_advof i).posWF hw
      have step := advance_one_cons hd (by decide)
      refine ⟨(skipWs_advof i).trans1 ⟨1, le_refl 1, by rw [hd]; simp, he⟩,
        ?_, ?_⟩
      · rw [he]
        exact advance_pos_ge_one _ 1 hwws.1 hwws.2
      · rw [he, step.2.2]
        have := hwws.2
        omega
  | errR e =>
      simp only [hc] at h
      by_cases hcnd : (!(skipWs (skipWs i)).data.isEmpty
          && !(skipWs (skipWs i)).startsWith ']') = true
      · rw [if_pos hcnd] at h
        cases h
      · rw [if_neg hcnd] at h
        cases h
  | errF e => simp only [hc] at h; cases h
  | noFuel => simp only [hc] at h; cases h

/-- The object separator consumes whitespace and the comma (the `}`
lookahead does not consume). -/
theorem hash_sep_ok {st : Position} {i i2 : Input} {u : Unit} (hw : posWF i)
    (h : hash_sep st i = .ok i2 u) : OkFacts i i2 := by
  unfold hash_sep at h
  cases hc : charP ',' (skipWs i) with
  | ok i3 cc =>
      simp only [hc] at h
      by_cases hla : ((skipWs i3).startsWith '\x7d') = true
      · rw [if_pos hla] at h
        cases h
      · rw [if_neg hla] at h
        cases h
        obtain ⟨_, ⟨rest, hd⟩, he⟩ := charP_ok hc
        have hwws : posWF (skipWs i) := (skipWs_advof i).posWF hw
        have step := advance_one_cons hd (by decide)
        refine ⟨(skipWs_advof i).trans1 ⟨1, le_refl 1, by rw [hd]; simp, he⟩,
          ?_, ?_⟩
        · rw [he]
          exact advance_pos_ge_one _ 1 hwws.1 hwws.2
        · rw [he, step.2.2]
          have := hwws.2
          omega
  | errR e =>
      simp only [hc] at h
      by_cases hcnd : (!(skipWs (skipWs i)).data.isEmpty
          && !(skipWs (skipWs i)).startsWith '\x7d') = true
      · rw [if_pos hcnd] at h
        cases h
      · rw [if_neg hcnd] at h
        cases h
  | errF e => simp only [hc] at h; cases h
  | noFuel => simp only [hc] at h; cases h

/-- `ElemOK` is monotone in the loop's current input. -/
theorem ElemOK.mono {start0 : Position} {iCur iNext : Input}
    {c : SpannedValue} (h : ElemOK start0 iCur c) (ha : AdvOf iCur iNext) :
    ElemOK start0 iNext c := by
  obtain ⟨h1, h2, h3, h4, a, ha1, ha2, ha3, ha4⟩ := h
  exact ⟨h1, h2, h3, h4, a, ha1, ha2, ha3, ha4.trans ha⟩

theorem insertPair_mem {m : List (String × SpannedValue)} {k : String}
    {v : SpannedValue} {x : String × SpannedValue}
    (h : x ∈ insertPair m k v) : x ∈ m ∨ x = (k, v) := by
  induction m with
  | nil =>
      unfold insertPair at h
      rw [List.mem_singleton] at h
      exact Or.inr h
  | cons p rest ih =>
      rw [show insertPair (p :: rest) k v = if p.1 = k then (k, v) :: rest
          else p :: insertPair rest k v from by
        cases p
        rfl] at h
      by_cases hk : p.1 = k
      · rw [if_pos hk] at h
        rcases List.mem_cons.mp h with h | h
        · right; exact h
        · left; exact List.mem_cons_of_mem _ h
      · rw [if_neg hk] at h
        rcases List.mem_cons.mp h with h | h
        · left; rw [h]; exact List.mem_cons_self _ _
        · rcases ih h with h2 | h2
          · left; exact List.mem_cons_of_mem _ h2
          · right; exact h2

/-- Everything in the collected map came from the pair list. -/
theorem collectPairs_mem {l : List (String × SpannedValue)}
    {x : String × SpannedValue} (h : x ∈ collectPairs l) : x ∈ l := by
  unfold collectPairs at h
  suffices hgen : ∀ (acc : List (String × SpannedValue)),
      x ∈ l.foldl (fun m kv => insertPair m kv.1 kv.2) acc → x ∈ acc ∨ x ∈ l by
    rcases hgen [] h with h2 | h2
    · cases h2
    · exact h2
  clear h
  induction l with
  | nil => intro acc h; exact Or.inl h
  | cons p rest ih =>
      intro acc h
      rw [List.foldl_cons] at h
      rcases ih _ h with h2 | h2
      · rcases insertPair_mem h2 with h3 | h3
        · exact Or.inl h3
        · right
          rw [h3]
          exact List.mem_cons_self _ _
      · right
        exact List.mem_cons_of_mem _ h2

theorem anychar_ok {i i' : Input} {c : Char} (h : anychar i = .ok i' c) :
    (∃ rest, i.data = c :: rest) ∧ i' = i.advance 1 := by
  unfold anychar at h
  cases hd : i.data with
  | nil => rw [hd] at h; cases h
  | cons x rest =>
      rw [hd] at h
      cases h
      exact ⟨⟨rest, rfl⟩, rfl⟩

/-- Consuming one non-newline character makes `fromAhead` of the result
the position of that character. -/
theorem fromAhead_advance_one {i : Input} {c : Char} {rest : List Char}
    (hd : i.data = c :: rest) (hnl : c ≠ '\n') :
    Position.fromAhead (i.advance 1) = Position.ofInput i := by
  have step := advance_one_cons hd hnl
  unfold Position.fromAhead Position.ofInput
  rw [step.2.1, step.2.2]
  simp

theorem posOneIndexed_ofInput {a : Input} (hw : posWF a) :
    posOneIndexed (Position.ofInput a) = true := by
  unfold posOneIndexed Position.ofInput
  rw [Bool.and_eq_true, decide_eq_true_iff, decide_eq_true_iff]
  exact ⟨hw.1, hw.2⟩

theorem posOneIndexed_fromAhead {a : Input} (hw : posWF a) (hc : 2 ≤ a.col) :
    posOneIndexed (Position.fromAhead a) = true := by
  unfold posOneIndexed Position.fromAhead
  rw [Bool.and_eq_true, decide_eq_true_iff, decide_eq_true_iff]
  refine ⟨hw.1, ?_⟩
  simp only
  omega

theorem elems_all_ok {es : List SpannedValue} {st en : Position}
    (h : ∀ c ∈ es, spanContainOK c = true ∧ spanPosOK c = true
      ∧ numBoundedSp c = true ∧ Position.lt st c.start
      ∧ Position.lt c.stop en) :
    elemsContainOK es st en = true ∧ elemsPosOK es = true
      ∧ numBoundedElems es = true := by
  induction es with
  | nil => exact ⟨rfl, rfl, rfl⟩
  | cons c cs ih =>
      obtain ⟨h1, h2, h3, h4, h5⟩ := h c (List.mem_cons_self _ _)
      obtain ⟨g1, g2, g3⟩ := ih (fun x hx => h x (List.mem_cons_of_mem _ hx))
      refine ⟨?_, ?_, ?_⟩
      · unfold elemsContainOK
        rw [Bool.and_eq_true, Bool.and_eq_true, Bool.and_eq_true]
        exact ⟨⟨⟨decide_eq_true h4, decide_eq_true h5⟩, h1⟩, g1⟩
      · unfold elemsPosOK
        rw [Bool.and_eq_true]
        exact ⟨h2, g2⟩
      · unfold numBoundedElems
        rw [Bool.and_eq_true]
        exact ⟨h3, g3⟩

theorem pairs_all_ok {prs : List (String × SpannedValue)} {st en : Position}
    (h : ∀ kv ∈ prs, spanContainOK kv.2 = true ∧ spanPosOK kv.2 = true
      ∧ numBoundedSp kv.2 = true ∧ Position.lt st kv.2.start
      ∧ Position.lt kv.2.stop en) :
    pairsContainOK prs st en = true ∧ pairsPosOK prs = true
      ∧ numBoundedPairs prs = true := by
  induction prs with
  | nil => exact ⟨rfl, rfl, rfl⟩
  | cons kv cs ih =>
      obtain ⟨h1, h2, h3, h4, h5⟩ := h kv (List.mem_cons_self _ _)
      obtain ⟨g1, g2, g3⟩ := ih (fun x hx => h x (List.mem_cons_of_mem _ hx))
      obtain ⟨k, c⟩ := kv
      refine ⟨?_, ?_, ?_⟩
      · unfold pairsContainOK
        rw [Bool.and_eq_true, Bool.and_eq_true, Bool.and_eq_true]
        exact ⟨⟨⟨decide_eq_true h4, decide_eq_true h5⟩, h1⟩, g1⟩
      · unfold pairsPosOK
        rw [Bool.and_eq_true]
        exact ⟨h2, g2⟩
      · unfold numBoundedPairs
        rw [Bool.and_eq_true]
        exact ⟨h3, g3⟩

/-- Assemble the loop invariant for a freshly parsed element. -/
theorem mkElemOK {b iK i2 : Input} {start0 : Position} {v : SpannedValue}
    (hb : posWF b) (hs : start0 = Position.fromAhead b) (hadv : AdvOf b iK)
    (hok : OkFacts iK i2) (hst : v.start = Position.ofInput (skipWs iK))
    (hsp : v.stop = Position.fromAhead i2)
    (h1 : spanContainOK v = true) (h2 : spanPosOK v = true)
    (h3 : numBoundedSp v = true) : ElemOK start0 i2 v := by
  refine ⟨h1, h2, h3, ?_, i2, hok.2.1, hok.2.2, hsp, AdvOf.refl i2⟩
  rw [hs, hst]
  exact Position.lt_of_lt_of_le (fromAhead_lt_ofInput hb.2)
    ((hadv.trans (skipWs_advof iK)).ofInput_le)

/-- Assemble the span predicates of a single node. -/
theorem mkNodeOK {val : Value} {st en : Position}
    (hle : Position.le st en) (hch : childrenContainOK val st en = true)
    (h1 : posOneIndexed st = true) (h2 : posOneIndexed en = true)
    (hvp : valuePosOK val = true) (hnb : numBoundedVal val = true) :
    spanContainOK ⟨val, st, en⟩ = true ∧ spanPosOK ⟨val, st, en⟩ = true
      ∧ numBoundedSp ⟨val, st, en⟩ = true := by
  refine ⟨?_, ?_, ?_⟩
  · unfold spanContainOK
    rw [Bool.and_eq_true]
    exact ⟨decide_eq_true hle, hch⟩
  · unfold spanPosOK
    rw [Bool.and_eq_true, Bool.and_eq_true]
    exact ⟨⟨h1, h2⟩, hvp⟩
  · unfold numBoundedSp
    exact hnb

/-- One fuel step of the success invariant for `json_value`. -/
theorem jv_step {f : Nat} (ihArr : ArrOk f) (ihHash : HashOk f)
    (ihStr : ∀ i i' s, posWF i → string f i = .ok i' s → OkFacts i i') :
    JVOk (f + 1) := by
  intro i i' v hw h
  simp only [json_value] at h
  have advw : AdvOf i (skipWs i) := skipWs_advof i
  have hww : posWF (skipWs i) := advw.posWF hw
  cases ha : anychar (skipWs i) with
  | errR e => simp only [ha] at h; cases h
  | errF e => simp only [ha] at h; cases h
  | noFuel => simp only [ha] at h; cases h
  | ok i1 c =>
      simp only [ha] at h
      obtain ⟨⟨rest, hd⟩, he1⟩ := anychar_ok ha
      have hcw : isWsChar c = false := skipWs_head_not_ws hd
      have hnl : c ≠ '\n' := by
        intro he
        subst he
        simp [isWsChar] at hcw
      have step := advance_one_cons hd hnl
      have adv1 : AdvOf1 (skipWs i) i1 := ⟨1, le_refl 1, by rw [hd]; simp, he1⟩
      have hw1 : posWF i1 := adv1.toAdvOf.posWF hww
      have hcol1 : i1.col = (skipWs i).col + 1 := by rw [he1]; exact step.2.2
      have hfa : Position.fromAhead i1 = Position.ofInput (skipWs i) := by
        rw [he1]
        exact fromAhead_advance_one hd hnl
      by_cases hc1 : c = '\x7b'
      · rw [if_pos hc1] at h
        cases hh : hash f i1 with
        | ok i2 prs =>
            simp only [hh, PRes.mapv] at h
            cases h
            obtain ⟨hokf, hall⟩ := ihHash i1 i' prs hw1 hh
            have advTot : AdvOf1 (skipWs i) i' := adv1.trans' hokf.1.toAdvOf
            have hle : Position.le (Position.ofInput (skipWs i))
                (Position.fromAhead i') := advTot.ofInput_le_fromAhead
            have hall' : ∀ kv ∈ prs, spanContainOK kv.2 = true
                ∧ spanPosOK kv.2 = true ∧ numBoundedSp kv.2 = true
                ∧ Position.lt (Position.ofInput (skipWs i)) kv.2.start
                ∧ Position.lt kv.2.stop (Position.fromAhead i') := by
              intro kv hkv
              obtain ⟨a1, a2, a3, a4, a5⟩ := hall kv hkv
              rw [hfa] at a4
              exact ⟨a1, a2, a3, a4, a5⟩
            obtain ⟨b1, b2, b3⟩ := pairs_all_ok hall'
            obtain ⟨n1, n2, n3⟩ := @mkNodeOK (Value.Object prs)
              (Position.ofInput (skipWs i)) (Position.fromAhead i') hle b1
              (posOneIndexed_ofInput hww)
              (posOneIndexed_fromAhead hokf.2.1 hokf.2.2) b2 b3
            exact ⟨⟨advw.trans1 advTot, hokf.2.1, hokf.2.2⟩, rfl, rfl, n1, n2, n3⟩
        | errR e => simp only [hh, PRes.mapv] at h; cases h
        | errF e => simp only [hh, PRes.mapv] at h; cases h
        | noFuel => simp only [hh, PRes.mapv] at h; cases h
      · rw [if_neg hc1] at h
        by_cases hc2 : c = '['
        · rw [if_pos hc2] at h
          cases harr : array f i1 with
          | ok i2 es =>
              simp only [harr, PRes.mapv] at h
              cases h
              obtain ⟨hokf, hall⟩ := ihArr i1 i' es hw1 harr
              have advTot : AdvOf1 (skipWs i) i' := adv1.trans' hokf.1.toAdvOf
              have hle : Position.le (Position.ofInput (skipWs i))
                  (Position.fromAhead i') := advTot.ofInput_le_fromAhead
              have hall' : ∀ cc ∈ es, spanContainOK cc = true
                  ∧ spanPosOK cc = true ∧ numBoundedSp cc = true
                  ∧ Position.lt (Position.ofInput (skipWs i)) cc.start
                  ∧ Position.lt cc.stop (Position.fromAhead i') := by
                intro cc hcc
                obtain ⟨a1, a2, a3, a4, a5⟩ := hall cc hcc
                rw [hfa] at a4
                exact ⟨a1, a2, a3, a4, a5⟩
              obtain ⟨b1, b2, b3⟩ := elems_all_ok hall'
              obtain ⟨n1, n2, n3⟩ := @mkNodeOK (Value.Array es)
                (Position.ofInput (skipWs i)) (Position.fromAhead i') hle b1
                (posOneIndexed_ofInput hww)
                (posOneIndexed_fromAhead hokf.2.1 hokf.2.2) b2 b3
              exact ⟨⟨advw.trans1 advTot, hokf.2.1, hokf.2.2⟩, rfl, rfl,
                n1, n2, n3⟩
          | errR e => simp only [harr, PRes.mapv] at h; cases h
          | errF e => simp only [harr, PRes.mapv] at h; cases h
          | noFuel => simp only [harr, PRes.mapv] at h; cases h
        · rw [if_neg hc2] at h
          by_cases hc3 : c = '"'
          · rw [if_pos hc3] at h
            cases hs : string f i1 with
            | ok i2 s =>
                simp only [hs, PRes.mapv] at h
                cases h
                have hokf := ihStr i1 i' s hw1 hs
                have advTot : AdvOf1 (skipWs i) i' := adv1.trans' hokf.1.toAdvOf
                obtain ⟨n1, n2, n3⟩ := @mkNodeOK (Value.String s)
                  (Position.ofInput (skipWs i)) (Position.fromAhead i')
                  advTot.ofInput_le_fromAhead
                  rfl (posOneIndexed_ofInput hww)
                  (posOneIndexed_fromAhead hokf.2.1 hokf.2.2) rfl rfl
                exact ⟨⟨advw.trans1 advTot, hokf.2.1, hokf.2.2⟩, rfl, rfl,
                  n1, n2, n3⟩
            | errR e => simp only [hs, PRes.mapv] at h; cases h
            | errF e => simp only [hs, PRes.mapv] at h; cases h
            | noFuel => simp only [hs, PRes.mapv] at h; cases h
          · rw [if_neg hc3] at h
            by_cases hc4 : (decide (c = '-') || c.isDigit) = true
            · rw [if_pos hc4] at h
              cases hn : number c i1 with
              | ok i2 nm =>
                  simp only [hn, PRes.mapv] at h
                  cases h
                  obtain ⟨hadv, hline, hcol, hnb⟩ := number_ok hn
                  have advTot : AdvOf1 (skipWs i) i' := adv1.trans' hadv
                  have hw2 : posWF i' := hadv.posWF hw1
                  have hc2col : 2 ≤ i'.col := by
                    have := hww.2
                    omega
                  obtain ⟨n1, n2, n3⟩ := @mkNodeOK (Value.Number nm)
                    (Position.ofInput (skipWs i)) (Position.fromAhead i')
                    advTot.ofInput_le_fromAhead
                    rfl (posOneIndexed_ofInput hww)
                    (posOneIndexed_fromAhead hw2 hc2col) rfl hnb
                  exact ⟨⟨advw.trans1 advTot, hw2, hc2col⟩, rfl, rfl,
                    n1, n2, n3⟩
              | errR e => simp only [hn, PRes.mapv] at h; cases h
              | errF e => simp only [hn, PRes.mapv] at h; cases h
              | noFuel => simp only [hn, PRes.mapv] at h; cases h
            · rw [if_neg hc4] at h
              by_cases hc5 : c = 't'
              · rw [if_pos hc5] at h
                cases ht : parse_true i1 with
                | ok i2 b =>
                    simp only [ht, PRes.mapv] at h
                    cases h
                    have hokf := parse_true_ok hw1 ht
                    have advTot : AdvOf1 (skipWs i) i' :=
                      adv1.trans' hokf.1.toAdvOf
                    obtain ⟨n1, n2, n3⟩ := @mkNodeOK (Value.Bool b)
                      (Position.ofInput (skipWs i)) (Position.fromAhead i')
                      advTot.ofInput_le_fromAhead
                      rfl (posOneIndexed_ofInput hww)
                      (posOneIndexed_fromAhead hokf.2.1 hokf.2.2) rfl rfl
                    exact ⟨⟨advw.trans1 advTot, hokf.2.1, hokf.2.2⟩, rfl, rfl,
                      n1, n2, n3⟩
                | errR e => simp only [ht, PRes.mapv] at h; cases h
                | errF e => simp only [ht, PRes.mapv] at h; cases h
                | noFuel => simp only [ht, PRes.mapv] at h; cases h
              · rw [if_neg hc5] at h
                by_cases hc6 : c = 'f'
                · rw [if_pos hc6] at h
                  cases ht : parse_false i1 with
                  | ok i2 b =>
                      simp only [ht, PRes.mapv] at h
                      cases h
                      have hokf := parse_false_ok hw1 ht
                      have advTot : AdvOf1 (skipWs i) i' :=
                        adv1.trans' hokf.1.toAdvOf
                      obtain ⟨n1, n2, n3⟩ := @mkNodeOK (Value.Bool b)
                        (Position.ofInput (skipWs i)) (Position.fromAhead i')
                        advTot.ofInput_le_fromAhead rfl
                        (posOneIndexed_ofInput hww)
                        (posOneIndexed_fromAhead hokf.2.1 hokf.2.2) rfl rfl
                      exact ⟨⟨advw.trans1 advTot, hokf.2.1, hokf.2.2⟩,
                        rfl, rfl, n1, n2, n3⟩
                  | errR e => simp only [ht, PRes.mapv] at h; cases h
                  | errF e => simp only [ht, PRes.mapv] at h; cases h
                  | noFuel => simp only [ht, PRes.mapv] at h; cases h
                · rw [if_neg hc6] at h
                  by_cases hc7 : c = 'n'
                  · rw [if_pos hc7] at h
                    cases ht : null i1 with
                    | ok i2 u =>
                        simp only [ht, PRes.mapv] at h
                        cases h
                        have hokf := null_ok hw1 ht
                        have advTot : AdvOf1 (skipWs i) i' :=
                          adv1.trans' hokf.1.toAdvOf
                        obtain ⟨n1, n2, n3⟩ := @mkNodeOK Value.Null
                          (Position.ofInput (skipWs i)) (Position.fromAhead i')
                          advTot.ofInput_le_fromAhead rfl
                          (posOneIndexed_ofInput hww)
                          (posOneIndexed_fromAhead hokf.2.1 hokf.2.2) rfl rfl
                        exact ⟨⟨advw.trans1 advTot, hokf.2.1, hokf.2.2⟩,
                          rfl, rfl, n1, n2, n3⟩
                    | errR e => simp only [ht, PRes.mapv] at h; cases h
                    | errF e => simp only [ht, PRes.mapv] at h; cases h
                    | noFuel => simp only [ht, PRes.mapv] at h; cases h
                  · rw [if_neg hc7] at h
                    cases h

/-- `charP` either consumes exactly its character or fails recoverably. -/
theorem charP_shape (c : Char) (i : Input) :
    (∃ rest, i.data = c :: rest ∧ charP c i = .ok (i.advance 1) c)
      ∨ charP c i = .errR (fromErrorKind i .chr) := by
  cases hd : i.data with
  | nil =>
      right
      unfold charP
      rw [hd]
  | cons x rest =>
      unfold charP
      simp only [hd]
      by_cases hx : x = c
      · left
        exact ⟨rest, by rw [hx], by rw [if_pos hx]⟩
      · right
        rw [if_neg hx]

/-- `startsWith` exposes the head character. -/
theorem startsWith_cons {i : Input} {c : Char} (h : i.startsWith c = true) :
    ∃ rest, i.data = c :: rest := by
  unfold Input.startsWith at h
  cases hd : i.data with
  | nil => rw [hd] at h; cases h
  | cons x rest =>
      rw [hd] at h
      rw [decide_eq_true_iff] at h
      exact ⟨rest, by rw [h]⟩

/-- One fuel step of the success invariant for `arr_elem`. -/
theorem aelem_step {f : Nat} (ihJV : JVOk f) : AElemOk (f + 1) := by
  intro i i' v hw h
  simp only [arr_elem] at h
  cases hj : json_value f i with
  | ok i2 v2 =>
      simp only [hj] at h
      cases h
      exact ihJV i i' v hw hj
  | errR e =>
      simp only [hj] at h
      by_cases hb : (skipWs i).startsWith ']' = true
      · rw [if_pos hb] at h; cases h
      · rw [if_neg hb] at h; cases h
  | errF e =>
      simp only [hj] at h
      by_cases hb : (skipWs i).startsWith ']' = true
      · rw [if_pos hb] at h; cases h
      · rw [if_neg hb] at h; cases h
  | noFuel => simp only [hj] at h; cases h

/-- One fuel step of the success invariant for `arr_loop`. -/
theorem aloop_step {f : Nat} (ihElem : AElemOk f) (ihLoop : ALoopOk f) :
    ALoopOk (f + 1) := by
  intro i start0 acc i' out hw hacc hb h
  simp only [arr_loop] at h
  cases hs : arr_sep start0 i with
  | errR e =>
      simp only [hs] at h
      cases h
      exact ⟨AdvOf.refl i, hw, hacc⟩
  | errF e => simp only [hs] at h; cases h
  | noFuel => simp only [hs] at h; cases h
  | ok i1 u =>
      simp only [hs] at h
      obtain ⟨hadv1, hw1, hcol1⟩ := arr_sep_ok hw hs
      have hlen : ¬ i1.data.length = i.data.length := by
        have := hadv1.length_lt
        omega
      rw [if_neg hlen] at h
      cases he : arr_elem f i1 with
      | errR e2 =>
          simp only [he] at h
          cases h
          exact ⟨AdvOf.refl i, hw, hacc⟩
      | errF e2 => simp only [he] at h; cases h
      | noFuel => simp only [he] at h; cases h
      | ok i2 v =>
          simp only [he] at h
          obtain ⟨hokf2, hst, hsp, hc1, hc2, hc3⟩ := ihElem i1 i2 v hw1 he
          have advTot : AdvOf i i2 := hadv1.toAdvOf.trans hokf2.1.toAdvOf
          obtain ⟨b, hb1, hb2, hb3⟩ := hb
          have hacc2 : ∀ c ∈ acc ++ [v], ElemOK start0 i2 c := by
            intro c hc
            rcases List.mem_append.mp hc with hcm | hcm
            · exact (hacc c hcm).mono advTot
            · rw [List.mem_singleton.mp hcm]
              exact mkElemOK hb1 hb2 (hb3.trans hadv1.toAdvOf) hokf2 hst hsp
                hc1 hc2 hc3
          obtain ⟨g1, g2, g3⟩ := ihLoop i2 start0 (acc ++ [v]) i' out
            hokf2.2.1 hacc2 ⟨b, hb1, hb2, hb3.trans advTot⟩ h
          exact ⟨advTot.trans g1, g2, g3⟩

/-- One fuel step of the success invariant for `arr_items`. -/
theorem aitems_step {f : Nat} (ihElem : AElemOk f) (ihLoop : ALoopOk f) :
    AItemsOk (f + 1) := by
  intro i start0 i' out hw hb h
  simp only [arr_items] at h
  cases he : arr_elem f i with
  | errR e =>
      simp only [he] at h
      cases h
      exact ⟨AdvOf.refl i, hw, by intro c hc; cases hc⟩
  | errF e => simp only [he] at h; cases h
  | noFuel => simp only [he] at h; cases h
  | ok i1 v =>
      simp only [he] at h
      obtain ⟨hokf, hst, hsp, hc1, hc2, hc3⟩ := ihElem i i1 v hw he
      obtain ⟨b, hb1, hb2, hb3⟩ := hb
      have hacc : ∀ c ∈ [v], ElemOK start0 i1 c := by
        intro c hc
        rw [List.mem_singleton.mp hc]
        exact mkElemOK hb1 hb2 hb3 hokf hst hsp hc1 hc2 hc3
      obtain ⟨g1, g2, g3⟩ := ihLoop i1 start0 [v] i' out hokf.2.1 hacc
        ⟨b, hb1, hb2, hb3.trans hokf.1.toAdvOf⟩ h
      exact ⟨hokf.1.toAdvOf.trans g1, g2, g3⟩

/-- One fuel step of the success invariant for `array`. -/
theorem arr_step {f : Nat} (ihItems : AItemsOk f) : ArrOk (f + 1) := by
  intro i i' es hw h
  simp only [array] at h
  have advw : AdvOf i (skipWs i) := skipWs_advof i
  have hww : posWF (skipWs i) := advw.posWF hw
  by_cases hcl : (skipWs i).startsWith ']' = true
  · rw [if_pos hcl] at h
    cases h
    obtain ⟨rest, hd⟩ := startsWith_cons hcl
    have step := advance_one_cons hd (by decide)
    refine ⟨⟨advw.trans1 ⟨1, le_refl 1, by rw [hd]; simp, rfl⟩, ?_, ?_⟩, ?_⟩
    · constructor
      · rw [step.2.1]; exact hww.1
      · rw [step.2.2]; omega
    · rw [step.2.2]
      have := hww.2
      omega
    · intro c hc; cases hc
  · rw [if_neg hcl] at h
    by_cases hemp : (skipWs i).data.isEmpty = true
    · rw [if_pos hemp] at h; cases h
    · rw [if_neg hemp] at h
      cases hi : arr_items f (skipWs i) (Position.fromAhead i) with
      | ok i1 elems =>
          simp only [hi] at h
          obtain ⟨g1, g2, g3⟩ := ihItems (skipWs i) (Position.fromAhead i) i1
            elems hww ⟨i, hw, rfl, advw⟩ hi
          cases hc2 : charP ']' (skipWs i1) with
          | ok i3 cc =>
              simp only [hc2] at h
              cases h
              obtain ⟨_, ⟨rest, hd⟩, he3⟩ := charP_ok hc2
              have hw2 : posWF (skipWs i1) := (skipWs_advof i1).posWF g2
              have step := advance_one_cons hd (by decide)
              have adv3 : AdvOf1 (skipWs i1) i' :=
                ⟨1, le_refl 1, by rw [hd]; simp, he3⟩
              have hw3 : posWF i' := adv3.toAdvOf.posWF hw2
              have hcol3 : 2 ≤ i'.col := by
                rw [he3, step.2.2]
                have := hw2.2
                omega
              refine ⟨⟨((advw.trans g1).trans (skipWs_advof i1)).trans1 adv3,
                hw3, hcol3⟩, ?_⟩
              intro c hc
              obtain ⟨e1, e2, e3, e4, a, ha1, ha2, ha3, ha4⟩ := g3 c hc
              refine ⟨e1, e2, e3, e4, ?_⟩
              rw [ha3]
              exact AdvOf1.fromAhead_lt (by omega)
                ((ha4.trans (skipWs_advof i1)).trans1 adv3)
          | errR e => simp only [hc2] at h; cases h
          | errF e => simp only [hc2] at h; cases h
          | noFuel => simp only [hc2] at h; cases h
      | errR e => simp only [hi] at h; cases h
      | errF e => simp only [hi] at h; cases h
      | noFuel => simp only [hi] at h; cases h

/-- One fuel step of the success invariant for `key_value`. -/
theorem kv_step {f : Nat} (ihJV : JVOk f) : KVOk (f + 1) := by
  intro i i' kv hw h
  simp only [key_value] at h
  rcases charP_shape ',' i with ⟨rest0, hd0, hc0⟩ | hc0
  · simp only [hc0] at h
    have hadv0 : AdvOf i (i.advance 1) := ⟨1, by rw [hd0]; simp, rfl⟩
    have hw0 : posWF (i.advance 1) := hadv0.posWF hw
    by_cases hg : (((skipWs (i.advance 1)).startsWith '\x7d'
        || (skipWs (i.advance 1)).data.isEmpty) && !true) = true
    · rw [if_pos hg] at h
      cases h
    · rw [if_neg hg] at h
      cases hq : charP '"' (skipWs (i.advance 1)) with
      | errR e0 => simp only [hq] at h; cases h
      | errF e0 => simp only [hq] at h; cases h
      | noFuel => simp only [hq] at h; cases h
      | ok i2 cq =>
          simp only [hq] at h
          cases hstr : string f i2 with
          | errR e0 => simp only [hstr] at h; cases h
          | errF e0 => simp only [hstr] at h; cases h
          | noFuel => simp only [hstr] at h; cases h
          | ok i3 key =>
              simp only [hstr] at h
              cases hcl : charP ':' (skipWs i3) with
              | errR e0 => simp only [hcl] at h; cases h
              | errF e0 => simp only [hcl] at h; cases h
              | noFuel => simp only [hcl] at h; cases h
              | ok i5 cc =>
                  simp only [hcl] at h
                  cases hjv : json_value f i5 with
                  | errR e0 => simp only [hjv] at h; cases h
                  | errF e0 => simp only [hjv] at h; cases h
                  | noFuel => simp only [hjv] at h; cases h
                  | ok i6 v =>
                      simp only [hjv] at h
                      cases h
                      obtain ⟨_, ⟨restq, hdq⟩, he2⟩ := charP_ok hq
                      have advq : AdvOf1 (skipWs (i.advance 1)) i2 :=
                        ⟨1, le_refl 1, by rw [hdq]; simp, he2⟩
                      have hwq : posWF i2 :=
                        advq.toAdvOf.posWF ((skipWs_advof (i.advance 1)).posWF hw0)
                      have hoks : OkFacts i2 i3 := string_ok hwq hstr
                      obtain ⟨_, ⟨restc, hdc⟩, he5⟩ := charP_ok hcl
                      have advc : AdvOf1 (skipWs i3) i5 :=
                        ⟨1, le_refl 1, by rw [hdc]; simp, he5⟩
                      have hw5 : posWF i5 :=
                        advc.toAdvOf.posWF ((skipWs_advof i3).posWF hoks.2.1)
                      obtain ⟨hokj, hvst, hvsp, hs1, hs2, hs3⟩ :=
                        ihJV i5 i' v hw5 hjv
                      have a1 : AdvOf1 i i2 :=
                        (hadv0.trans (skipWs_advof (i.advance 1))).trans1 advq
                      have a2 : AdvOf1 i i3 := a1.trans' hoks.1.toAdvOf
                      have a3 : AdvOf1 i i5 :=
                        (a2.trans' (skipWs_advof i3)).trans' advc.toAdvOf
                      have a4 : AdvOf1 i i' := a3.trans' hokj.1.toAdvOf
                      refine ⟨⟨a4, hokj.2.1, hokj.2.2⟩, hs1, hs2, hs3, ?_,
                        i', hokj.2.1, hokj.2.2, hvsp, AdvOf.refl i'⟩
                      rw [hvst]
                      exact ((a3.trans' (skipWs_advof i5)).toAdvOf).ofInput_le
  · simp only [hc0] at h
    have hadv0 : AdvOf i i := AdvOf.refl i
    have hw0 : posWF i := hw
    by_cases hg : (((skipWs i).startsWith '\x7d'
        || (skipWs i).data.isEmpty) && !false) = true
    · rw [if_pos hg] at h
      cases h
    · rw [if_neg hg] at h
      cases hq : charP '"' (skipWs i) with
      | errR e0 => simp only [hq] at h; cases h
      | errF e0 => simp only [hq] at h; cases h
      | noFuel => simp only [hq] at h; cases h
      | ok i2 cq =>
          simp only [hq] at h
          cases hstr : string f i2 with
          | errR e0 => simp only [hstr] at h; cases h
          | errF e0 => simp only [hstr] at h; cases h
          | noFuel => simp only [hstr] at h; cases h
          | ok i3 key =>
              simp only [hstr] at h
              cases hcl : charP ':' (skipWs i3) with
              | errR e0 => simp only [hcl] at h; cases h
              | errF e0 => simp only [hcl] at h; cases h
              | noFuel => simp only [hcl] at h; cases h
              | ok i5 cc =>
                  simp only [hcl] at h
                  cases hjv : json_value f i5 with
                  | errR e0 => simp only [hjv] at h; cases h
                  | errF e0 => simp only [hjv] at h; cases h
                  | noFuel => simp only [hjv] at h; cases h
                  | ok i6 v =>
                      simp only [hjv] at h
                      cases h
                      obtain ⟨_, ⟨restq, hdq⟩, he2⟩ := charP_ok hq
                      have advq : AdvOf1 (skipWs i) i2 :=
                        ⟨1, le_refl 1, by rw [hdq]; simp, he2⟩
                      have hwq : posWF i2 :=
                        advq.toAdvOf.posWF ((skipWs_advof i).posWF hw0)
                      have hoks : OkFacts i2 i3 := string_ok hwq hstr
                      obtain ⟨_, ⟨restc, hdc⟩, he5⟩ := charP_ok hcl
                      have advc : AdvOf1 (skipWs i3) i5 :=
                        ⟨1, le_refl 1, by rw [hdc]; simp, he5⟩
                      have hw5 : posWF i5 :=
                        advc.toAdvOf.posWF ((skipWs_advof i3).posWF hoks.2.1)
                      obtain ⟨hokj, hvst, hvsp, hs1, hs2, hs3⟩ :=
                        ihJV i5 i' v hw5 hjv
                      have a1 : AdvOf1 i i2 :=
                        (hadv0.trans (skipWs_advof i)).trans1 advq
                      have a2 : AdvOf1 i i3 := a1.trans' hoks.1.toAdvOf
                      have a3 : AdvOf1 i i5 :=
                        (a2.trans' (skipWs_advof i3)).trans' advc.toAdvOf
                      have a4 : AdvOf1 i i' := a3.trans' hokj.1.toAdvOf
                      refine ⟨⟨a4, hokj.2.1, hokj.2.2⟩, hs1, hs2, hs3, ?_,
                        i', hokj.2.1, hokj.2.2, hvsp, AdvOf.refl i'⟩
                      rw [hvst]
                      exact ((a3.trans' (skipWs_advof i5)).toAdvOf).ofInput_le

/-- One fuel step of the success invariant for `kv_loop`. -/
theorem kloop_step {f : Nat} (ihKV : KVOk f) (ihLoop : KLoopOk f) :
    KLoopOk (f + 1) := by
  intro i start0 acc i' out hw hacc hb h
  simp only [kv_loop] at h
  cases hs : hash_sep start0 i with
  | errR e =>
      simp only [hs] at h
      cases h
      exact ⟨AdvOf.refl i, hw, hacc⟩
  | errF e => simp only [hs] at h; cases h
  | noFuel => simp only [hs] at h; cases h
  | ok i1 u =>
      simp only [hs] at h
      obtain ⟨hadv1, hw1, hcol1⟩ := hash_sep_ok hw hs
      have hlen : ¬ i1.data.length = i.data.length := by
        have := hadv1.length_lt
        omega
      rw [if_neg hlen] at h
      cases he : key_value f i1 with
      | errR e2 =>
          simp only [he] at h
          cases h
          exact ⟨AdvOf.refl i, hw, hacc⟩
      | errF e2 => simp only [he] at h; cases h
      | noFuel => simp only [he] at h; cases h
      | ok i2 kvp =>
          simp only [he] at h
          obtain ⟨hokf2, hc1, hc2, hc3, hle1, a, ha1, ha2, ha3, ha4⟩ :=
            ihKV i1 i2 kvp hw1 he
          have advTot : AdvOf i i2 := hadv1.toAdvOf.trans hokf2.1.toAdvOf
          obtain ⟨b, hb1, hb2, hb3⟩ := hb
          have hacc2 : ∀ p ∈ acc ++ [kvp], ElemOK start0 i2 p.2 := by
            intro p hp
            rcases List.mem_append.mp hp with hpm | hpm
            · exact (hacc p hpm).mono advTot
            · rw [List.mem_singleton.mp hpm]
              refine ⟨hc1, hc2, hc3, ?_, a, ha1, ha2, ha3, ha4⟩
              rw [hb2]
              exact Position.lt_of_lt_of_le
                (Position.lt_of_lt_of_le (fromAhead_lt_ofInput hb1.2)
                  ((hb3.trans hadv1.toAdvOf).ofInput_le)) hle1
          obtain ⟨g1, g2, g3⟩ := ihLoop i2 start0 (acc ++ [kvp]) i' out
            hokf2.2.1 hacc2 ⟨b, hb1, hb2, hb3.trans advTot⟩ h
          exact ⟨advTot.trans g1, g2, g3⟩

/-- One fuel step of the success invariant for `kv_items`. -/
theorem kitems_step {f : Nat} (ihKV : KVOk f) (ihLoop : KLoopOk f) :
    KItemsOk (f + 1) := by
  intro i start0 i' out hw hb h
  simp only [kv_items] at h
  cases he : key_value f i with
  | errR e =>
      simp only [he] at h
      cases h
      exact ⟨AdvOf.refl i, hw, by intro p hp; cases hp⟩
  | errF e => simp only [he] at h; cases h
  | noFuel => simp only [he] at h; cases h
  | ok i1 kvp =>
      simp only [he] at h
      obtain ⟨hokf, hc1, hc2, hc3, hle1, a, ha1, ha2, ha3, ha4⟩ :=
        ihKV i i1 kvp hw he
      obtain ⟨b, hb1, hb2, hb3⟩ := hb
      have hacc : ∀ p ∈ [kvp], ElemOK start0 i1 p.2 := by
        intro p hp
        rw [List.mem_singleton.mp hp]
        refine ⟨hc1, hc2, hc3, ?_, a, ha1, ha2, ha3, ha4⟩
        rw [hb2]
        exact Position.lt_of_lt_of_le
          (Position.lt_of_lt_of_le (fromAhead_lt_ofInput hb1.2)
            (hb3.ofInput_le)) hle1
      obtain ⟨g1, g2, g3⟩ := ihLoop i1 start0 [kvp] i' out hokf.2.1 hacc
        ⟨b, hb1, hb2, hb3.trans hokf.1.toAdvOf⟩ h
      exact ⟨hokf.1.toAdvOf.trans g1, g2, g3⟩

/-- One fuel step of the success invariant for `hash`. -/
theorem hash_step {f : Nat} (ihItems : KItemsOk f) : HashOk (f + 1) := by
  intro i i' prs hw h
  simp only [hash] at h
  cases hi : kv_items f i (Position.fromAhead i) with
  | ok i1 pairs =>
      simp only [hi] at h
      obtain ⟨g1, g2, g3⟩ := ihItems i (Position.fromAhead i) i1 pairs hw
        ⟨i, hw, rfl, AdvOf.refl i⟩ hi
      cases hc2 : charP '\x7d' (skipWs i1) with
      | ok i3 cc =>
          simp only [hc2] at h
          cases h
          obtain ⟨_, ⟨rest, hd⟩, he3⟩ := charP_ok hc2
          have hw2 : posWF (skipWs i1) := (skipWs_advof i1).posWF g2
          have step := advance_one_cons hd (by decide)
          have adv3 : AdvOf1 (skipWs i1) i' :=
            ⟨1, le_refl 1, by rw [hd]; simp, he3⟩
          have hw3 : posWF i' := adv3.toAdvOf.posWF hw2
          have hcol3 : 2 ≤ i'.col := by
            rw [he3, step.2.2]
            have := hw2.2
            omega
          refine ⟨⟨(g1.trans (skipWs_advof i1)).trans1 adv3, hw3, hcol3⟩, ?_⟩
          intro kv hkv
          obtain ⟨e1, e2, e3, e4, a, ha1, ha2, ha3, ha4⟩ :=
            g3 kv (collectPairs_mem hkv)
          refine ⟨e1, e2, e3, e4, ?_⟩
          rw [ha3]
          exact AdvOf1.fromAhead_lt (by omega)
            ((ha4.trans (skipWs_advof i1)).trans1 adv3)
      | errR e => simp only [hc2] at h; cases h
      | errF e => simp only [hc2] at h; cases h
      | noFuel => simp only [hc2] at h; cases h
  | errR e => simp only [hi] at h; cases h
  | errF e => simp only [hi] at h; cases h
  | noFuel => simp only [hi] at h; cases h

/-- The success invariant holds at every fuel, by induction (at fuel 0
every production returns `noFuel`). -/
theorem successInv : ∀ f, JVOk f ∧ ArrOk f ∧ HashOk f ∧ AElemOk f
    ∧ ALoopOk f ∧ AItemsOk f ∧ KVOk f ∧ KLoopOk f ∧ KItemsOk f := by
  intro f
  induction f with
  | zero =>
      refine ⟨?_, ?_, ?_, ?_, ?_, ?_, ?_, ?_, ?_⟩
      · intro i i' v _ h; cases h
      · intro i i' es _ h; cases h
      · intro i i' prs _ h; cases h
      · intro i i' v _ h; cases h
      · intro i s a i' o _ _ _ h; cases h
      · intro i s i' o _ _ h; cases h
      · intro i i' kv _ h; cases h
      · intro i s a i' o _ _ _ h; cases h
      · intro i s i' o _ _ h; cases h
  | succ f ih =>
      obtain ⟨jv, arr, hsh, ae, al, ai, kvv, kl, ki⟩ := ih
      exact ⟨jv_step arr hsh (fun i i' s hw h => string_ok hw h),
        arr_step ai, hash_step ki, aelem_step jv, aloop_step ae al,
        aitems_step ae al, kv_step jv, kloop_step kvv kl,
        kitems_step kvv kl⟩

/-- On success, `parse` yields a tree satisfying the full success
invariant (span containment, 1-indexed positions, bounded integers). -/
theorem parse_ok_inv {s : String} {r : SpannedValue}
    (h : parse s = some (.ok r)) :
    spanContainOK r = true ∧ spanPosOK r = true ∧ numBoundedSp r = true := by
  unfold parse at h
  cases hj : json_value (8 * (s.data.length + 1)) (Input.new s.data) with
  | ok i v =>
      simp only [hj] at h
      cases he : end_chars i with
      | ok i2 =>
          simp only [he] at h
          cases h
          have := (successInv (8 * (s.data.length + 1))).1
            (Input.new s.data) i r ⟨le_refl 1, le_refl 1⟩ hj
          exact ⟨this.2.2.2.1, this.2.2.2.2.1, this.2.2.2.2.2⟩
      | error e => simp only [he] at h; cases h
  | errR e => simp only [hj] at h; cases h
  | errF e => simp only [hj] at h; cases h
  | noFuel => simp only [hj] at h; cases h

/-! ### Error-kind lemmas: every error reaching the caller of `parse`
carries a surfaceable kind. -/

/-- `anychar` either consumes a character or fails recoverably at eof. -/
theorem anychar_shape (i : Input) :
    (∃ c rest, i.data = c :: rest ∧ anychar i = .ok (i.advance 1) c)
      ∨ anychar i = .errR (fromErrorKind i .eof) := by
  cases hd : i.data with
  | nil =>
      right
      unfold anychar
      rw [hd]
  | cons c rest =>
      left
      exact ⟨c, rest, rfl, by unfold anychar; rw [hd]⟩

/-- `tagP` either consumes its tag or fails recoverably. -/
theorem tagP_shape (t : List Char) (i : Input) :
    tagP t i = .ok (i.advance t.length) ()
      ∨ tagP t i = .errR (fromErrorKind i .tag) := by
  unfold tagP
  by_cases h : i.data.take t.length = t
  · left
    rw [if_pos h]
  · right
    rw [if_neg h]

/-- A recoverable `anychar` error is the eof error. -/
theorem anychar_err {i : Input} {e : Error} (h : anychar i = .errR e) :
    e = fromErrorKind i .eof := by
  rcases anychar_shape i with ⟨c, rest, hd, hok⟩ | herr
  · rw [hok] at h
    cases h
  · rw [herr] at h
    exact (PRes.errR.inj h).symm

/-- A recoverable `charP` error is the char error. -/
theorem charP_err {c : Char} {i : Input} {e : Error}
    (h : charP c i = .errR e) : e = fromErrorKind i .chr := by
  rcases charP_shape c i with ⟨rest, hd, hok⟩ | herr
  · rw [hok] at h
    cases h
  · rw [herr] at h
    exact (PRes.errR.inj h).symm

/-- A recoverable `tagP` error is the tag error. -/
theorem tagP_err {t : List Char} {i : Input} {e : Error}
    (h : tagP t i = .errR e) : e = fromErrorKind i .tag := by
  rcases tagP_shape t i with hok | herr
  · rw [hok] at h
    cases h
  · rw [herr] at h
    exact (PRes.errR.inj h).symm

/-- All `u16_hex` errors carry the surfaceable `NotAnHex`. -/
theorem u16_hex_errok (i : Input) : ErrOK (u16_hex i) := by
  intro e he
  simp only [u16_hex] at he
  rcases he with h | h
  · split at h
    · cases h
      rfl
    · split at h
      · cases h
      · cases h
        rfl
  · split at h
    · cases h
    · split at h
      · cases h
      · cases h

/-- All `unicode_escape_alt` errors carry surfaceable kinds. -/
theorem unicode_escape_alt_errok (i : Input) :
    ErrOK (unicode_escape_alt i) := by
  intro e he
  simp only [unicode_escape_alt] at he
  cases hu : u16_hex i with
  | noFuel =>
      simp only [hu] at he
      rcases he with h | h <;> cases h
  | errF e2 =>
      simp only [hu] at he
      rcases he with h | h
      · cases h
      · cases h
        exact u16_hex_errok i e (Or.inr hu)
  | errR e2 =>
      simp only [hu] at he
      rcases he with h | h
      · cases h
        exact u16_hex_errok i e (Or.inl hu)
      · cases h
  | ok i1 cp =>
      simp only [hu] at he
      rcases he with h | h
      · split at h
        · cases h
        · cases ht : tagP ['\\', 'u'] i1 with
          | ok i2 u =>
              simp only [ht] at h
              cases hu2 : u16_hex i2 with
              | ok i3 lo =>
                  simp only [hu2] at h
                  split at h
                  · cases h
                  · cases h
                    rfl
              | errR e2 =>
                  simp only [hu2] at h
                  cases h
                  exact u16_hex_errok i2 e (Or.inl hu2)
              | errF e2 => simp only [hu2] at h; cases h
              | noFuel => simp only [hu2] at h; cases h
          | errR e2 =>
              simp only [ht] at h
              cases h
              rw [tagP_err ht]
              rfl
          | errF e2 =>
              rcases tagP_shape ['\\', 'u'] i1 with h1 | h1 <;>
                rw [h1] at ht <;> cases ht
          | noFuel =>
              rcases tagP_shape ['\\', 'u'] i1 with h1 | h1 <;>
                rw [h1] at ht <;> cases ht
      · split at h
        · cases h
        · cases ht : tagP ['\\', 'u'] i1 with
          | ok i2 u =>
              simp only [ht] at h
              cases hu2 : u16_hex i2 with
              | ok i3 lo =>
                  simp only [hu2] at h
                  split at h
                  · cases h
                  · cases h
              | errR e2 => simp only [hu2] at h; cases h
              | errF e2 =>
                  simp only [hu2] at h
                  cases h
                  exact u16_hex_errok i2 e (Or.inr hu2)
              | noFuel => simp only [hu2] at h; cases h
          | errR e2 => simp only [ht] at h; cases h
          | errF e2 =>
              rcases tagP_shape ['\\', 'u'] i1 with h1 | h1 <;>
                rw [h1] at ht <;> cases ht
          | noFuel =>
              rcases tagP_shape ['\\', 'u'] i1 with h1 | h1 <;>
                rw [h1] at ht <;> cases ht

/-- All `unicode_escape` errors carry surfaceable kinds. -/
theorem unicode_escape_errok (i : Input) : ErrOK (unicode_escape i) := by
  intro e he
  simp only [unicode_escape] at he
  cases hu : unicode_escape_alt i with
  | ok i1 v =>
      simp only [hu] at he
      cases hc : charFromU32 v with
      | some c => simp only [hc] at he; rcases he with h | h <;> cases h
      | none =>
          simp only [hc] at he
          rcases he with h | h
          · cases h
            rfl
          · cases h
  | errR e2 =>
      simp only [hu] at he
      rcases he with h | h
      · cases h
        exact unicode_escape_alt_errok i e (Or.inl hu)
      · cases h
  | errF e2 =>
      simp only [hu] at he
      rcases he with h | h
      · cases h
      · cases h
        exact unicode_escape_alt_errok i e (Or.inr hu)
  | noFuel =>
      simp only [hu] at he
      rcases he with h | h <;> cases h

/-- All `parse_char` errors carry surfaceable kinds. -/
theorem parse_char_errok (i : Input) : ErrOK (parse_char i) := by
  intro e he
  simp only [parse_char] at he
  cases hd : i.data with
  | nil =>
      simp only [hd] at he
      rcases he with h | h
      · cases h
        rfl
      · cases h
  | cons c rest =>
      simp only [hd] at he
      rcases he with h | h
      · split at h
        · cases h
          rfl
        · split at h
          · cases hd1 : (i.advance 1).data with
            | nil =>
                simp only [hd1] at h
                cases h
                rfl
            | cons ec r2 =>
                simp only [hd1] at h
                cases hesc : escTable ec with
                | some d => simp only [hesc] at h; cases h
                | none =>
                    simp only [hesc] at h
                    split at h
                    · exact unicode_escape_errok ((i.advance 1).advance 1) e
                        (Or.inl h)
                    · cases h
                      rfl
          · cases h
      · split at h
        · cases h
        · split at h
          · cases hd1 : (i.advance 1).data with
            | nil => simp only [hd1] at h; cases h
            | cons ec r2 =>
                simp only [hd1] at h
                cases hesc : escTable ec with
                | some d => simp only [hesc] at h; cases h
                | none =>
                    simp only [hesc] at h
                    split at h
                    · exact unicode_escape_errok ((i.advance 1).advance 1) e
                        (Or.inr h)
                    · cases h
          · cases h

/-- All `string_body` errors carry surfaceable kinds. -/
theorem sbody_err : ∀ f i acc, ErrOK (string_body f i acc) := by
  intro f
  induction f with
  | zero =>
      intro i acc e he
      rcases he with h | h <;> cases h
  | succ f ih =>
      intro i acc e he
      simp only [string_body] at he
      cases hp : parse_char i with
      | ok i1 c =>
          simp only [hp] at he
          by_cases hlen : i1.data.length = i.data.length
          · rw [if_pos hlen] at he
            rcases he with h | h
            · cases h
              rfl
            · cases h
          · rw [if_neg hlen] at he
            exact ih i1 (acc ++ [c]) e he
      | errR e2 =>
          simp only [hp] at he
          rcases he with h | h <;> cases h
      | errF e2 =>
          simp only [hp] at he
          rcases he with h | h
          · cases h
          · cases h
            exact parse_char_errok i e (Or.inr hp)
      | noFuel =>
          simp only [hp] at he
          rcases he with h | h <;> cases h

/-- All `string` errors carry surfaceable kinds (its fatal errors are
remapped to `MissingQuote`). -/
theorem string_err : ∀ f i, ErrOK (string f i) := by
  intro f i e he
  cases f with
  | zero => rcases he with h | h <;> cases h
  | succ f =>
      simp only [string] at he
      cases hb : string_body f i [] with
      | ok i1 acc =>
          simp only [hb] at he
          cases hc : charP '"' i1 with
          | ok i2 cc =>
              simp only [hc] at he
              rcases he with h | h <;> cases h
          | errR e2 =>
              simp only [hc] at he
              rcases he with h | h
              · cases h
              · cases h
                rfl
          | errF e2 =>
              rcases charP_shape '"' i1 with ⟨r2, hd2, h1⟩ | h1 <;>
                rw [h1] at hc <;> cases hc
          | noFuel =>
              rcases charP_shape '"' i1 with ⟨r2, hd2, h1⟩ | h1 <;>
                rw [h1] at hc <;> cases hc
      | errR e2 =>
          simp only [hb] at he
          rcases he with h | h
          · cases h
            exact sbody_err f i [] e (Or.inl hb)
          · cases h
      | errF e2 =>
          simp only [hb] at he
          rcases he with h | h
          · cases h
          · cases h
            rfl
      | noFuel =>
          simp only [hb] at he
          rcases he with h | h <;> cases h

/-- All `number` errors carry surfaceable kinds. -/
theorem number_errok (first : Char) (i : Input) : ErrOK (number first i) := by
  intro e he
  simp only [number] at he
  rcases he with h | h
  · split at h
    · cases h
      rfl
    · split at h
      · cases h
      · cases h
  · split at h
    · cases h
    · split at h
      · cases h
      · cases h
        rfl

/-- All `parse_true` errors carry surfaceable kinds. -/
theorem parse_true_errok (i : Input) : ErrOK (parse_true i) := by
  intro e he
  simp only [parse_true] at he
  cases ht : tagP ['r', 'u', 'e'] i with
  | ok i1 u =>
      simp only [ht] at he
      rcases he with h | h <;> cases h
  | errR e2 =>
      simp only [ht] at he
      rcases he with h | h
      · cases h
      · cases h
        rfl
  | errF e2 =>
      simp only [ht] at he
      rcases he with h | h
      · cases h
      · cases h
        rfl
  | noFuel =>
      simp only [ht] at he
      rcases he with h | h
      · cases h
      · cases h
        rfl

/-- All `parse_false` errors carry surfaceable kinds. -/
theorem parse_false_errok (i : Input) : ErrOK (parse_false i) := by
  intro e he
  simp only [parse_false] at he
  cases ht : tagP ['a', 'l', 's', 'e'] i with
  | ok i1 u =>
      simp only [ht] at he
      rcases he with h | h <;> cases h
  | errR e2 =>
      simp only [ht] at he
      rcases he with h | h
      · cases h
      · cases h
        rfl
  | errF e2 =>
      simp only [ht] at he
      rcases he with h | h
      · cases h
      · cases h
        rfl
  | noFuel =>
      simp only [ht] at he
      rcases he with h | h
      · cases h
      · cases h
        rfl

/-- All `null` errors carry surfaceable kinds. -/
theorem null_errok (i : Input) : ErrOK (null i) := by
  intro e he
  simp only [null] at he
  cases ht : tagP ['u', 'l', 'l'] i with
  | ok i1 u =>
      simp only [ht] at he
      rcases he with h | h <;> cases h
  | errR e2 =>
      simp only [ht] at he
      rcases he with h | h
      · cases h
      · cases h
        rfl
  | errF e2 =>
      simp only [ht] at he
      rcases he with h | h
      · cases h
      · cases h
        rfl
  | noFuel =>
      simp only [ht] at he
      rcases he with h | h
      · cases h
      · cases h
        rfl

/-- All `arr_sep` errors carry surfaceable kinds. -/
theorem arr_sep_errok (st : Position) (i : Input) : ErrOK (arr_sep st i) := by
  intro e he
  simp only [arr_sep] at he
  cases hc : charP ',' (skipWs i) with
  | ok i2 cc =>
      simp only [hc] at he
      rcases he with h | h <;> cases h
  | errF e2 =>
      rcases charP_shape ',' (skipWs i) with ⟨r2, hd2, h1⟩ | h1 <;>
        rw [h1] at hc <;> cases hc
  | noFuel =>
      rcases charP_shape ',' (skipWs i) with ⟨r2, hd2, h1⟩ | h1 <;>
        rw [h1] at hc <;> cases hc
  | errR e2 =>
      simp only [hc] at he
      rcases he with h | h
      · split at h
        · cases h
        · cases h
          rw [charP_err hc]
          rfl
      · split at h
        · cases h
          rfl
        · cases h

/-- All `hash_sep` errors carry surfaceable kinds. -/
theorem hash_sep_errok (st : Position) (i : Input) :
    ErrOK (hash_sep st i) := by
  intro e he
  simp only [hash_sep] at he
  cases hc : charP ',' (skipWs i) with
  | ok i2 cc =>
      simp only [hc] at he
      rcases he with h | h
      · split at h
        · cases h
        · cases h
      · split at h
        · cases h
          rfl
        · cases h
  | errF e2 =>
      rcases charP_shape ',' (skipWs i) with ⟨r2, hd2, h1⟩ | h1 <;>
        rw [h1] at hc <;> cases hc
  | noFuel =>
      rcases charP_shape ',' (skipWs i) with ⟨r2, hd2, h1⟩ | h1 <;>
        rw [h1] at hc <;> cases hc
  | errR e2 =>
      simp only [hc] at he
      rcases he with h | h
      · split at h
        · cases h
        · cases h
          rw [charP_err hc]
          rfl
      · split at h
        · cases h
          rfl
        · cases h

/-- One fuel step of the error-kind invariant for `json_value`. -/
theorem jv_err_step {f : Nat} (ihArr : ArrErr f) (ihHash : HashErr f) :
    JVErr (f + 1) := by
  intro i e he
  simp only [json_value] at he
  cases ha : anychar (skipWs i) with
  | errR e2 =>
      simp only [ha] at he
      rcases he with h | h
      · cases h
        rw [anychar_err ha]
        rfl
      · cases h
  | errF e2 =>
      rcases anychar_shape (skipWs i) with ⟨c, rest, hd, h1⟩ | h1 <;>
        rw [h1] at ha <;> cases ha
  | noFuel =>
      rcases anychar_shape (skipWs i) with ⟨c, rest, hd, h1⟩ | h1 <;>
        rw [h1] at ha <;> cases ha
  | ok i1 c =>
      simp only [ha] at he
      by_cases hc1 : c = '\x7b'
      · rw [if_pos hc1] at he
        cases hh : hash f i1 with
        | ok i2 prs =>
            simp only [hh, PRes.mapv] at he
            rcases he with h | h <;> cases h
        | errR e2 =>
            simp only [hh, PRes.mapv] at he
            rcases he with h | h
            · cases h
              exact ihHash i1 e (Or.inl hh)
            · cases h
        | errF e2 =>
            simp only [hh, PRes.mapv] at he
            rcases he with h | h
            · cases h
            · cases h
              exact ihHash i1 e (Or.inr hh)
        | noFuel =>
            simp only [hh, PRes.mapv] at he
            rcases he with h | h <;> cases h
      · rw [if_neg hc1] at he
        by_cases hc2 : c = '['
        · rw [if_pos hc2] at he
          cases harr : array f i1 with
          | ok i2 es =>
              simp only [harr, PRes.mapv] at he
              rcases he with h | h <;> cases h
          | errR e2 =>
              simp only [harr, PRes.mapv] at he
              rcases he with h | h
              · cases h
                exact ihArr i1 e (Or.inl harr)
              · cases h
          | errF e2 =>
              simp only [harr, PRes.mapv] at he
              rcases he with h | h
              · cases h
              · cases h
                exact ihArr i1 e (Or.inr harr)
          | noFuel =>
              simp only [harr, PRes.mapv] at he
              rcases he with h | h <;> cases h
        · rw [if_neg hc2] at he
          by_cases hc3 : c = '"'
          · rw [if_pos hc3] at he
            cases hs : string f i1 with
            | ok i2 s =>
                simp only [hs, PRes.mapv] at he
                rcases he with h | h <;> cases h
            | errR e2 =>
                simp only [hs, PRes.mapv] at he
                rcases he with h | h
                · cases h
                  exact string_err f i1 e (Or.inl hs)
                · cases h
            | errF e2 =>
                simp only [hs, PRes.mapv] at he
                rcases he with h | h
                · cases h
                · cases h
                  exact string_err f i1 e (Or.inr hs)
            | noFuel =>
                simp only [hs, PRes.mapv] at he
                rcases he with h | h <;> cases h
          · rw [if_neg hc3] at he
            by_cases hc4 : (decide (c = '-') || c.isDigit) = true
            · rw [if_pos hc4] at he
              cases hn : number c i1 with
              | ok i2 nm =>
                  simp only [hn, PRes.mapv] at he
                  rcases he with h | h <;> cases h
              | errR e2 =>
                  simp only [hn, PRes.mapv] at he
                  rcases he with h | h
                  · cases h
                    exact number_errok c i1 e (Or.inl hn)
                  · cases h
              | errF e2 =>
                  simp only [hn, PRes.mapv] at he
                  rcases he with h | h
                  · cases h
                  · cases h
                    exact number_errok c i1 e (Or.inr hn)
              | noFuel =>
                  simp only [hn, PRes.mapv] at he
                  rcases he with h | h <;> cases h
            · rw [if_neg hc4] at he
              by_cases hc5 : c = 't'
              · rw [if_pos hc5] at he
                cases ht : parse_true i1 with
                | ok i2 b =>
                    simp only [ht, PRes.mapv] at he
                    rcases he with h | h <;> cases h
                | errR e2 =>
                    simp only [ht, PRes.mapv] at he
                    rcases he with h | h
                    · cases h
                      exact parse_true_errok i1 e (Or.inl ht)
                    · cases h
                | errF e2 =>
                    simp only [ht, PRes.mapv] at he
                    rcases he with h | h
                    · cases h
                    · cases h
                      exact parse_true_errok i1 e (Or.inr ht)
                | noFuel =>
                    simp only [ht, PRes.mapv] at he
                    rcases he with h | h <;> cases h
              · rw [if_neg hc5] at he
                by_cases hc6 : c = 'f'
                · rw [if_pos hc6] at he
                  cases ht : parse_false i1 with
                  | ok i2 b =>
                      simp only [ht, PRes.mapv] at he
                      rcases he with h | h <;> cases h
                  | errR e2 =>
                      simp only [ht, PRes.mapv] at he
                      rcases he with h | h
                      · cases h
                        exact parse_false_errok i1 e (Or.inl ht)
                      · cases h
                  | errF e2 =>
                      simp only [ht, PRes.mapv] at he
                      rcases he with h | h
                      · cases h
                      · cases h
                        exact parse_false_errok i1 e (Or.inr ht)
                  | noFuel =>
                      simp only [ht, PRes.mapv] at he
                      rcases he with h | h <;> cases h
                · rw [if_neg hc6] at he
                  by_cases hc7 : c = 'n'
                  · rw [if_pos hc7] at he
                    cases ht : null i1 with
                    | ok i2 u =>
                        simp only [ht, PRes.mapv] at he
                        rcases he with h | h <;> cases h
                    | errR e2 =>
                        simp only [ht, PRes.mapv] at he
                        rcases he with h | h
                        · cases h
                          exact null_errok i1 e (Or.inl ht)
                        · cases h
                    | errF e2 =>
                        simp only [ht, PRes.mapv] at he
                        rcases he with h | h
                        · cases h
                        · cases h
                          exact null_errok i1 e (Or.inr ht)
                    | noFuel =>
                        simp only [ht, PRes.mapv] at he
                        rcases he with h | h <;> cases h
                  · rw [if_neg hc7] at he
                    rcases he with h | h
                    · cases h
                    · cases h
                      rfl

/-- One fuel step of the error-kind invariant for `arr_elem`. -/
theorem aelem_err_step {f : Nat} (ihJV : JVErr f) : AElemErr (f + 1) := by
  intro i e he
  simp only [arr_elem] at he
  cases hj : json_value f i with
  | ok i2 v2 =>
      simp only [hj] at he
      rcases he with h | h <;> cases h
  | noFuel =>
      simp only [hj] at he
      rcases he with h | h <;> cases h
  | errR e2 =>
      simp only [hj] at he
      rcases he with h | h
      · split at h
        · cases h
        · cases h
          exact ihJV i e (Or.inl hj)
      · split at h
        · cases h
          rfl
        · cases h
  | errF e2 =>
      simp only [hj] at he
      rcases he with h | h
      · split at h
        · cases h
        · cases h
      · split at h
        · cases h
          rfl
        · cases h
          exact ihJV i e (Or.inr hj)

/-- One fuel step of the error-kind invariant for `arr_loop`. -/
theorem aloop_err_step {f : Nat} (ihElem : AElemErr f)
    (ihLoop : ALoopErr f) : ALoopErr (f + 1) := by
  intro i st acc e he
  simp only [arr_loop] at he
  cases hs : arr_sep st i with
  | errR e2 =>
      simp only [hs] at he
      rcases he with h | h <;> cases h
  | errF e2 =>
      simp only [hs] at he
      rcases he with h | h
      · cases h
      · cases h
        exact arr_sep_errok st i e (Or.inr hs)
  | noFuel =>
      simp only [hs] at he
      rcases he with h | h <;> cases h
  | ok i1 u =>
      simp only [hs] at he
      by_cases hlen : i1.data.length = i.data.length
      · rw [if_pos hlen] at he
        rcases he with h | h
        · cases h
          rfl
        · cases h
      · rw [if_neg hlen] at he
        cases hel : arr_elem f i1 with
        | errR e2 =>
            simp only [hel] at he
            rcases he with h | h <;> cases h
        | errF e2 =>
            simp only [hel] at he
            rcases he with h | h
            · cases h
            · cases h
              exact ihElem i1 e (Or.inr hel)
        | noFuel =>
            simp only [hel] at he
            rcases he with h | h <;> cases h
        | ok i2 v =>
            simp only [hel] at he
            exact ihLoop i2 st (acc ++ [v]) e he

/-- One fuel step of the error-kind invariant for `arr_items`. -/
theorem aitems_err_step {f : Nat} (ihElem : AElemErr f)
    (ihLoop : ALoopErr f) : AItemsErr (f + 1) := by
  intro i st e he
  simp only [arr_items] at he
  cases hel : arr_elem f i with
  | errR e2 =>
      simp only [hel] at he
      rcases he with h | h <;> cases h
  | errF e2 =>
      simp only [hel] at he
      rcases he with h | h
      · cases h
      · cases h
        exact ihElem i e (Or.inr hel)
  | noFuel =>
      simp only [hel] at he
      rcases he with h | h <;> cases h
  | ok i1 v =>
      simp only [hel] at he
      exact ihLoop i1 st [v] e he

/-- One fuel step of the error-kind invariant for `array`. -/
theorem arr_err_step {f : Nat} (ihItems : AItemsErr f) : ArrErr (f + 1) := by
  intro i e he
  simp only [array] at he
  by_cases hcl : (skipWs i).startsWith ']' = true
  · rw [if_pos hcl] at he
    rcases he with h | h <;> cases h
  · rw [if_neg hcl] at he
    by_cases hemp : (skipWs i).data.isEmpty = true
    · rw [if_pos hemp] at he
      rcases he with h | h
      · cases h
      · cases h
        rfl
    · rw [if_neg hemp] at he
      cases hi : arr_items f (skipWs i) (Position.fromAhead i) with
      | ok i1 elems =>
          simp only [hi] at he
          cases hc2 : charP ']' (skipWs i1) with
          | ok i3 cc =>
              simp only [hc2] at he
              rcases he with h | h <;> cases h
          | errR e2 =>
              simp only [hc2] at he
              rcases he with h | h
              · cases h
              · cases h
                rfl
          | errF e2 =>
              rcases charP_shape ']' (skipWs i1) with ⟨r2, hd2, h1⟩ | h1 <;>
                rw [h1] at hc2 <;> cases hc2
          | noFuel =>
              rcases charP_shape ']' (skipWs i1) with ⟨r2, hd2, h1⟩ | h1 <;>
                rw [h1] at hc2 <;> cases hc2
      | errR e2 =>
          simp only [hi] at he
          rcases he with h | h
          · cases h
            exact ihItems (skipWs i) (Position.fromAhead i) e (Or.inl hi)
          · cases h
      | errF e2 =>
          simp only [hi] at he
          rcases he with h | h
          · cases h
          · cases h
            exact ihItems (skipWs i) (Position.fromAhead i) e (Or.inr hi)
      | noFuel =>
          simp only [hi] at he
          rcases he with h | h <;> cases h

/-- One fuel step of the error-kind invariant for `key_value`. -/
theorem kv_err_step {f : Nat} (ihJV : JVErr f) : KVErr (f + 1) := by
  intro i e
  simp only [key_value]
  rcases charP_shape ',' i with ⟨rest0, hd0, hc0⟩ | hc0
  · simp only [hc0]
    by_cases hg : (((skipWs (i.advance 1)).startsWith '\x7d'
        || (skipWs (i.advance 1)).data.isEmpty) && !true) = true
    · rw [if_pos hg]
      constructor
      · intro h
        cases h
        exact Or.inr rfl
      · intro h
        cases h
    · rw [if_neg hg]
      cases hq : charP '"' (skipWs (i.advance 1)) with
      | errR e0 =>
          simp only [hq]
          constructor
          · intro h
            cases h
          · intro h
            cases h
            rfl
      | errF e0 =>
          rcases charP_shape '"' (skipWs (i.advance 1)) with ⟨r2, hd2, h1⟩ | h1 <;>
            rw [h1] at hq <;> cases hq
      | noFuel =>
          rcases charP_shape '"' (skipWs (i.advance 1)) with ⟨r2, hd2, h1⟩ | h1 <;>
            rw [h1] at hq <;> cases hq
      | ok i2 cq =>
          simp only [hq]
          cases hstr : string f i2 with
          | errR e0 =>
              simp only [hstr]
              constructor
              · intro h
                cases h
              · intro h
                cases h
                rfl
          | errF e0 =>
              simp only [hstr]
              constructor
              · intro h
                cases h
              · intro h
                cases h
                exact string_err f i2 e (Or.inr hstr)
          | noFuel =>
              simp only [hstr]
              constructor <;> intro h <;> cases h
          | ok i3 key =>
              simp only [hstr]
              cases hcl : charP ':' (skipWs i3) with
              | errR e0 =>
                  simp only [hcl]
                  constructor
                  · intro h
                    cases h
                  · intro h
                    cases h
                    rfl
              | errF e0 =>
                  rcases charP_shape ':' (skipWs i3) with ⟨r2, hd2, h1⟩ | h1 <;>
                    rw [h1] at hcl <;> cases hcl
              | noFuel =>
                  rcases charP_shape ':' (skipWs i3) with ⟨r2, hd2, h1⟩ | h1 <;>
                    rw [h1] at hcl <;> cases hcl
              | ok i5 cc =>
                  simp only [hcl]
                  cases hjv : json_value f i5 with
                  | ok i6 v =>
                      simp only [hjv]
                      constructor <;> intro h <;> cases h
                  | errR e0 =>
                      simp only [hjv]
                      constructor
                      · intro h
                        cases h
                        exact Or.inl (ihJV i5 e (Or.inl hjv))
                      · intro h
                        cases h
                  | errF e0 =>
                      simp only [hjv]
                      constructor
                      · intro h
                        cases h
                      · intro h
                        cases h
                        exact ihJV i5 e (Or.inr hjv)
                  | noFuel =>
                      simp only [hjv]
                      constructor <;> intro h <;> cases h
  · simp only [hc0]
    by_cases hg : (((skipWs i).startsWith '\x7d'
        || (skipWs i).data.isEmpty) && !false) = true
    · rw [if_pos hg]
      constructor
      · intro h
        cases h
        exact Or.inr rfl
      · intro h
        cases h
    · rw [if_neg hg]
      cases hq : charP '"' (skipWs i) with
      | errR e0 =>
          simp only [hq]
          constructor
          · intro h
            cases h
          · intro h
            cases h
            rfl
      | errF e0 =>
          rcases charP_shape '"' (skipWs i) with ⟨r2, hd2, h1⟩ | h1 <;>
            rw [h1] at hq <;> cases hq
      | noFuel =>
          rcases charP_shape '"' (skipWs i) with ⟨r2, hd2, h1⟩ | h1 <;>
            rw [h1] at hq <;> cases hq
      | ok i2 cq =>
          simp only [hq]
          cases hstr : string f i2 with
          | errR e0 =>
              simp only [hstr]
              constructor
              · intro h
                cases h
              · intro h
                cases h
                rfl
          | errF e0 =>
              simp only [hstr]
              constructor
              · intro h
                cases h
              · intro h
                cases h
                exact string_err f i2 e (Or.inr hstr)
          | noFuel =>
              simp only [hstr]
              constructor <;> intro h <;> cases h
          | ok i3 key =>
              simp only [hstr]
              cases hcl : charP ':' (skipWs i3) with
              | errR e0 =>
                  simp only [hcl]
                  constructor
                  · intro h
                    cases h
                  · intro h
                    cases h
                    rfl
              | errF e0 =>
                  rcases charP_shape ':' (skipWs i3) with ⟨r2, hd2, h1⟩ | h1 <;>
                    rw [h1] at hcl <;> cases hcl
              | noFuel =>
                  rcases charP_shape ':' (skipWs i3) with ⟨r2, hd2, h1⟩ | h1 <;>
                    rw [h1] at hcl <;> cases hcl
              | ok i5 cc =>
                  simp only [hcl]
                  cases hjv : json_value f i5 with
                  | ok i6 v =>
                      simp only [hjv]
                      constructor <;> intro h <;> cases h
                  | errR e0 =>
                      simp only [hjv]
                      constructor
                      · intro h
                        cases h
                        exact Or.inl (ihJV i5 e (Or.inl hjv))
                      · intro h
                        cases h
                  | errF e0 =>
                      simp only [hjv]
                      constructor
                      · intro h
                        cases h
                      · intro h
                        cases h
                        exact ihJV i5 e (Or.inr hjv)
                  | noFuel =>
                      simp only [hjv]
                      constructor <;> intro h <;> cases h

/-- One fuel step of the error-kind invariant for `kv_loop`. -/
theorem kloop_err_step {f : Nat} (ihKV : KVErr f) (ihLoop : KLoopErr f) :
    KLoopErr (f + 1) := by
  intro i st acc e he
  simp only [kv_loop] at he
  cases hs : hash_sep st i with
  | errR e2 =>
      simp only [hs] at he
      rcases he with h | h <;> cases h
  | errF e2 =>
      simp only [hs] at he
      rcases he with h | h
      · cases h
      · cases h
        exact hash_sep_errok st i e (Or.inr hs)
  | noFuel =>
      simp only [hs] at he
      rcases he with h | h <;> cases h
  | ok i1 u =>
      simp only [hs] at he
      by_cases hlen : i1.data.length = i.data.length
      · rw [if_pos hlen] at he
        rcases he with h | h
        · cases h
          rfl
        · cases h
      · rw [if_neg hlen] at he
        cases hk : key_value f i1 with
        | errR e2 =>
            simp only [hk] at he
            rcases he with h | h <;> cases h
        | errF e2 =>
            simp only [hk] at he
            rcases he with h | h
            · cases h
            · cases h
              exact (ihKV i1 e).2 hk
        | noFuel =>
            simp only [hk] at he
            rcases he with h | h <;> cases h
        | ok i2 kvp =>
            simp only [hk] at he
            exact ihLoop i2 st (acc ++ [kvp]) e he

/-- One fuel step of the error-kind invariant for `kv_items`. -/
theorem kitems_err_step {f : Nat} (ihKV : KVErr f) (ihLoop : KLoopErr f) :
    KItemsErr (f + 1) := by
  intro i st e he
  simp only [kv_items] at he
  cases hk : key_value f i with
  | errR e2 =>
      simp only [hk] at he
      rcases he with h | h <;> cases h
  | errF e2 =>
      simp only [hk] at he
      rcases he with h | h
      · cases h
      · cases h
        exact (ihKV i e).2 hk
  | noFuel =>
      simp only [hk] at he
      rcases he with h | h <;> cases h
  | ok i1 kvp =>
      simp only [hk] at he
      exact ihLoop i1 st [kvp] e he

/-- One fuel step of the error-kind invariant for `hash`. -/
theorem hash_err_step {f : Nat} (ihItems : KItemsErr f) : HashErr (f + 1) := by
  intro i e he
  simp only [hash] at he
  cases hi : kv_items f i (Position.fromAhead i) with
  | ok i1 pairs =>
      simp only [hi] at he
      cases hc2 : charP '\x7d' (skipWs i1) with
      | ok i3 cc =>
          simp only [hc2] at he
          rcases he with h | h <;> cases h
      | errR e2 =>
          simp only [hc2] at he
          rcases he with h | h
          · cases h
          · cases h
            rfl
      | errF e2 =>
          rcases charP_shape '\x7d' (skipWs i1) with ⟨r2, hd2, h1⟩ | h1 <;>
            rw [h1] at hc2 <;> cases hc2
      | noFuel =>
          rcases charP_shape '\x7d' (skipWs i1) with ⟨r2, hd2, h1⟩ | h1 <;>
            rw [h1] at hc2 <;> cases hc2
  | errR e2 =>
      simp only [hi] at he
      rcases he with h | h
      · cases h
        exact ihItems i (Position.fromAhead i) e (Or.inl hi)
      · cases h
  | errF e2 =>
      simp only [hi] at he
      rcases he with h | h
      · cases h
      · cases h
        exact ihItems i (Position.fromAhead i) e (Or.inr hi)
  | noFuel =>
      simp only [hi] at he
      rcases he with h | h <;> cases h

/-- The error-kind invariant holds at every fuel. -/
theorem errInv : ∀ f, JVErr f ∧ ArrErr f ∧ HashErr f ∧ AElemErr f
    ∧ ALoopErr f ∧ AItemsErr f ∧ KVErr f ∧ KLoopErr f ∧ KItemsErr f := by
  intro f
  induction f with
  | zero =>
      refine ⟨?_, ?_, ?_, ?_, ?_, ?_, ?_, ?_, ?_⟩
      · intro i e he; rcases he with h | h <;> cases h
      · intro i e he; rcases he with h | h <;> cases h
      · intro i e he; rcases he with h | h <;> cases h
      · intro i e he; rcases he with h | h <;> cases h
      · intro i st acc e he; rcases he with h | h <;> cases h
      · intro i st e he; rcases he with h | h <;> cases h
      · intro i e
        constructor
        · intro h
          cases h
        · intro h
          cases h
      · intro i st acc e he; rcases he with h | h <;> cases h
      · intro i st e he; rcases he with h | h <;> cases h
  | succ f ih =>
      obtain ⟨jv, arr, hsh, ae, al, ai, kvv, kl, ki⟩ := ih
      exact ⟨jv_err_step arr hsh, arr_err_step ai, hash_err_step ki,
        aelem_err_step jv, aloop_err_step ae al, aitems_err_step ae al,
        kv_err_step jv, kloop_err_step kvv kl, kitems_err_step kvv kl⟩

/-- Every error returned by `parse` carries a surfaceable kind. -/
theorem parse_err_kind {s : String} {e : Error}
    (h : parse s = some (.error e)) : surfaceableKind e.kind = true := by
  unfold parse at h
  cases hj : json_value (8 * (s.data.length + 1)) (Input.new s.data) with
  | ok i v =>
      simp only [hj] at h
      cases he : end_chars i with
      | ok i2 => simp only [he] at h; cases h
      | error e2 =>
          simp only [he] at h
          cases h
          simp only [end_chars] at he
          split at he
          · cases he
          · cases he
            rfl
  | errR e2 =>
      simp only [hj] at h
      cases h
      exact (errInv (8 * (s.data.length + 1))).1 (Input.new s.data) e
        (Or.inl hj)
  | errF e2 =>
      simp only [hj] at h
      cases h
      exact (errInv (8 * (s.data.length + 1))).1 (Input.new s.data) e
        (Or.inr hj)
  | noFuel => simp only [hj] at h; cases h

/-- Splitting a surfaceable kind into the three families. -/
theorem surfaceable_split {k : Kind} (h : surfaceableKind k = true) :
    isSurfaceKind k = true ∨ k = .NotANumber ∨ ∃ nk, k = .NomError nk := by
  cases k <;>
    first
      | exact Or.inr (Or.inl rfl)
      | exact Or.inr (Or.inr ⟨_, rfl⟩)
      | exact Or.inl h

/-! ### Round-trip machinery: serialized text re-parses to the same
value modulo spans. -/

/-- `skipWs` is the identity when the head is not whitespace. -/
theorem skipWs_id {i : Input} {c : Char} {t : List Char}
    (hd : i.data = c :: t) (hc : isWsChar c = false) : skipWs i = i := by
  unfold skipWs
  rw [hd, List.takeWhile_cons_of_neg (by simp [hc]), List.length_nil,
    advance_zero]

/-- Any advance keeps the position 1-indexed. -/
theorem posWF_advance {i : Input} (n : Nat) (hw : posWF i) :
    posWF (i.advance n) :=
  advance_pos_ge_one i n hw.1 hw.2

theorem startsWith_head_true {i : Input} {c : Char} {t : List Char}
    (hd : i.data = c :: t) : i.startsWith c = true := by
  unfold Input.startsWith
  rw [hd]
  exact decide_eq_true rfl

theorem startsWith_head_false {i : Input} {c c' : Char} {t : List Char}
    (hd : i.data = c :: t) (h : c ≠ c') : i.startsWith c' = false := by
  unfold Input.startsWith
  rw [hd]
  exact decide_eq_false h

theorem charP_cons_ok {i : Input} {c : Char} {t : List Char}
    (hd : i.data = c :: t) : charP c i = .ok (i.advance 1) c := by
  unfold charP
  simp only [hd]
  rw [if_pos trivial]

theorem charP_cons_ne {i : Input} {c c' : Char} {t : List Char}
    (hd : i.data = c :: t) (h : c ≠ c') :
    charP c' i = .errR (fromErrorKind i .chr) := by
  unfold charP
  simp only [hd]
  rw [if_neg h]

theorem anychar_cons {i : Input} {c : Char} {t : List Char}
    (hd : i.data = c :: t) : anychar i = .ok (i.advance 1) c := by
  unfold anychar
  simp only [hd]

theorem tagP_front {i : Input} {t rest : List Char}
    (hd : i.data = t ++ rest) : tagP t i = .ok (i.advance t.length) () := by
  unfold tagP
  rw [hd, List.take_left, if_pos rfl]

theorem advance_append_data {i : Input} {t rest : List Char}
    (hd : i.data = t ++ rest) : (i.advance t.length).data = rest := by
  rw [advance_data, hd, List.drop_left]

theorem advance_one_data {i : Input} {c : Char} {t : List Char}
    (hd : i.data = c :: t) : (i.advance 1).data = t := by
  rw [advance_data, hd]
  rfl

theorem takeWhile_append_all {p : Char → Bool} : ∀ {t rest : List Char},
    (∀ c ∈ t, p c = true) → rest.takeWhile p = [] →
    (t ++ rest).takeWhile p = t := by
  intro t
  induction t with
  | nil =>
      intro rest _ hr
      exact hr
  | cons c t ih =>
      intro rest hall hr
      rw [List.cons_append,
        List.takeWhile_cons_of_pos (hall c (List.mem_cons_self _ _)),
        ih (fun x hx => hall x (List.mem_cons_of_mem _ hx)) hr]

theorem delim_not_digit {c : Char} (h : isDelim false c = true) :
    c.isDigit = false := by
  unfold isDelim at h
  simp only [Bool.false_and, Bool.or_false, Bool.or_eq_true,
    decide_eq_true_iff] at h
  rcases h with (((h | h) | h) | h) | h <;> rw [h] <;> decide

theorem isDigit_ne {c c' : Char} (h : c.isDigit = true)
    (h2 : c'.isDigit = false) : c ≠ c' := fun he => by
  rw [he, h2] at h
  cases h

theorem isDigit_not_ws {c : Char} (h : c.isDigit = true) :
    isWsChar c = false := by
  cases hb : isWsChar c with
  | false => rfl
  | true =>
      exfalso
      unfold isWsChar at hb
      simp only [Bool.or_eq_true, decide_eq_true_iff] at hb
      rcases hb with ((hb | hb) | hb) | hb <;> rw [hb] at h <;> cases h

/-- The digit characters are digits, `'0'` only for 0, with the decimal
value back. -/
theorem digitChar_facts : ∀ d, d < 10 → (digitChar d).isDigit = true
    ∧ (1 ≤ d → digitChar d ≠ '0')
    ∧ (digitChar d).toNat - '0'.toNat = d := by
  decide

theorem natDigitsAux_zero : ∀ f, natDigitsAux f 0 = [] := by
  intro f
  cases f <;> rfl

theorem natDigitsAux_all : ∀ fuel n,
    (natDigitsAux fuel n).all Char.isDigit = true := by
  intro fuel
  induction fuel with
  | zero => intro n; rfl
  | succ f ih =>
      intro n
      cases n with
      | zero => rfl
      | succ m =>
          have hre : natDigitsAux (f + 1) (m + 1)
              = natDigitsAux f ((m + 1) / 10)
                ++ [digitChar ((m + 1) % 10)] := rfl
          rw [hre, List.all_append, ih ((m + 1) / 10), Bool.true_and]
          have h2 := (digitChar_facts ((m + 1) % 10)
            (Nat.mod_lt _ (by decide))).1
          simp [List.all_cons, h2]

theorem natDigitsAux_foldl : ∀ fuel n acc, n ≤ fuel →
    (natDigitsAux fuel n).foldl
        (fun a c => 10 * a + (c.toNat - '0'.toNat)) acc
      = acc * 10 ^ (natDigitsAux fuel n).length + n := by
  intro fuel
  induction fuel with
  | zero =>
      intro n acc h
      have hn : n = 0 := by omega
      subst hn
      rw [natDigitsAux_zero 0]
      simp
  | succ f ih =>
      intro n acc h
      cases n with
      | zero => simp [natDigitsAux_zero]
      | succ m =>
          have hre : natDigitsAux (f + 1) (m + 1)
              = natDigitsAux f ((m + 1) / 10)
                ++ [digitChar ((m + 1) % 10)] := rfl
          have hdivf : (m + 1) / 10 ≤ f := by
            have := Nat.div_lt_self (Nat.succ_pos m) (by decide : 1 < 10)
            omega
          rw [hre, List.foldl_append, ih ((m + 1) / 10) acc hdivf]
          show 10 * (acc * 10 ^ (natDigitsAux f ((m + 1) / 10)).length
              + (m + 1) / 10) + ((digitChar ((m + 1) % 10)).toNat - '0'.toNat)
            = acc * 10 ^ (natDigitsAux f ((m + 1) / 10)
                ++ [digitChar ((m + 1) % 10)]).length + (m + 1)
          rw [(digitChar_facts ((m + 1) % 10) (Nat.mod_lt _ (by decide))).2.2,
            List.length_append, List.length_cons, List.length_nil, pow_succ,
            ← mul_assoc]
          have hdm := Nat.div_add_mod (m + 1) 10
          generalize acc * 10 ^ (natDigitsAux f ((m + 1) / 10)).length = B
          omega

theorem natDigitsAux_shape : ∀ fuel n, 1 ≤ n → n ≤ fuel →
    ∃ hd t, natDigitsAux fuel n = hd :: t ∧ hd ≠ '0'
      ∧ hd.isDigit = true := by
  intro fuel
  induction fuel with
  | zero =>
      intro n h1 h2
      omega
  | succ f ih =>
      intro n h1 h2
      cases n with
      | zero => omega
      | succ m =>
          have hre : natDigitsAux (f + 1) (m + 1)
              = natDigitsAux f ((m + 1) / 10)
                ++ [digitChar ((m + 1) % 10)] := rfl
          rw [hre]
          by_cases hq : (m + 1) / 10 = 0
          · rw [hq, natDigitsAux_zero, List.nil_append]
            have hm10 : m + 1 < 10 := by omega
            have hmod : (m + 1) % 10 = m + 1 := Nat.mod_eq_of_lt hm10
            rw [hmod]
            exact ⟨digitChar (m + 1), [], rfl,
              (digitChar_facts (m + 1) hm10).2.1 (by omega),
              (digitChar_facts (m + 1) hm10).1⟩
          · have hdivf : (m + 1) / 10 ≤ f := by
              have := Nat.div_lt_self (Nat.succ_pos m) (by decide : 1 < 10)
              omega
            obtain ⟨hd, t, hsh, h0, hdig⟩ :=
              ih ((m + 1) / 10) (by omega) hdivf
            exact ⟨hd, t ++ [digitChar ((m + 1) % 10)],
              by rw [hsh, List.cons_append], h0, hdig⟩

theorem natDigits_all (n : Nat) : (natDigits n).all Char.isDigit = true := by
  unfold natDigits
  by_cases hn : n = 0
  · rw [if_pos hn]
    rfl
  · rw [if_neg hn]
    exact natDigitsAux_all n n

theorem natDigits_shape (n : Nat) :
    ∃ hd t, natDigits n = hd :: t ∧ hd.isDigit = true
      ∧ (1 ≤ n → hd ≠ '0') ∧ (10 ≤ n → hd ≠ '0') := by
  unfold natDigits
  by_cases hn : n = 0
  · rw [if_pos hn]
    exact ⟨'0', [], rfl, by decide, by omega, by omega⟩
  · rw [if_neg hn]
    obtain ⟨hd, t, hsh, h0, hdig⟩ :=
      natDigitsAux_shape n n (by omega) (le_refl n)
    exact ⟨hd, t, hsh, hdig, fun _ => h0, fun _ => h0⟩

theorem natDigits_val (n : Nat) : decDigitsVal (natDigits n) = some n := by
  cases n with
  | zero => rfl
  | succ m =>
      have hne : (m + 1) ≠ 0 := Nat.succ_ne_zero m
      unfold natDigits
      rw [if_neg hne]
      obtain ⟨hd, t, hL, hhd0, hhdd⟩ :=
        natDigitsAux_shape (m + 1) (m + 1) (by omega) (le_refl _)
      rw [hL]
      have hall : (hd :: t).all Char.isDigit = true := by
        rw [← hL]
        exact natDigitsAux_all _ _
      show (if (hd :: t).all Char.isDigit then
          some ((hd :: t).foldl
            (fun acc c => 10 * acc + (c.toNat - '0'.toNat)) 0)
        else none) = some (m + 1)
      rw [if_pos hall, ← hL, natDigitsAux_foldl _ _ 0 (le_refl _)]
      simp

theorem natDigits_ne_nil (n : Nat) : natDigits n ≠ [] := by
  obtain ⟨hd, t, hsh, _⟩ := natDigits_shape n
  rw [hsh]
  exact List.cons_ne_nil hd t

theorem parseU64_natDigits {n : Nat} (h : n < 2 ^ 64) :
    parseU64 (natDigits n) = some n := by
  obtain ⟨hd, t, hsh, hdig, _⟩ := natDigits_shape n
  unfold parseU64 u64Body
  rw [hsh]
  simp only
  rw [if_neg (isDigit_ne hdig (by decide)), ← hsh, natDigits_val]
  simp only
  rw [if_pos h]

theorem parseI64_neg_natDigits {m : Nat} (h : m ≤ 2 ^ 63) :
    parseI64 ('-' :: natDigits m) = some (-(m : Int)) := by
  unfold parseI64
  simp only
  rw [if_pos trivial, natDigits_val]
  simp only
  rw [if_pos h]

theorem digits_not_contains {l : List Char}
    (hall : l.all Char.isDigit = true) {c : Char} (hc : c.isDigit = false) :
    l.contains c = false := by
  induction l with
  | nil => rfl
  | cons a t ih =>
      rw [List.all_cons, Bool.and_eq_true] at hall
      rw [List.contains_cons]
      have h1 : (c == a) = false := by
        rw [beq_eq_false_iff_ne]
        intro he
        rw [he, hall.1] at hc
        cases hc
      rw [h1, ih hall.2]
      rfl

theorem hex_escape_val : ∀ t, t < 32 →
    parseU16Hex ['0', '0', hexDigitChar (t / 16), hexDigitChar (t % 16)]
      = some t := by
  decide

theorem hex_escape_nonsurrogate : ∀ t, t < 32 →
    (!(0xD800 ≤ t && t < 0xE000)) = true := by
  decide

theorem hex_escape_char : ∀ t, t < 32 →
    charFromU32 t = some (Char.ofNat t) := by
  decide

theorem u16_hex_esc {i : Input} {t : Nat} {rest : List Char}
    (hd : i.data = '0' :: '0' :: hexDigitChar (t / 16)
      :: hexDigitChar (t % 16) :: rest) (ht : t < 32) :
    u16_hex i = .ok (i.advance 4) t := by
  have hlen : ¬ i.data.length < 4 := by
    rw [hd]
    simp only [List.length_cons]
    omega
  have htake : i.data.take 4 = ['0', '0', hexDigitChar (t / 16),
      hexDigitChar (t % 16)] := by
    rw [hd]
    rfl
  simp only [u16_hex]
  rw [if_neg hlen, htake, hex_escape_val t ht]

theorem unicode_escape_esc {i : Input} {t : Nat} {rest : List Char}
    (hd : i.data = '0' :: '0' :: hexDigitChar (t / 16)
      :: hexDigitChar (t % 16) :: rest) (ht : t < 32) :
    unicode_escape i = .ok (i.advance 4) (Char.ofNat t) := by
  have hu := u16_hex_esc hd ht
  unfold unicode_escape unicode_escape_alt
  simp only [hu]
  rw [if_pos (hex_escape_nonsurrogate t ht)]
  simp only [hex_escape_char t ht]

theorem parse_char_table {i : Input} {e d : Char} {rest2 : List Char}
    (hd : i.data = '\\' :: e :: rest2) (he : escTable e = some d) :
    parse_char i = .ok ((i.advance 1).advance 1) d
      ∧ ((i.advance 1).advance 1).data = rest2 := by
  have h1 : (i.advance 1).data = e :: rest2 := advance_one_data hd
  constructor
  · unfold parse_char
    simp only [hd]
    rw [if_neg (by decide : ¬('\\' = '"')), if_pos trivial]
    simp only [h1, he]
  · exact advance_one_data h1

/-- `parse_char` consumes exactly one serialized escape and returns the
original character. -/
theorem parse_char_esc (c : Char) : ∀ {i : Input} {rest2 : List Char},
    i.data = escChar c ++ rest2 → posWF i →
    ∃ i2, parse_char i = .ok i2 c ∧ i2.data = rest2 ∧ posWF i2
      ∧ i2.data.length < i.data.length := by
  intro i rest2 hd hw
  unfold escChar at hd
  by_cases h1 : c = '"'
  · rw [if_pos h1] at hd
    simp only [List.cons_append, List.nil_append] at hd
    subst h1
    obtain ⟨hp, hdd⟩ := parse_char_table hd rfl
    refine ⟨_, hp, hdd, posWF_advance 1 (posWF_advance 1 hw), ?_⟩
    rw [hdd, hd]
    simp only [List.length_append, List.length_cons, List.length_nil]
    omega
  · rw [if_neg h1] at hd
    by_cases h2 : c = '\\'
    · rw [if_pos h2] at hd
      simp only [List.cons_append, List.nil_append] at hd
      subst h2
      obtain ⟨hp, hdd⟩ := parse_char_table hd rfl
      refine ⟨_, hp, hdd, posWF_advance 1 (posWF_advance 1 hw), ?_⟩
      rw [hdd, hd]
      simp only [List.length_append, List.length_cons, List.length_nil]
      omega
    · rw [if_neg h2] at hd
      by_cases h3 : c = '\x08'
      · rw [if_pos h3] at hd
        simp only [List.cons_append, List.nil_append] at hd
        subst h3
        obtain ⟨hp, hdd⟩ := parse_char_table hd rfl
        refine ⟨_, hp, hdd, posWF_advance 1 (posWF_advance 1 hw), ?_⟩
        rw [hdd, hd]
        simp only [List.length_append, List.length_cons, List.length_nil]
        omega
      · rw [if_neg h3] at hd
        by_cases h4 : c = '\t'
        · rw [if_pos h4] at hd
          simp only [List.cons_append, List.nil_append] at hd
          subst h4
          obtain ⟨hp, hdd⟩ := parse_char_table hd rfl
          refine ⟨_, hp, hdd, posWF_advance 1 (posWF_advance 1 hw), ?_⟩
          rw [hdd, hd]
          simp only [List.length_append, List.length_cons, List.length_nil]
          omega
        · rw [if_neg h4] at hd
          by_cases h5 : c = '\n'
          · rw [if_pos h5] at hd
            simp only [List.cons_append, List.nil_append] at hd
            subst h5
            obtain ⟨hp, hdd⟩ := parse_char_table hd rfl
            refine ⟨_, hp, hdd, posWF_advance 1 (posWF_advance 1 hw), ?_⟩
            rw [hdd, hd]
            simp only [List.length_append, List.length_cons, List.length_nil]
            omega
          · rw [if_neg h5] at hd
            by_cases h6 : c = '\x0C'
            · rw [if_pos h6] at hd
              simp only [List.cons_append, List.nil_append] at hd
              subst h6
              obtain ⟨hp, hdd⟩ := parse_char_table hd rfl
              refine ⟨_, hp, hdd, posWF_advance 1 (posWF_advance 1 hw), ?_⟩
              rw [hdd, hd]
              simp only [List.length_append, List.length_cons, List.length_nil]
              omega
            · rw [if_neg h6] at hd
              by_cases h7 : c = '\x0D'
              · rw [if_pos h7] at hd
                simp only [List.cons_append, List.nil_append] at hd
                subst h7
                obtain ⟨hp, hdd⟩ := parse_char_table hd rfl
                refine ⟨_, hp, hdd, posWF_advance 1 (posWF_advance 1 hw), ?_⟩
                rw [hdd, hd]
                simp only [List.length_append, List.length_cons, List.length_nil]
                omega
              · rw [if_neg h7] at hd
                by_cases h8 : c.toNat < 0x20
                · rw [if_pos h8] at hd
                  simp only [List.cons_append, List.nil_append] at hd
                  have hd1 : (i.advance 1).data
                      = 'u' :: '0' :: '0' :: hexDigitChar (c.toNat / 16)
                        :: hexDigitChar (c.toNat % 16) :: rest2 :=
                    advance_one_data hd
                  have hd2 : ((i.advance 1).advance 1).data
                      = '0' :: '0' :: hexDigitChar (c.toNat / 16)
                        :: hexDigitChar (c.toNat % 16) :: rest2 :=
                    advance_one_data hd1
                  have hue := unicode_escape_esc hd2 h8
                  have hp : parse_char i
                      = .ok ((((i.advance 1).advance 1)).advance 4)
                        (Char.ofNat c.toNat) := by
                    unfold parse_char
                    simp only [hd]
                    rw [if_neg (by decide : ¬('\\' = '"')),
                      if_pos trivial]
                    simp only [hd1]
                    rw [show escTable 'u' = none from rfl]
                    simp only
                    rw [if_pos trivial]
                    exact hue
                  rw [Char.ofNat_toNat] at hp
                  refine ⟨_, hp, ?_, posWF_advance 4
                    (posWF_advance 1 (posWF_advance 1 hw)), ?_⟩
                  · rw [advance_data, hd2]
                    rfl
                  · rw [advance_data, hd2, hd]
                    simp only [List.length_drop, List.length_append,
                      List.length_cons, List.length_nil]
                    omega
                · rw [if_neg h8] at hd
                  simp only [List.cons_append, List.nil_append] at hd
                  have hdc : i.data = c :: rest2 := hd
                  have hp : parse_char i = .ok (i.advance 1) c := by
                    unfold parse_char
                    simp only [hdc]
                    rw [if_neg h1, if_neg h2]
                  refine ⟨_, hp, advance_one_data hdc,
                    posWF_advance 1 hw, ?_⟩
                  rw [advance_one_data hdc, hdc]
                  simp only [List.length_cons]
                  omega

/-- `string_body` consumes a serialized string body up to the closing
quote, appending the original characters. -/
theorem sbody_ser : ∀ (l : List Char) (f : Nat) (i : Input)
    (acc rest : List Char), i.data = escStr l ++ '"' :: rest → posWF i →
    8 * i.data.length + 1 ≤ f →
    ∃ i2, string_body f i acc = .ok i2 (acc ++ l)
      ∧ i2.data = '"' :: rest ∧ posWF i2 := by
  intro l
  induction l with
  | nil =>
      intro f i acc rest hd hw hf
      obtain ⟨g, rfl⟩ : ∃ g, f = g + 1 := ⟨f - 1, by omega⟩
      have hd' : i.data = '"' :: rest := hd
      have hpc : parse_char i = .errR (fromErrorKind i .noneOf) := by
        unfold parse_char
        simp only [hd']
        rw [if_pos trivial]
      refine ⟨i, ?_, hd', hw⟩
      show string_body (g + 1) i acc = .ok i (acc ++ [])
      simp only [string_body, hpc, List.append_nil]
  | cons c cs ih =>
      intro f i acc rest hd hw hf
      obtain ⟨g, rfl⟩ : ∃ g, f = g + 1 := ⟨f - 1, by omega⟩
      have hd' : i.data = escChar c ++ (escStr cs ++ '"' :: rest) := by
        rw [hd]
        show (escChar c ++ escStr cs) ++ '"' :: rest = _
        rw [List.append_assoc]
      obtain ⟨iA, hpc, hdA, hwA, hlt⟩ := parse_char_esc c hd' hw
      have hne : ¬ iA.data.length = i.data.length := by omega
      obtain ⟨i2, hbody, hd2, hw2⟩ := ih g iA (acc ++ [c]) rest hdA hwA
        (by omega)
      refine ⟨i2, ?_, hd2, hw2⟩
      show string_body (g + 1) i acc = .ok i2 (acc ++ c :: cs)
      simp only [string_body, hpc]
      rw [if_neg hne, hbody, List.append_assoc]
      rfl

/-- `string` consumes a serialized string body plus the closing quote
and returns the original string. -/
theorem string_ser {k : String} {f : Nat} {i : Input} {rest : List Char}
    (hd : i.data = escStr k.data ++ '"' :: rest) (hw : posWF i)
    (hf : 8 * i.data.length + 2 ≤ f) :
    ∃ i2, string f i = .ok i2 k ∧ i2.data = rest ∧ posWF i2 := by
  obtain ⟨g, rfl⟩ : ∃ g, f = g + 1 := ⟨f - 1, by omega⟩
  obtain ⟨i1, hbody, hd1, hw1⟩ := sbody_ser k.data g i [] rest hd hw
    (by omega)
  have hcq : charP '"' i1 = .ok (i1.advance 1) '"' := charP_cons_ok hd1
  refine ⟨i1.advance 1, ?_, advance_one_data hd1, posWF_advance 1 hw1⟩
  show string (g + 1) i = .ok (i1.advance 1) k
  simp only [string, hbody, hcq]
  show PRes.ok (i1.advance 1) (String.mk ([] ++ k.data)) = _
  rw [List.nil_append]

theorem serElems_decomp : ∀ (xs : List SpannedValue) (x : SpannedValue),
    serElems (x :: xs) = serSpanned x ++ serElemsSep xs := by
  intro xs
  induction xs with
  | nil =>
      intro x
      show serSpanned x = serSpanned x ++ serElemsSep []
      rw [show serElemsSep [] = ([] : List Char) from rfl, List.append_nil]
  | cons y ys ih =>
      intro x
      show serSpanned x ++ ',' :: serElems (y :: ys)
        = serSpanned x ++ serElemsSep (y :: ys)
      rw [ih y]
      rfl

theorem serPairs_decomp : ∀ (ps : List (String × SpannedValue))
    (p : String × SpannedValue),
    serPairs (p :: ps) = pairTxt p ++ serPairsSep ps := by
  intro ps
  induction ps with
  | nil =>
      intro p
      obtain ⟨k, x⟩ := p
      show '"' :: (escStr k.data ++ ['"', ':'] ++ serSpanned x)
        = pairTxt (k, x) ++ serPairsSep []
      rw [show serPairsSep [] = ([] : List Char) from rfl, List.append_nil]
      rfl
  | cons q qs ih =>
      intro p
      obtain ⟨k, x⟩ := p
      show ('"' :: (escStr k.data ++ ['"', ':'] ++ serSpanned x))
          ++ ',' :: serPairs (q :: qs)
        = pairTxt (k, x) ++ serPairsSep (q :: qs)
      rw [ih q]
      rfl

/-- Heads of serialized values: never whitespace and never a closing
bracket (`Float` is excluded by serializability). -/
theorem serValue_shape (v : Value) (hser : serializableVal v = true) :
    ∃ c t, serValue v = c :: t ∧ isWsChar c = false ∧ c ≠ ']'
      ∧ c ≠ '\x7d' := by
  cases v with
  | Null => exact ⟨'n', _, rfl, by decide, by decide, by decide⟩
  | Bool b =>
      cases b
      · exact ⟨'f', _, rfl, by decide, by decide, by decide⟩
      · exact ⟨'t', _, rfl, by decide, by decide, by decide⟩
  | String s => exact ⟨'"', _, rfl, by decide, by decide, by decide⟩
  | Array es => exact ⟨'[', _, rfl, by decide, by decide, by decide⟩
  | Object prs => exact ⟨'\x7b', _, rfl, by decide, by decide, by decide⟩
  | Number nm =>
      cases nm with
      | PosInt n =>
          obtain ⟨hd, t, hsh, hdig, _⟩ := natDigits_shape n
          exact ⟨hd, t, hsh, isDigit_not_ws hdig,
            isDigit_ne hdig (by decide), isDigit_ne hdig (by decide)⟩
      | NegInt m =>
          have hm : m < 0 := by
            simp only [serializableVal, Bool.and_eq_true,
              decide_eq_true_iff] at hser
            exact hser.2
          refine ⟨'-', natDigits m.natAbs, ?_, by decide, by decide,
            by decide⟩
          show (if m < 0 then '-' :: natDigits m.natAbs
            else natDigits m.natAbs) = '-' :: natDigits m.natAbs
          rw [if_pos hm]
      | Float f =>
          exact Bool.noConfusion hser

theorem contains_false_iff {l : List String} {k : String} :
    l.contains k = false ↔ k ∉ l := by
  induction l with
  | nil =>
      constructor
      · intro _ h
        cases h
      · intro _
        rfl
  | cons a t ih =>
      rw [List.contains_cons, Bool.or_eq_false_iff, beq_eq_false_iff_ne]
      constructor
      · rintro ⟨h1, h2⟩ hm
        rcases List.mem_cons.mp hm with h | h
        · exact h1 h
        · exact (ih.mp h2) h
      · intro hm
        exact ⟨fun he => hm (he ▸ List.mem_cons_self _ _),
          ih.mpr (fun h => hm (List.mem_cons_of_mem _ h))⟩

theorem insertPair_not_mem {m : List (String × SpannedValue)} {k : String}
    (h : k ∉ m.map Prod.fst) (v : SpannedValue) :
    insertPair m k v = m ++ [(k, v)] := by
  induction m with
  | nil => rfl
  | cons p t ih =>
      obtain ⟨k', v'⟩ := p
      have hk : k' ≠ k := by
        intro he
        exact h (by rw [List.map_cons, he]; exact List.mem_cons_self _ _)
      show (if k' = k then (k, v) :: t else (k', v') :: insertPair t k v)
        = (k', v') :: t ++ [(k, v)]
      rw [if_neg hk, ih (fun hm => h (by
        rw [List.map_cons]
        exact List.mem_cons_of_mem _ hm)), List.cons_append]

theorem insertPair_keysND {m : List (String × SpannedValue)} {k : String}
    {v : SpannedValue} (h : keysND (m.map Prod.fst) = true) :
    keysND ((insertPair m k v).map Prod.fst) = true := by
  induction m with
  | nil => rfl
  | cons p t ih =>
      obtain ⟨k', v'⟩ := p
      rw [List.map_cons] at h
      simp only [keysND, Bool.and_eq_true, Bool.not_eq_true'] at h
      obtain ⟨h1, h2⟩ := h
      by_cases hk : k' = k
      · show keysND (((if k' = k then (k, v) :: t
            else (k', v') :: insertPair t k v)).map Prod.fst) = true
        rw [if_pos hk]
        subst hk
        rw [List.map_cons]
        simp only [keysND, Bool.and_eq_true, Bool.not_eq_true']
        exact ⟨h1, h2⟩
      · show keysND (((if k' = k then (k, v) :: t
            else (k', v') :: insertPair t k v)).map Prod.fst) = true
        rw [if_neg hk, List.map_cons]
        simp only [keysND, Bool.and_eq_true, Bool.not_eq_true']
        refine ⟨?_, ih h2⟩
        rw [contains_false_iff]
        intro hmem
        obtain ⟨q, hq, hq1⟩ := List.mem_map.mp hmem
        rcases insertPair_mem hq with hqt | hqe
        · exact (contains_false_iff.mp h1) (hq1 ▸ List.mem_map_of_mem _ hqt)
        · rw [hqe] at hq1
          exact hk hq1.symm

theorem collect_foldl_id : ∀ (l acc : List (String × SpannedValue)),
    (∀ p ∈ l, p.1 ∉ acc.map Prod.fst) →
    keysND (l.map Prod.fst) = true →
    l.foldl (fun m kv => insertPair m kv.1 kv.2) acc = acc ++ l := by
  intro l
  induction l with
  | nil =>
      intro acc _ _
      rw [List.foldl_nil, List.append_nil]
  | cons p t ih =>
      intro acc hni hnd
      rw [List.map_cons] at hnd
      simp only [keysND, Bool.and_eq_true, Bool.not_eq_true'] at hnd
      obtain ⟨hnd1, hnd2⟩ := hnd
      rw [List.foldl_cons,
        insertPair_not_mem (hni p (List.mem_cons_self _ _)) p.2]
      have hni2 : ∀ q ∈ t, q.1 ∉ (acc ++ [p]).map Prod.fst := by
        intro q hq hmem
        rw [List.map_append] at hmem
        rcases List.mem_append.mp hmem with hm | hm
        · exact hni q (List.mem_cons_of_mem _ hq) hm
        · have hq1 : q.1 = p.1 := by
            rcases List.mem_cons.mp hm with h | h
            · exact h
            · cases h
          exact (contains_false_iff.mp hnd1)
            (hq1 ▸ List.mem_map_of_mem _ hq)
      rw [ih (acc ++ [p]) hni2 hnd2, List.append_assoc]
      rfl

theorem collectPairs_id {l : List (String × SpannedValue)}
    (h : keysND (l.map Prod.fst) = true) : collectPairs l = l := by
  unfold collectPairs
  rw [collect_foldl_id l [] (fun p _ hm => by cases hm) h, List.nil_append]

theorem collect_keysND_aux : ∀ (l acc : List (String × SpannedValue)),
    keysND (acc.map Prod.fst) = true →
    keysND ((l.foldl (fun m kv => insertPair m kv.1 kv.2) acc).map
      Prod.fst) = true := by
  intro l
  induction l with
  | nil => intro acc h; exact h
  | cons p t ih =>
      intro acc h
      rw [List.foldl_cons]
      exact ih _ (insertPair_keysND h)

theorem collectPairs_keysND (l : List (String × SpannedValue)) :
    keysND ((collectPairs l).map Prod.fst) = true :=
  collect_keysND_aux l [] rfl

theorem forall2_map_fst {out prs : List (String × SpannedValue)}
    (h : List.Forall₂
      (fun a b => a.1 = b.1 ∧ eraseSp a.2 = eraseSp b.2) out prs) :
    out.map Prod.fst = prs.map Prod.fst := by
  induction h with
  | nil => rfl
  | cons hR _ ih => rw [List.map_cons, List.map_cons, hR.1, ih]

theorem forall2_erasePairs {out prs : List (String × SpannedValue)}
    (h : List.Forall₂
      (fun a b => a.1 = b.1 ∧ eraseSp a.2 = eraseSp b.2) out prs) :
    erasePairs out = erasePairs prs := by
  induction h with
  | nil => rfl
  | @cons a b l1 l2 hR htl ih =>
      obtain ⟨k1, x1⟩ := a
      obtain ⟨k2, x2⟩ := b
      show (k1, eraseSp x1) :: erasePairs l1
        = (k2, eraseSp x2) :: erasePairs l2
      have e1 : k1 = k2 := hR.1
      have e2 : eraseSp x1 = eraseSp x2 := hR.2
      rw [e1, e2, ih]

theorem forall2_eraseElems {out es : List SpannedValue}
    (h : List.Forall₂ (fun a b => eraseSp a = eraseSp b) out es) :
    eraseElems out = eraseElems es := by
  induction h with
  | nil => rfl
  | cons hR _ ih =>
      show eraseSp _ :: eraseElems _ = eraseSp _ :: eraseElems _
      rw [hR, ih]

theorem sizeElems_mem {x : SpannedValue} : ∀ {es : List SpannedValue},
    x ∈ es → sizeSp x ≤ sizeElems es := by
  intro es
  induction es with
  | nil => intro h; cases h
  | cons y ys ih =>
      intro h
      have hys : sizeElems (y :: ys) = sizeSp y + sizeElems ys := rfl
      rcases List.mem_cons.mp h with h | h
      · rw [h, hys]
        omega
      · have := ih h
        rw [hys]
        omega

theorem sizePairs_mem {p : String × SpannedValue} :
    ∀ {prs : List (String × SpannedValue)},
    p ∈ prs → sizeSp p.2 ≤ sizePairs prs := by
  intro prs
  induction prs with
  | nil => intro h; cases h
  | cons q qs ih =>
      intro h
      obtain ⟨k, x⟩ := q
      have hqs : sizePairs ((k, x) :: qs) = sizeSp x + sizePairs qs := rfl
      rcases List.mem_cons.mp h with h | h
      · subst h
        rw [hqs]
        show sizeSp x ≤ sizeSp x + sizePairs qs
        omega
      · have := ih h
        rw [hqs]
        omega

theorem serializableElems_mem {x : SpannedValue} :
    ∀ {es : List SpannedValue}, serializableElems es = true → x ∈ es →
    serializableSp x = true := by
  intro es
  induction es with
  | nil => intro _ h; cases h
  | cons y ys ih =>
      intro hall h
      have : serializableElems (y :: ys)
          = (serializableSp y && serializableElems ys) := rfl
      rw [this, Bool.and_eq_true] at hall
      rcases List.mem_cons.mp h with h | h
      · rw [h]
        exact hall.1
      · exact ih hall.2 h

theorem serializablePairs_mem {p : String × SpannedValue} :
    ∀ {prs : List (String × SpannedValue)},
    serializablePairs prs = true → p ∈ prs →
    serializableSp p.2 = true := by
  intro prs
  induction prs with
  | nil => intro _ h; cases h
  | cons q qs ih =>
      intro hall h
      obtain ⟨k, x⟩ := q
      have : serializablePairs ((k, x) :: qs)
          = (serializableSp x && serializablePairs qs) := rfl
      rw [this, Bool.and_eq_true] at hall
      rcases List.mem_cons.mp h with h | h
      · rw [h]
        exact hall.1
      · exact ih hall.2 h

theorem dedupElems_mem {x : SpannedValue} :
    ∀ {es : List SpannedValue}, dedupElems es = true → x ∈ es →
    dedupSp x = true := by
  intro es
  induction es with
  | nil => intro _ h; cases h
  | cons y ys ih =>
      intro hall h
      have : dedupElems (y :: ys) = (dedupSp y && dedupElems ys) := rfl
      rw [this, Bool.and_eq_true] at hall
      rcases List.mem_cons.mp h with h | h
      · rw [h]
        exact hall.1
      · exact ih hall.2 h

theorem dedupPairs_mem {p : String × SpannedValue} :
    ∀ {prs : List (String × SpannedValue)},
    dedupPairs prs = true → p ∈ prs → dedupSp p.2 = true := by
  intro prs
  induction prs with
  | nil => intro _ h; cases h
  | cons q qs ih =>
      intro hall h
      obtain ⟨k, x⟩ := q
      have : dedupPairs ((k, x) :: qs) = (dedupSp x && dedupPairs qs) := rfl
      rw [this, Bool.and_eq_true] at hall
      rcases List.mem_cons.mp h with h | h
      · rw [h]
        exact hall.1
      · exact ih hall.2 h

theorem restOk_takeWhile_digit {rest : List Char} (h : restOk rest = true) :
    rest.takeWhile Char.isDigit = [] := by
  cases rest with
  | nil => rfl
  | cons c t =>
      have hc : isDelim false c = true := h
      exact List.takeWhile_cons_of_neg
        (by rw [delim_not_digit hc]; exact Bool.false_ne_true)

theorem restOk_takeWhile_nondelim {rest : List Char}
    (h : restOk rest = true) :
    rest.takeWhile (fun c => !isDelim false c) = [] := by
  cases rest with
  | nil => rfl
  | cons c t =>
      have hc : isDelim false c = true := h
      exact List.takeWhile_cons_of_neg
        (by rw [hc]; exact (by decide))

theorem null_ser {i : Input} {rest : List Char}
    (hd : i.data = ['u', 'l', 'l'] ++ rest) :
    null i = .ok (i.advance 3) () := by
  unfold null
  simp only [tagP_front hd]
  rfl

theorem true_ser {i : Input} {rest : List Char}
    (hd : i.data = ['r', 'u', 'e'] ++ rest) :
    parse_true i = .ok (i.advance 3) true := by
  unfold parse_true
  simp only [tagP_front hd]
  rfl

theorem false_ser {i : Input} {rest : List Char}
    (hd : i.data = ['a', 'l', 's', 'e'] ++ rest) :
    parse_false i = .ok (i.advance 4) false := by
  unfold parse_false
  simp only [tagP_front hd]
  rfl

theorem take_until_delimiter_rest {i : Input} {rest : List Char}
    (hd : i.data = rest) (hrest : restOk rest = true) :
    take_until_delimiter i false = (i, String.mk []) := by
  simp only [take_until_delimiter]
  rw [hd, restOk_takeWhile_nondelim hrest, List.length_nil, advance_zero,
    List.take_zero]

theorem number_ser_pos {n : Nat} (hn : n < 2 ^ 64) {hd0 : Char}
    {t : List Char} (hsh : natDigits n = hd0 :: t) {i : Input}
    {rest : List Char} (hdN : i.data = t ++ rest)
    (hrest : restOk rest = true) :
    number hd0 i = .ok (i.advance t.length) (.PosInt n) := by
  have hall : (hd0 :: t).all Char.isDigit = true := by
    rw [← hsh]
    exact natDigits_all n
  have hall2 := hall
  rw [List.all_cons, Bool.and_eq_true] at hall2
  obtain ⟨hdig, htall⟩ := hall2
  have htw : (t ++ rest).takeWhile Char.isDigit = t :=
    takeWhile_append_all (List.all_eq_true.mp htall)
      (restOk_takeWhile_digit hrest)
  have hguard : (t.isEmpty || hd0 ≠ '0') = true := by
    rw [Bool.or_eq_true]
    by_cases hz : hd0 = '0'
    · left
      obtain ⟨hd', t', hsh', hdig', hz1, _⟩ := natDigits_shape n
      rw [hsh] at hsh'
      have hhd : hd0 = hd' := by
        injection hsh'
      have hn0 : n = 0 := by
        by_contra hne
        exact (hz1 (by omega)) (by rw [← hhd, hz])
      subst hn0
      have : natDigits 0 = ['0'] := rfl
      rw [this] at hsh
      have ht0 : t = [] := by
        injection hsh with h1 h2
        exact h2.symm
      rw [ht0]
      rfl
    · right
      exact decide_eq_true hz
  have hd1 : (i.advance t.length).data = rest := advance_append_data hdN
  have htd : take_until_delimiter (i.advance t.length) false
      = (i.advance t.length, String.mk []) :=
    take_until_delimiter_rest hd1 hrest
  have hclass : classifyNumber hd0 (hd0 :: t) = some (.PosInt n) := by
    unfold classifyNumber
    rw [digits_not_contains hall (by decide : ('.' : Char).isDigit = false),
      digits_not_contains hall (by decide : ('e' : Char).isDigit = false),
      digits_not_contains hall (by decide : ('E' : Char).isDigit = false)]
    rw [if_neg (by decide : ¬((false || false || false) = true))]
    rw [if_neg (isDigit_ne hdig (by decide) : ¬(hd0 = '-'))]
    rw [← hsh, parseU64_natDigits hn]
  simp only [number]
  rw [hdN, htw,
    if_neg (show ¬((!(t.isEmpty || hd0 ≠ '0')) = true) from by
      rw [hguard]; decide)]
  simp only [htd]
  rw [List.append_nil]
  simp only [hclass]

theorem number_ser_neg {v : Int} (h1 : -(2 ^ 63 : Int) ≤ v) (h2 : v < 0)
    {i : Input} {rest : List Char}
    (hdN : i.data = natDigits v.natAbs ++ rest)
    (hrest : restOk rest = true) :
    number '-' i = .ok (i.advance (natDigits v.natAbs).length)
      (.NegInt v) := by
  have hall := natDigits_all v.natAbs
  have htw : (natDigits v.natAbs ++ rest).takeWhile Char.isDigit
      = natDigits v.natAbs :=
    takeWhile_append_all (List.all_eq_true.mp hall)
      (restOk_takeWhile_digit hrest)
  have hd1 : (i.advance (natDigits v.natAbs).length).data = rest :=
    advance_append_data hdN
  have htd : take_until_delimiter
        (i.advance (natDigits v.natAbs).length) false
      = (i.advance (natDigits v.natAbs).length, String.mk []) :=
    take_until_delimiter_rest hd1 hrest
  have hm63 : v.natAbs ≤ 2 ^ 63 := by omega
  have hclass : classifyNumber '-' ('-' :: natDigits v.natAbs)
      = some (.NegInt v) := by
    unfold classifyNumber
    have hcd : ∀ c : Char, c.isDigit = false → c ≠ '-' →
        ('-' :: natDigits v.natAbs).contains c = false := by
      intro c hc hne
      rw [List.contains_cons, digits_not_contains hall hc,
        Bool.or_eq_false_iff]
      exact ⟨beq_eq_false_iff_ne.mpr hne, rfl⟩
    rw [hcd '.' (by decide) (by decide), hcd 'e' (by decide) (by decide),
      hcd 'E' (by decide) (by decide)]
    rw [if_neg (by decide : ¬((false || false || false) = true))]
    rw [if_pos (rfl : ('-' : Char) = '-'), parseI64_neg_natDigits hm63]
    have hv : -(v.natAbs : Int) = v := by omega
    rw [hv]
  simp only [number]
  rw [hdN, htw,
    if_neg (show ¬((!((natDigits v.natAbs).isEmpty || '-' ≠ '0')) = true)
      from by
        rw [show (decide ('-' ≠ '0')) = true from by decide, Bool.or_true]
        decide)]
  simp only [htd]
  rw [List.append_nil]
  simp only [hclass]


theorem serSpanned_value (x : SpannedValue) :
    serSpanned x = serValue x.value := by
  cases x
  rfl

theorem serializableSp_value (x : SpannedValue) :
    serializableSp x = serializableVal x.value := by
  cases x
  rfl

theorem dedupSp_value (x : SpannedValue) :
    dedupSp x = dedupVal x.value := by
  cases x
  rfl

theorem sizeSp_value (x : SpannedValue) : sizeSp x = sizeVal x.value := by
  cases x
  rfl

theorem eraseSp_value (x : SpannedValue) : eraseSp x = eraseVal x.value := by
  cases x
  rfl

theorem sizeVal_pos (v : Value) : 1 ≤ sizeVal v := by
  cases v with
  | Null => exact le_refl 1
  | Number n => exact le_refl 1
  | String s => exact le_refl 1
  | Bool b => exact le_refl 1
  | Array es => show 1 ≤ 1 + sizeElems es; omega
  | Object prs => show 1 ≤ 1 + sizePairs prs; omega

theorem ser_parse : ∀ n : Nat, ∀ v : Value, sizeVal v ≤ n →
    serializableVal v = true → dedupVal v = true →
    ∀ (f : Nat) (i : Input) (rest : List Char),
    i.data = serValue v ++ rest → restOk rest = true → posWF i →
    8 * i.data.length + 1 ≤ f →
    ∃ i2 sv, json_value f i = .ok i2 sv ∧ i2.data = rest ∧ posWF i2
      ∧ eraseSp sv = eraseVal v := by
  intro n
  induction n with
  | zero =>
      intro v hsz _ _ f i rest _ _ _ _
      exfalso
      have := sizeVal_pos v
      omega
  | succ n ih =>
      intro v hsz hser hded f i rest hdata hrest hw hf
      obtain ⟨g, rfl⟩ : ∃ g, f = g + 1 := ⟨f - 1, by omega⟩
      cases v with
      | Null =>
          have hdc : i.data = 'n' :: (['u', 'l', 'l'] ++ rest) := by
            rw [hdata]
            rfl
          have hskip : skipWs i = i := skipWs_id hdc (by decide)
          have hany : anychar i = .ok (i.advance 1) 'n' := anychar_cons hdc
          have hd1 : (i.advance 1).data = ['u', 'l', 'l'] ++ rest :=
            advance_one_data hdc
          have hnull := null_ser hd1
          refine ⟨(i.advance 1).advance 3,
            ⟨.Null, Position.ofInput i,
              Position.fromAhead ((i.advance 1).advance 3)⟩, ?_, ?_, ?_, rfl⟩
          · show json_value (g + 1) i = _
            simp only [json_value, hskip, hany, PRes.mapv]
            rw [if_neg (by decide : ¬('n' = '\x7b')),
              if_neg (by decide : ¬('n' = '[')),
              if_neg (by decide : ¬('n' = '"')),
              if_neg (by decide :
                ¬((decide ('n' = '-') || Char.isDigit 'n') = true)),
              if_neg (by decide : ¬('n' = 't')),
              if_neg (by decide : ¬('n' = 'f')),
              if_pos trivial, hnull]
          · exact advance_append_data hd1
          · exact posWF_advance 3 (posWF_advance 1 hw)
      | Bool b =>
          cases b with
          | true =>
              have hdc : i.data = 't' :: (['r', 'u', 'e'] ++ rest) := by
                rw [hdata]
                rfl
              have hskip : skipWs i = i := skipWs_id hdc (by decide)
              have hany : anychar i = .ok (i.advance 1) 't' := anychar_cons hdc
              have hd1 : (i.advance 1).data = ['r', 'u', 'e'] ++ rest :=
                advance_one_data hdc
              have htok := true_ser hd1
              refine ⟨(i.advance 1).advance 3,
                ⟨.Bool true, Position.ofInput i,
                  Position.fromAhead ((i.advance 1).advance 3)⟩,
                ?_, ?_, ?_, rfl⟩
              · show json_value (g + 1) i = _
                simp only [json_value, hskip, hany, PRes.mapv]
                rw [if_neg (by decide : ¬('t' = '\x7b')),
                  if_neg (by decide : ¬('t' = '[')),
                  if_neg (by decide : ¬('t' = '"')),
                  if_neg (by decide :
                    ¬((decide ('t' = '-') || Char.isDigit 't') = true)),
                  if_pos trivial, htok]
              · exact advance_append_data hd1
              · exact posWF_advance 3 (posWF_advance 1 hw)
          | false =>
              have hdc : i.data = 'f' :: (['a', 'l', 's', 'e'] ++ rest) := by
                rw [hdata]
                rfl
              have hskip : skipWs i = i := skipWs_id hdc (by decide)
              have hany : anychar i = .ok (i.advance 1) 'f' := anychar_cons hdc
              have hd1 : (i.advance 1).data = ['a', 'l', 's', 'e'] ++ rest :=
                advance_one_data hdc
              have htok := false_ser hd1
              refine ⟨(i.advance 1).advance 4,
                ⟨.Bool false, Position.ofInput i,
                  Position.fromAhead ((i.advance 1).advance 4)⟩,
                ?_, ?_, ?_, rfl⟩
              · show json_value (g + 1) i = _
                simp only [json_value, hskip, hany, PRes.mapv]
                rw [if_neg (by decide : ¬('f' = '\x7b')),
                  if_neg (by decide : ¬('f' = '[')),
                  if_neg (by decide : ¬('f' = '"')),
                  if_neg (by decide :
                    ¬((decide ('f' = '-') || Char.isDigit 'f') = true)),
                  if_neg (by decide : ¬('f' = 't')),
                  if_pos trivial, htok]
              · exact advance_append_data hd1
              · exact posWF_advance 4 (posWF_advance 1 hw)
      | Number nm =>
          cases nm with
          | Float fl => exact Bool.noConfusion hser
          | PosInt np =>
              have hnp : np < 2 ^ 64 := of_decide_eq_true hser
              obtain ⟨hd0, t, hsh, hdig, _, _⟩ := natDigits_shape np
              have hdc : i.data = hd0 :: (t ++ rest) := by
                rw [hdata]
                show natDigits np ++ rest = _
                rw [hsh, List.cons_append]
              have hskip : skipWs i = i :=
                skipWs_id hdc (isDigit_not_ws hdig)
              have hany : anychar i = .ok (i.advance 1) hd0 :=
                anychar_cons hdc
              have hd1 : (i.advance 1).data = t ++ rest :=
                advance_one_data hdc
              have hnum := number_ser_pos hnp hsh hd1 hrest
              refine ⟨(i.advance 1).advance t.length,
                ⟨.Number (.PosInt np), Position.ofInput i,
                  Position.fromAhead ((i.advance 1).advance t.length)⟩,
                ?_, advance_append_data hd1,
                posWF_advance _ (posWF_advance 1 hw), rfl⟩
              show json_value (g + 1) i = _
              simp only [json_value, hskip, hany, PRes.mapv]
              rw [if_neg (isDigit_ne hdig (by decide) : ¬(hd0 = '\x7b')),
                if_neg (isDigit_ne hdig (by decide) : ¬(hd0 = '[')),
                if_neg (isDigit_ne hdig (by decide) : ¬(hd0 = '"')),
                if_pos (show (decide (hd0 = '-') || Char.isDigit hd0) = true
                  from by rw [hdig, Bool.or_true]), hnum]
          | NegInt nv =>
              have hserr : (decide (-(2 ^ 63 : Int) ≤ nv)
                  && decide (nv < 0)) = true := hser
              rw [Bool.and_eq_true] at hserr
              have h1 : -(2 ^ 63 : Int) ≤ nv := of_decide_eq_true hserr.1
              have h2 : nv < 0 := of_decide_eq_true hserr.2
              have hdc : i.data = '-' :: (natDigits nv.natAbs ++ rest) := by
                rw [hdata]
                show (if nv < 0 then '-' :: natDigits nv.natAbs
                  else natDigits nv.natAbs) ++ rest = _
                rw [if_pos h2, List.cons_append]
              have hskip : skipWs i = i := skipWs_id hdc (by decide)
              have hany : anychar i = .ok (i.advance 1) '-' :=
                anychar_cons hdc
              have hd1 : (i.advance 1).data = natDigits nv.natAbs ++ rest :=
                advance_one_data hdc
              have hnum := number_ser_neg h1 h2 hd1 hrest
              refine ⟨(i.advance 1).advance (natDigits nv.natAbs).length,
                ⟨.Number (.NegInt nv), Position.ofInput i,
                  Position.fromAhead
                    ((i.advance 1).advance (natDigits nv.natAbs).length)⟩,
                ?_, advance_append_data hd1,
                posWF_advance _ (posWF_advance 1 hw), rfl⟩
              show json_value (g + 1) i = _
              simp only [json_value, hskip, hany, PRes.mapv]
              rw [if_neg (by decide : ¬('-' = '\x7b')),
                if_neg (by decide : ¬('-' = '[')),
                if_neg (by decide : ¬('-' = '"')),
                if_pos (by decide :
                  (decide True || Char.isDigit '-') = true), hnum]
      | String st =>
          have hdc : i.data = '"' :: (escStr st.data ++ '"' :: rest) := by
            rw [hdata]
            show ('"' :: (escStr st.data ++ ['"'])) ++ rest = _
            rw [List.cons_append, List.append_assoc]
            rfl
          have hskip : skipWs i = i := skipWs_id hdc (by decide)
          have hany : anychar i = .ok (i.advance 1) '"' := anychar_cons hdc
          have hd1 : (i.advance 1).data = escStr st.data ++ '"' :: rest :=
            advance_one_data hdc
          have hlen1 : (i.advance 1).data.length + 1 = i.data.length := by
            rw [hd1, hdc, List.length_cons]
          obtain ⟨i2, hstr, hd2, hw2⟩ := @string_ser st g (i.advance 1) rest
            hd1 (posWF_advance 1 hw) (by omega)
          refine ⟨i2, ⟨.String st, Position.ofInput i,
            Position.fromAhead i2⟩, ?_, hd2, hw2, rfl⟩
          show json_value (g + 1) i = _
          simp only [json_value, hskip, hany, PRes.mapv]
          rw [if_neg (by decide : ¬('"' = '\x7b')),
            if_neg (by decide : ¬('"' = '[')),
            if_pos trivial, hstr]
      | Array es =>
          have hdc : i.data = '[' :: (serElems es ++ ']' :: rest) := by
            rw [hdata]
            show ('[' :: (serElems es ++ [']'])) ++ rest = _
            rw [List.cons_append, List.append_assoc]
            rfl
          have hskip : skipWs i = i := skipWs_id hdc (by decide)
          have hany : anychar i = .ok (i.advance 1) '[' := anychar_cons hdc
          have hd1 : (i.advance 1).data = serElems es ++ ']' :: rest :=
            advance_one_data hdc
          have hw1 : posWF (i.advance 1) := posWF_advance 1 hw
          have hlen1 : (i.advance 1).data.length + 1 = i.data.length := by
            rw [hd1, hdc, List.length_cons]
          have hszE : sizeElems es ≤ n := by
            have hs : sizeVal (.Array es) = 1 + sizeElems es := rfl
            rw [hs] at hsz
            omega
          have hserE : serializableElems es = true := hser
          have hdedE : dedupElems es = true := hded
          have aloopser : ∀ xs : List SpannedValue,
              (∀ x ∈ xs, sizeSp x ≤ n ∧ serializableSp x = true
                ∧ dedupSp x = true) →
              ∀ (f2 : Nat) (iL : Input) (st : Position)
                (acc : List SpannedValue) (rest2 : List Char),
              iL.data = serElemsSep xs ++ ']' :: rest2 → posWF iL →
              8 * iL.data.length + 2 ≤ f2 →
              ∃ i3 out, arr_loop f2 iL st acc = .ok i3 (acc ++ out)
                ∧ i3.data = ']' :: rest2 ∧ posWF i3
                ∧ List.Forall₂ (fun a b => eraseSp a = eraseSp b) out xs := by
            intro xs
            induction xs with
            | nil =>
                intro _ f2 iL st acc rest2 hdd hwL hfL
                obtain ⟨g2, rfl⟩ : ∃ g2, f2 = g2 + 1 := ⟨f2 - 1, by omega⟩
                have hdd' : iL.data = ']' :: rest2 := hdd
                have hsw : skipWs iL = iL := skipWs_id hdd' (by decide)
                have hcp : charP ',' iL = .errR (fromErrorKind iL .chr) :=
                  charP_cons_ne hdd' (by decide)
                have hsep : arr_sep st iL = .errR (fromErrorKind iL .chr) := by
                  unfold arr_sep
                  simp only [hsw, hcp]
                  rw [startsWith_head_true hdd']
                  simp only [Bool.not_true, Bool.and_false]
                  rw [if_neg (by decide : ¬(false = true))]
                refine ⟨iL, [], ?_, hdd', hwL, List.Forall₂.nil⟩
                show arr_loop (g2 + 1) iL st acc = .ok iL (acc ++ [])
                simp only [arr_loop, hsep, List.append_nil]
            | cons x xs ihxs =>
                intro hxs f2 iL st acc rest2 hdd hwL hfL
                have hxm := hxs x (List.mem_cons_self _ _)
                have hdd' : iL.data
                    = ',' :: (serSpanned x
                      ++ (serElemsSep xs ++ ']' :: rest2)) := by
                  rw [hdd]
                  show serElemsSep (x :: xs) ++ ']' :: rest2 = _
                  rw [show serElemsSep (x :: xs)
                    = ',' :: (serSpanned x ++ serElemsSep xs) from rfl,
                    List.cons_append, List.append_assoc]
                have hser2 : serializableVal x.value = true := by
                  rw [← serializableSp_value]
                  exact hxm.2.1
                have hded2 : dedupVal x.value = true := by
                  rw [← dedupSp_value]
                  exact hxm.2.2
                have hsz2 : sizeVal x.value ≤ n := by
                  rw [← sizeSp_value]
                  exact hxm.1
                have hsvlen : 1 ≤ (serSpanned x).length := by
                  obtain ⟨c0, t0, hsv, _⟩ := serValue_shape x.value hser2
                  rw [serSpanned_value, hsv, List.length_cons]
                  omega
                have hLL : iL.data.length = (serSpanned x).length
                    + (serElemsSep xs ++ ']' :: rest2).length + 1 := by
                  rw [hdd', List.length_cons, List.length_append]
                obtain ⟨g2, rfl⟩ : ∃ g2, f2 = g2 + 1 := ⟨f2 - 1, by omega⟩
                obtain ⟨g3, rfl⟩ : ∃ g3, g2 = g3 + 1 := ⟨g2 - 1, by omega⟩
                have hsw : skipWs iL = iL := skipWs_id hdd' (by decide)
                have hcp : charP ',' iL = .ok (iL.advance 1) ',' :=
                  charP_cons_ok hdd'
                have hsep : arr_sep st iL = .ok (iL.advance 1) () := by
                  unfold arr_sep
                  simp only [hsw, hcp]
                have hdA : (iL.advance 1).data
                    = serSpanned x ++ (serElemsSep xs ++ ']' :: rest2) :=
                  advance_one_data hdd'
                have hwA := posWF_advance 1 hwL
                have hlenA : (iL.advance 1).data.length + 1
                    = iL.data.length := by
                  rw [hdA, hdd', List.length_cons]
                have hlenNe :
                    ¬((iL.advance 1).data.length = iL.data.length) := by
                  omega
                have hrest2ok :
                    restOk (serElemsSep xs ++ ']' :: rest2) = true := by
                  cases xs with
                  | nil => rfl
                  | cons y ys => rfl
                obtain ⟨iB, w, hjv, hdB, hwB, herase⟩ := ih x.value hsz2
                  hser2 hded2 g3 (iL.advance 1)
                  (serElemsSep xs ++ ']' :: rest2)
                  (by rw [hdA, serSpanned_value]) hrest2ok hwA
                  (by
                    have hlA : (iL.advance 1).data.length
                        = (serSpanned x).length
                          + (serElemsSep xs ++ ']' :: rest2).length := by
                      rw [hdA, List.length_append]
                    omega)
                have helem : arr_elem (g3 + 1) (iL.advance 1) = .ok iB w := by
                  simp only [arr_elem, hjv]
                have hLB : iB.data.length
                    = (serElemsSep xs ++ ']' :: rest2).length := by
                  rw [hdB]
                obtain ⟨i3, out, hloop, hd3, hw3, hfa⟩ := ihxs
                  (fun y hy => hxs y (List.mem_cons_of_mem _ hy)) (g3 + 1)
                  iB st (acc ++ [w]) rest2 hdB hwB (by omega)
                rw [← eraseSp_value] at herase
                refine ⟨i3, w :: out, ?_, hd3, hw3,
                  List.Forall₂.cons herase hfa⟩
                show (match arr_sep st iL with
                  | .errR _ => PRes.ok iL acc
                  | .errF e => PRes.errF e
                  | .noFuel => PRes.noFuel
                  | .ok i1 _ =>
                      if i1.data.length = iL.data.length then
                        PRes.errR (fromErrorKind i1 .sepList)
                      else
                        match arr_elem (g3 + 1) i1 with
                        | .errR _ => PRes.ok iL acc
                        | .errF e => PRes.errF e
                        | .noFuel => PRes.noFuel
                        | .ok i2 v => arr_loop (g3 + 1) i2 st (acc ++ [v]))
                  = PRes.ok i3 (acc ++ w :: out)
                simp only [hsep]
                rw [if_neg hlenNe]
                simp only [helem, hloop]
                rw [List.append_assoc]
                rfl
          cases es with
          | nil =>
              have hd1' : (i.advance 1).data = ']' :: rest := hd1
              have hdc' : i.data = '[' :: ']' :: rest := by
                rw [hdc]
                rfl
              obtain ⟨gA, rfl⟩ : ∃ gA, g = gA + 1 := ⟨g - 1, by
                have hlen0 : 2 ≤ i.data.length := by
                  rw [hdc']
                  simp only [List.length_cons]
                  omega
                omega⟩
              have harr : array (gA + 1) (i.advance 1)
                  = .ok ((i.advance 1).advance 1) [] := by
                simp only [array, skipWs_id hd1' (by decide),
                  startsWith_head_true hd1']
                rw [if_pos trivial]
              refine ⟨(i.advance 1).advance 1,
                ⟨.Array [], Position.ofInput i,
                  Position.fromAhead ((i.advance 1).advance 1)⟩,
                ?_, advance_one_data hd1', posWF_advance 1 hw1, rfl⟩
              show json_value (gA + 1 + 1) i = _
              simp only [json_value, hskip, hany, PRes.mapv]
              rw [if_neg (by decide : ¬('[' = '\x7b')),
                if_pos trivial, harr]
          | cons x xs =>
              have hxm : sizeSp x ≤ n ∧ serializableSp x = true
                  ∧ dedupSp x = true := by
                refine ⟨?_, serializableElems_mem hserE
                  (List.mem_cons_self _ _), dedupElems_mem hdedE
                  (List.mem_cons_self _ _)⟩
                have := sizeElems_mem (List.mem_cons_self x xs)
                omega
              have hser2 : serializableVal x.value = true := by
                rw [← serializableSp_value]
                exact hxm.2.1
              have hded2 : dedupVal x.value = true := by
                rw [← dedupSp_value]
                exact hxm.2.2
              have hsz2 : sizeVal x.value ≤ n := by
                rw [← sizeSp_value]
                exact hxm.1
              have hd1' : (i.advance 1).data
                  = serSpanned x ++ (serElemsSep xs ++ ']' :: rest) := by
                rw [hd1, serElems_decomp xs x, List.append_assoc]
              obtain ⟨c0, t0, hsv0, hws0, hne0, _⟩ :=
                serValue_shape x.value hser2
              have hd1c : (i.advance 1).data
                  = c0 :: (t0 ++ (serElemsSep xs ++ ']' :: rest)) := by
                rw [hd1', serSpanned_value, hsv0, List.cons_append]
              have hswA : skipWs (i.advance 1) = i.advance 1 :=
                skipWs_id hd1c hws0
              have hlenA2 : (i.advance 1).data.length
                  = (serSpanned x).length
                    + (serElemsSep xs ++ ']' :: rest).length := by
                rw [hd1', List.length_append]
              have hsvlen : 1 ≤ (serSpanned x).length := by
                rw [serSpanned_value, hsv0, List.length_cons]
                omega
              obtain ⟨gA, rfl⟩ : ∃ gA, g = gA + 1 := ⟨g - 1, by omega⟩
              obtain ⟨gD, rfl⟩ : ∃ gD, gA = gD + 1 := ⟨gA - 1, by omega⟩
              obtain ⟨gE, rfl⟩ : ∃ gE, gD = gE + 1 := ⟨gD - 1, by omega⟩
              have hrest2ok :
                  restOk (serElemsSep xs ++ ']' :: rest) = true := by
                cases xs with
                | nil => rfl
                | cons y ys => rfl
              obtain ⟨iB, w, hjv, hdB, hwB, herase⟩ := ih x.value hsz2
                hser2 hded2 gE (i.advance 1)
                (serElemsSep xs ++ ']' :: rest)
                (by rw [hd1', serSpanned_value]) hrest2ok hw1 (by omega)
              have helem : arr_elem (gE + 1) (i.advance 1) = .ok iB w := by
                simp only [arr_elem, hjv]
              have hLB : iB.data.length
                  = (serElemsSep xs ++ ']' :: rest).length := by
                rw [hdB]
              have hallxs : ∀ y ∈ xs, sizeSp y ≤ n
                  ∧ serializableSp y = true ∧ dedupSp y = true := by
                intro y hy
                refine ⟨?_, serializableElems_mem hserE
                  (List.mem_cons_of_mem _ hy), dedupElems_mem hdedE
                  (List.mem_cons_of_mem _ hy)⟩
                have := sizeElems_mem (List.mem_cons_of_mem x hy)
                omega
              obtain ⟨i3, out, hloop, hd3, hw3, hfa⟩ := aloopser xs hallxs
                (gE + 1) iB (Position.fromAhead (i.advance 1)) [w] rest hdB
                hwB (by omega)
              rw [← eraseSp_value] at herase
              have hitems : arr_items (gE + 1 + 1) (i.advance 1)
                  (Position.fromAhead (i.advance 1)) = .ok i3 (w :: out) := by
                simp only [arr_items, helem, hloop]
                rfl
              have hkE : ((i.advance 1).data.isEmpty) = false := by
                rw [hd1c]
                rfl
              have harr : array (gE + 1 + 1 + 1) (i.advance 1)
                  = .ok (i3.advance 1) (w :: out) := by
                simp only [array, hswA]
                rw [startsWith_head_false hd1c hne0,
                  if_neg (by decide : ¬(false = true)), hkE,
                  if_neg (by decide : ¬(false = true))]
                have hsw3 : skipWs i3 = i3 := skipWs_id hd3 (by decide)
                have hcp3 : charP ']' i3 = .ok (i3.advance 1) ']' :=
                  charP_cons_ok hd3
                simp only [hitems, hsw3, hcp3]
              refine ⟨i3.advance 1, ⟨.Array (w :: out), Position.ofInput i,
                Position.fromAhead (i3.advance 1)⟩, ?_,
                advance_one_data hd3, posWF_advance 1 hw3, ?_⟩
              · show json_value (gE + 1 + 1 + 1 + 1) i = _
                simp only [json_value, hskip, hany, PRes.mapv]
                rw [if_neg (by decide : ¬('[' = '{')), if_pos trivial,
                  harr]
              · show JVal.arr (eraseSp w :: eraseElems out)
                  = JVal.arr (eraseSp x :: eraseElems xs)
                rw [herase, forall2_eraseElems hfa]
      | Object prs =>
          have hdc : i.data = '\x7b' :: (serPairs prs ++ '\x7d' :: rest) := by
            rw [hdata]
            show ('\x7b' :: (serPairs prs ++ ['\x7d'])) ++ rest = _
            rw [List.cons_append, List.append_assoc]
            rfl
          have hskip : skipWs i = i := skipWs_id hdc (by decide)
          have hany : anychar i = .ok (i.advance 1) '\x7b' := anychar_cons hdc
          have hd1 : (i.advance 1).data = serPairs prs ++ '\x7d' :: rest :=
            advance_one_data hdc
          have hw1 : posWF (i.advance 1) := posWF_advance 1 hw
          have hlen1 : (i.advance 1).data.length + 1 = i.data.length := by
            rw [hd1, hdc, List.length_cons]
          have hdedO : (keysND (prs.map Prod.fst) && dedupPairs prs)
              = true := hded
          rw [Bool.and_eq_true] at hdedO
          have hszP : sizePairs prs ≤ n := by
            have hs : sizeVal (.Object prs) = 1 + sizePairs prs := rfl
            rw [hs] at hsz
            omega
          have hserP : serializablePairs prs = true := hser
          have kvser : ∀ p : String × SpannedValue, sizeSp p.2 ≤ n →
              serializableSp p.2 = true → dedupSp p.2 = true →
              ∀ (f3 : Nat) (iK : Input) (rest3 : List Char),
              iK.data = pairTxt p ++ rest3 → restOk rest3 = true →
              posWF iK → 8 * iK.data.length + 2 ≤ f3 →
              ∃ i4 w, key_value f3 iK = .ok i4 (p.1, w) ∧ i4.data = rest3
                ∧ posWF i4 ∧ eraseSp w = eraseSp p.2 := by
            intro p hp1 hp2 hp3 f3 iK rest3 hdK hrest3 hwK hfK
            obtain ⟨k, x⟩ := p
            obtain ⟨g4, rfl⟩ : ∃ g4, f3 = g4 + 1 := ⟨f3 - 1, by omega⟩
            have hdK' : iK.data = '"' :: (escStr k.data
                ++ '"' :: ':' :: (serSpanned x ++ rest3)) := by
              rw [hdK]
              show ('"' :: (escStr k.data ++ ['"', ':'] ++ serSpanned x))
                ++ rest3 = _
              rw [List.cons_append, List.append_assoc, List.append_assoc]
              rfl
            have hLK := congrArg List.length hdK'
            simp only [List.length_cons, List.length_append] at hLK
            have hcp0 : charP ',' iK = .errR (fromErrorKind iK .chr) :=
              charP_cons_ne hdK' (by decide)
            have hsw0 : skipWs iK = iK := skipWs_id hdK' (by decide)
            have hkE0 : iK.data.isEmpty = false := by
              rw [hdK']
              rfl
            have hcq : charP '"' iK = .ok (iK.advance 1) '"' :=
              charP_cons_ok hdK'
            have hdq : (iK.advance 1).data = escStr k.data
                ++ '"' :: (':' :: (serSpanned x ++ rest3)) :=
              advance_one_data hdK'
            have hL1 : (iK.advance 1).data.length + 1 = iK.data.length := by
              rw [hdq, hdK', List.length_cons]
            obtain ⟨iS, hstr, hdS, hwS⟩ := @string_ser k g4 (iK.advance 1)
              (':' :: (serSpanned x ++ rest3)) hdq (posWF_advance 1 hwK)
              (by omega)
            have hswS : skipWs iS = iS := skipWs_id hdS (by decide)
            have hcc : charP ':' iS = .ok (iS.advance 1) ':' :=
              charP_cons_ok hdS
            have hdSc : (iS.advance 1).data = serSpanned x ++ rest3 :=
              advance_one_data hdS
            have hL5 : (iS.advance 1).data.length
                = (serSpanned x).length + rest3.length := by
              rw [hdSc, List.length_append]
            have hser2 : serializableVal x.value = true := by
              rw [← serializableSp_value]
              exact hp2
            have hded2 : dedupVal x.value = true := by
              rw [← dedupSp_value]
              exact hp3
            have hsz2 : sizeVal x.value ≤ n := by
              rw [← sizeSp_value]
              exact hp1
            obtain ⟨i5, w, hjv, hd5, hw5, herase⟩ := ih x.value hsz2 hser2
              hded2 g4 (iS.advance 1) rest3
              (by rw [hdSc, serSpanned_value]) hrest3
              (posWF_advance 1 hwS) (by omega)
            rw [← eraseSp_value] at herase
            refine ⟨i5, w, ?_, hd5, hw5, herase⟩
            show key_value (g4 + 1) iK = .ok i5 (k, w)
            simp only [key_value, hcp0]
            rw [hsw0, startsWith_head_false hdK' (by decide), hkE0]
            rw [if_neg (by decide : ¬(((false || false) && !false) = true))]
            simp only [hcq, hstr, hswS, hcc, hjv]
          have kloopser : ∀ ps : List (String × SpannedValue),
              (∀ q ∈ ps, sizeSp q.2 ≤ n ∧ serializableSp q.2 = true
                ∧ dedupSp q.2 = true) →
              ∀ (f2 : Nat) (iL : Input) (st : Position)
                (acc : List (String × SpannedValue)) (rest2 : List Char),
              iL.data = serPairsSep ps ++ '\x7d' :: rest2 → posWF iL →
              8 * iL.data.length + 2 ≤ f2 →
              ∃ i3 out, kv_loop f2 iL st acc = .ok i3 (acc ++ out)
                ∧ i3.data = '\x7d' :: rest2 ∧ posWF i3
                ∧ List.Forall₂ (fun a b => a.1 = b.1
                    ∧ eraseSp a.2 = eraseSp b.2) out ps := by
            intro ps
            induction ps with
            | nil =>
                intro _ f2 iL st acc rest2 hdd hwL hfL
                obtain ⟨g2, rfl⟩ : ∃ g2, f2 = g2 + 1 := ⟨f2 - 1, by omega⟩
                have hdd' : iL.data = '\x7d' :: rest2 := hdd
                have hsw : skipWs iL = iL := skipWs_id hdd' (by decide)
                have hcp : charP ',' iL = .errR (fromErrorKind iL .chr) :=
                  charP_cons_ne hdd' (by decide)
                have hsep : hash_sep st iL
                    = .errR (fromErrorKind iL .chr) := by
                  unfold hash_sep
                  simp only [hsw, hcp]
                  rw [startsWith_head_true hdd']
                  simp only [Bool.not_true, Bool.and_false]
                  rw [if_neg (by decide : ¬(false = true))]
                refine ⟨iL, [], ?_, hdd', hwL, List.Forall₂.nil⟩
                show kv_loop (g2 + 1) iL st acc = .ok iL (acc ++ [])
                simp only [kv_loop, hsep, List.append_nil]
            | cons q qs ihqs =>
                intro hqs f2 iL st acc rest2 hdd hwL hfL
                have hqm := hqs q (List.mem_cons_self _ _)
                have hdd' : iL.data = ',' :: (pairTxt q
                    ++ (serPairsSep qs ++ '\x7d' :: rest2)) := by
                  rw [hdd]
                  show serPairsSep (q :: qs) ++ '\x7d' :: rest2 = _
                  rw [show serPairsSep (q :: qs)
                    = ',' :: (pairTxt q ++ serPairsSep qs) from rfl,
                    List.cons_append, List.append_assoc]
                have hdA : (iL.advance 1).data
                    = '"' :: ((escStr q.1.data ++ ['"', ':']
                      ++ serSpanned q.2)
                      ++ (serPairsSep qs ++ '\x7d' :: rest2)) := by
                  rw [advance_one_data hdd']
                  show pairTxt q ++ _ = _
                  rw [show pairTxt q = '"' :: (escStr q.1.data ++ ['"', ':']
                    ++ serSpanned q.2) from rfl, List.cons_append]
                have hswA : skipWs (iL.advance 1) = iL.advance 1 :=
                  skipWs_id hdA (by decide)
                have hsep : hash_sep st iL = .ok (iL.advance 1) () := by
                  unfold hash_sep
                  simp only [skipWs_id hdd' (by decide),
                    charP_cons_ok hdd', hswA]
                  rw [startsWith_head_false hdA (by decide)]
                  rw [if_neg (by decide : ¬(false = true))]
                have hdA' : (iL.advance 1).data
                    = pairTxt q ++ (serPairsSep qs ++ '\x7d' :: rest2) :=
                  advance_one_data hdd'
                have hrest2ok :
                    restOk (serPairsSep qs ++ '\x7d' :: rest2) = true := by
                  cases qs with
                  | nil => rfl
                  | cons y ys => rfl
                obtain ⟨g2, rfl⟩ : ∃ g2, f2 = g2 + 1 := ⟨f2 - 1, by omega⟩
                obtain ⟨g3, rfl⟩ : ∃ g3, g2 = g3 + 1 := ⟨g2 - 1, by omega⟩
                have hlenA : (iL.advance 1).data.length + 1
                    = iL.data.length := by
                  rw [hdA', hdd', List.length_cons]
                have hlenNe :
                    ¬((iL.advance 1).data.length = iL.data.length) := by
                  omega
                obtain ⟨iB, w, hkv, hdB, hwB, herase⟩ := kvser q hqm.1
                  hqm.2.1 hqm.2.2 (g3 + 1) (iL.advance 1)
                  (serPairsSep qs ++ '\x7d' :: rest2) hdA' hrest2ok
                  (posWF_advance 1 hwL) (by omega)
                have hLB : iB.data.length
                    = (serPairsSep qs ++ '\x7d' :: rest2).length := by
                  rw [hdB]
                have hpt1 : 1 ≤ (pairTxt q).length := by
                  show 1 ≤ ('"' :: (escStr q.1.data ++ ['"', ':']
                    ++ serSpanned q.2)).length
                  rw [List.length_cons]
                  omega
                have hLA2 : (iL.advance 1).data.length
                    = (pairTxt q).length
                      + (serPairsSep qs ++ '\x7d' :: rest2).length := by
                  rw [hdA', List.length_append]
                obtain ⟨i3, out, hloop, hd3, hw3, hfa⟩ := ihqs
                  (fun y hy => hqs y (List.mem_cons_of_mem _ hy)) (g3 + 1)
                  iB st (acc ++ [(q.1, w)]) rest2 hdB hwB (by omega)
                refine ⟨i3, (q.1, w) :: out, ?_, hd3, hw3,
                  List.Forall₂.cons ⟨rfl, herase⟩ hfa⟩
                show (match hash_sep st iL with
                  | .errR _ => PRes.ok iL acc
                  | .errF e => PRes.errF e
                  | .noFuel => PRes.noFuel
                  | .ok i1 _ =>
                      if i1.data.length = iL.data.length then
                        PRes.errR (fromErrorKind i1 .sepList)
                      else
                        match key_value (g3 + 1) i1 with
                        | .errR _ => PRes.ok iL acc
                        | .errF e => PRes.errF e
                        | .noFuel => PRes.noFuel
                        | .ok i2 kv => kv_loop (g3 + 1) i2 st (acc ++ [kv]))
                  = PRes.ok i3 (acc ++ (q.1, w) :: out)
                simp only [hsep]
                rw [if_neg hlenNe]
                simp only [hkv, hloop]
                rw [List.append_assoc]
                rfl
          cases prs with
          | nil =>
              have hd1' : (i.advance 1).data = '\x7d' :: rest := hd1
              have hdc2 : i.data = '\x7b' :: '\x7d' :: rest := by
                rw [hdc]
                rfl
              have hlen0 : 2 ≤ i.data.length := by
                rw [hdc2]
                simp only [List.length_cons]
                omega
              obtain ⟨gA, rfl⟩ : ∃ gA, g = gA + 1 := ⟨g - 1, by omega⟩
              obtain ⟨gI, rfl⟩ : ∃ gI, gA = gI + 1 := ⟨gA - 1, by omega⟩
              obtain ⟨gJ, rfl⟩ : ∃ gJ, gI = gJ + 1 := ⟨gI - 1, by omega⟩
              have hkv0 : key_value (gJ + 1) (i.advance 1)
                  = .errR Error.default := by
                simp only [key_value,
                  charP_cons_ne hd1' (by decide : '\x7d' ≠ ','),
                  skipWs_id hd1' (by decide)]
                rw [startsWith_head_true hd1']
                rw [if_pos (show ((true || (i.advance 1).data.isEmpty)
                    && !false) = true from by
                  rw [Bool.true_or]
                  decide)]
              have hitems0 : kv_items (gJ + 1 + 1) (i.advance 1)
                  (Position.fromAhead (i.advance 1))
                  = .ok (i.advance 1) [] := by
                simp only [kv_items, hkv0]
              have hhash : hash (gJ + 1 + 1 + 1) (i.advance 1)
                  = .ok ((i.advance 1).advance 1) [] := by
                simp only [hash, hitems0, skipWs_id hd1' (by decide),
                  charP_cons_ok hd1']
                rfl
              refine ⟨(i.advance 1).advance 1,
                ⟨.Object [], Position.ofInput i,
                  Position.fromAhead ((i.advance 1).advance 1)⟩, ?_,
                advance_one_data hd1', posWF_advance 1 hw1, rfl⟩
              show json_value (gJ + 1 + 1 + 1 + 1) i = _
              simp only [json_value, hskip, hany, PRes.mapv]
              rw [if_pos trivial, hhash]
          | cons p ps =>
              have hpm : sizeSp p.2 ≤ n ∧ serializableSp p.2 = true
                  ∧ dedupSp p.2 = true := by
                refine ⟨?_, serializablePairs_mem hserP
                  (List.mem_cons_self _ _), dedupPairs_mem hdedO.2
                  (List.mem_cons_self _ _)⟩
                have := sizePairs_mem (List.mem_cons_self p ps)
                omega
              have hallps : ∀ q ∈ ps, sizeSp q.2 ≤ n
                  ∧ serializableSp q.2 = true ∧ dedupSp q.2 = true := by
                intro q hq
                refine ⟨?_, serializablePairs_mem hserP
                  (List.mem_cons_of_mem _ hq), dedupPairs_mem hdedO.2
                  (List.mem_cons_of_mem _ hq)⟩
                have := sizePairs_mem (List.mem_cons_of_mem p hq)
                omega
              have hd1' : (i.advance 1).data
                  = pairTxt p ++ (serPairsSep ps ++ '\x7d' :: rest) := by
                rw [hd1, serPairs_decomp ps p, List.append_assoc]
              have hdA : (i.advance 1).data
                  = '"' :: ((escStr p.1.data ++ ['"', ':'] ++ serSpanned p.2)
                    ++ (serPairsSep ps ++ '\x7d' :: rest)) := by
                rw [hd1']
                rw [show pairTxt p = '"' :: (escStr p.1.data ++ ['"', ':']
                  ++ serSpanned p.2) from rfl, List.cons_append]
              have hswA : skipWs (i.advance 1) = i.advance 1 :=
                skipWs_id hdA (by decide)
              have hpt1 : 1 ≤ (pairTxt p).length := by
                show 1 ≤ ('"' :: (escStr p.1.data ++ ['"', ':']
                  ++ serSpanned p.2)).length
                rw [List.length_cons]
                omega
              have hLA2 : (i.advance 1).data.length
                  = (pairTxt p).length
                    + (serPairsSep ps ++ '\x7d' :: rest).length := by
                rw [hd1', List.length_append]
              obtain ⟨gA, rfl⟩ : ∃ gA, g = gA + 1 := ⟨g - 1, by omega⟩
              obtain ⟨gB, rfl⟩ : ∃ gB, gA = gB + 1 := ⟨gA - 1, by omega⟩
              have hrest2ok :
                  restOk (serPairsSep ps ++ '\x7d' :: rest) = true := by
                cases ps with
                | nil => rfl
                | cons y ys => rfl
              obtain ⟨iB, w, hkv, hdB, hwB, herase⟩ := kvser p hpm.1
                hpm.2.1 hpm.2.2 gB (i.advance 1)
                (serPairsSep ps ++ '\x7d' :: rest) hd1' hrest2ok hw1
                (by omega)
              have hLB : iB.data.length
                  = (serPairsSep ps ++ '\x7d' :: rest).length := by
                rw [hdB]
              obtain ⟨i3, out, hloop, hd3, hw3, hfa⟩ := kloopser ps hallps
                gB iB (Position.fromAhead (i.advance 1)) [(p.1, w)] rest
                hdB hwB (by omega)
              have hitems : kv_items (gB + 1) (i.advance 1)
                  (Position.fromAhead (i.advance 1))
                  = .ok i3 ((p.1, w) :: out) := by
                simp only [kv_items, hkv, hloop]
                rfl
              have hhash : hash (gB + 1 + 1) (i.advance 1)
                  = .ok (i3.advance 1) (collectPairs ((p.1, w) :: out)) := by
                simp only [hash, hitems, skipWs_id hd3 (by decide),
                  charP_cons_ok hd3]
              have hfa2 : List.Forall₂ (fun a b => a.1 = b.1
                  ∧ eraseSp a.2 = eraseSp b.2) ((p.1, w) :: out)
                  (p :: ps) := List.Forall₂.cons ⟨rfl, herase⟩ hfa
              have hkeys : ((p.1, w) :: out).map Prod.fst
                  = (p :: ps).map Prod.fst := forall2_map_fst hfa2
              have hcoll : collectPairs ((p.1, w) :: out)
                  = (p.1, w) :: out := by
                apply collectPairs_id
                rw [hkeys]
                exact hdedO.1
              refine ⟨i3.advance 1, ⟨.Object ((p.1, w) :: out),
                Position.ofInput i, Position.fromAhead (i3.advance 1)⟩, ?_,
                advance_one_data hd3, posWF_advance 1 hw3, ?_⟩
              · show json_value (gB + 1 + 1 + 1) i = _
                simp only [json_value, hskip, hany, PRes.mapv]
                rw [if_pos trivial,
                  show hash (gB + 1 + 1) (i.advance 1)
                    = .ok (i3.advance 1) ((p.1, w) :: out) from by
                  rw [hhash, hcoll]]
              · show JVal.obj (erasePairs ((p.1, w) :: out))
                  = JVal.obj (erasePairs (p :: ps))
                rw [forall2_erasePairs hfa2]

/-- Elementwise dedup gives `dedupElems`. -/
theorem dedupElems_all {es : List SpannedValue}
    (h : ∀ c ∈ es, dedupSp c = true) : dedupElems es = true := by
  induction es with
  | nil => rfl
  | cons x xs ihx =>
      show (dedupSp x && dedupElems xs) = true
      rw [h x (List.mem_cons_self _ _),
        ihx (fun c hc => h c (List.mem_cons_of_mem _ hc))]
      rfl

/-- Elementwise dedup gives `dedupPairs`. -/
theorem dedupPairs_all {prs : List (String × SpannedValue)}
    (h : ∀ kv ∈ prs, dedupSp kv.2 = true) : dedupPairs prs = true := by
  induction prs with
  | nil => rfl
  | cons x xs ihx =>
      obtain ⟨k, v⟩ := x
      show (dedupSp v && dedupPairs xs) = true
      rw [h (k, v) (List.mem_cons_self _ _),
        ihx (fun kv hkv => h kv (List.mem_cons_of_mem _ hkv))]
      rfl

/-- One fuel step of the dedup invariant for `json_value`. -/
theorem jvd_step {f : Nat} (ihArr : ArrD f) (ihHash : HashD f) :
    JVD (f + 1) := by
  intro i i' v h
  simp only [json_value] at h
  cases ha : anychar (skipWs i) with
  | errR e => simp only [ha] at h; cases h
  | errF e => simp only [ha] at h; cases h
  | noFuel => simp only [ha] at h; cases h
  | ok i1 c =>
      simp only [ha] at h
      by_cases hc1 : c = '\x7b'
      · rw [if_pos hc1] at h
        cases hh : hash f i1 with
        | ok i2 prs =>
            simp only [hh, PRes.mapv] at h
            cases h
            obtain ⟨hk, hall⟩ := ihHash _ _ _ hh
            show (keysND (prs.map Prod.fst) && dedupPairs prs) = true
            rw [hk, dedupPairs_all hall]
            rfl
        | errR e => simp only [hh, PRes.mapv] at h; cases h
        | errF e => simp only [hh, PRes.mapv] at h; cases h
        | noFuel => simp only [hh, PRes.mapv] at h; cases h
      · rw [if_neg hc1] at h
        by_cases hc2 : c = '['
        · rw [if_pos hc2] at h
          cases harr : array f i1 with
          | ok i2 es =>
              simp only [harr, PRes.mapv] at h
              cases h
              show dedupElems es = true
              exact dedupElems_all (ihArr _ _ _ harr)
          | errR e => simp only [harr, PRes.mapv] at h; cases h
          | errF e => simp only [harr, PRes.mapv] at h; cases h
          | noFuel => simp only [harr, PRes.mapv] at h; cases h
        · rw [if_neg hc2] at h
          by_cases hc3 : c = '"'
          · rw [if_pos hc3] at h
            cases hs : string f i1 with
            | ok i2 s => simp only [hs, PRes.mapv] at h; cases h; rfl
            | errR e => simp only [hs, PRes.mapv] at h; cases h
            | errF e => simp only [hs, PRes.mapv] at h; cases h
            | noFuel => simp only [hs, PRes.mapv] at h; cases h
          · rw [if_neg hc3] at h
            by_cases hc4 : (decide (c = '-') || c.isDigit) = true
            · rw [if_pos hc4] at h
              cases hn : number c i1 with
              | ok i2 nm => simp only [hn, PRes.mapv] at h; cases h; rfl
              | errR e => simp only [hn, PRes.mapv] at h; cases h
              | errF e => simp only [hn, PRes.mapv] at h; cases h
              | noFuel => simp only [hn, PRes.mapv] at h; cases h
            · rw [if_neg hc4] at h
              by_cases hc5 : c = 't'
              · rw [if_pos hc5] at h
                cases ht : parse_true i1 with
                | ok i2 b => simp only [ht, PRes.mapv] at h; cases h; rfl
                | errR e => simp only [ht, PRes.mapv] at h; cases h
                | errF e => simp only [ht, PRes.mapv] at h; cases h
                | noFuel => simp only [ht, PRes.mapv] at h; cases h
              · rw [if_neg hc5] at h
                by_cases hc6 : c = 'f'
                · rw [if_pos hc6] at h
                  cases ht : parse_false i1 with
                  | ok i2 b => simp only [ht, PRes.mapv] at h; cases h; rfl
                  | errR e => simp only [ht, PRes.mapv] at h; cases h
                  | errF e => simp only [ht, PRes.mapv] at h; cases h
                  | noFuel => simp only [ht, PRes.mapv] at h; cases h
                · rw [if_neg hc6] at h
                  by_cases hc7 : c = 'n'
                  · rw [if_pos hc7] at h
                    cases ht : null i1 with
                    | ok i2 u => simp only [ht, PRes.mapv] at h; cases h; rfl
                    | errR e => simp only [ht, PRes.mapv] at h; cases h
                    | errF e => simp only [ht, PRes.mapv] at h; cases h
                    | noFuel => simp only [ht, PRes.mapv] at h; cases h
                  · rw [if_neg hc7] at h
                    cases h

/-- One fuel step of the dedup invariant for `arr_elem`. -/
theorem aelemd_step {f : Nat} (ihJV : JVD f) : AElemD (f + 1) := by
  intro i i' v h
  simp only [arr_elem] at h
  cases hj : json_value f i with
  | ok i2 v2 =>
      simp only [hj] at h
      cases h
      exact ihJV _ _ _ hj
  | errR e =>
      simp only [hj] at h
      by_cases hb : (skipWs i).startsWith ']' = true
      · rw [if_pos hb] at h; cases h
      · rw [if_neg hb] at h; cases h
  | errF e =>
      simp only [hj] at h
      by_cases hb : (skipWs i).startsWith ']' = true
      · rw [if_pos hb] at h; cases h
      · rw [if_neg hb] at h; cases h
  | noFuel => simp only [hj] at h; cases h

/-- One fuel step of the dedup invariant for `arr_loop`. -/
theorem aloopd_step {f : Nat} (ihElem : AElemD f) (ihLoop : ALoopD f) :
    ALoopD (f + 1) := by
  intro i st acc i' out hacc h
  simp only [arr_loop] at h
  cases hs : arr_sep st i with
  | errR e => simp only [hs] at h; cases h; exact hacc
  | errF e => simp only [hs] at h; cases h
  | noFuel => simp only [hs] at h; cases h
  | ok i1 u =>
      simp only [hs] at h
      by_cases hlen : i1.data.length = i.data.length
      · rw [if_pos hlen] at h; cases h
      · rw [if_neg hlen] at h
        cases he : arr_elem f i1 with
        | errR e2 => simp only [he] at h; cases h; exact hacc
        | errF e2 => simp only [he] at h; cases h
        | noFuel => simp only [he] at h; cases h
        | ok i2 v =>
            simp only [he] at h
            refine ihLoop _ _ _ _ _ ?_ h
            intro c hc
            rcases List.mem_append.mp hc with hcm | hcm
            · exact hacc c hcm
            · rw [List.mem_singleton.mp hcm]
              exact ihElem _ _ _ he

/-- One fuel step of the dedup invariant for `arr_items`. -/
theorem aitemsd_step {f : Nat} (ihElem : AElemD f) (ihLoop : ALoopD f) :
    AItemsD (f + 1) := by
  intro i st i' out h
  simp only [arr_items] at h
  cases he : arr_elem f i with
  | errR e => simp only [he] at h; cases h; intro c hc; cases hc
  | errF e => simp only [he] at h; cases h
  | noFuel => simp only [he] at h; cases h
  | ok i1 v =>
      simp only [he] at h
      refine ihLoop _ _ _ _ _ ?_ h
      intro c hc
      rw [List.mem_singleton.mp hc]
      exact ihElem _ _ _ he

/-- One fuel step of the dedup invariant for `array`. -/
theorem arrd_step {f : Nat} (ihItems : AItemsD f) : ArrD (f + 1) := by
  intro i i' es h
  simp only [array] at h
  by_cases hcl : (skipWs i).startsWith ']' = true
  · rw [if_pos hcl] at h
    cases h
    intro c hc
    cases hc
  · rw [if_neg hcl] at h
    by_cases hemp : (skipWs i).data.isEmpty = true
    · rw [if_pos hemp] at h; cases h
    · rw [if_neg hemp] at h
      cases hi : arr_items f (skipWs i) (Position.fromAhead i) with
      | ok i1 elems =>
          simp only [hi] at h
          cases hc2 : charP ']' (skipWs i1) with
          | ok i3 cc =>
              simp only [hc2] at h
              cases h
              exact ihItems _ _ _ _ hi
          | errR e => simp only [hc2] at h; cases h
          | errF e => simp only [hc2] at h; cases h
          | noFuel => simp only [hc2] at h; cases h
      | errR e => simp only [hi] at h; cases h
      | errF e => simp only [hi] at h; cases h
      | noFuel => simp only [hi] at h; cases h

/-- One fuel step of the dedup invariant for `key_value`. -/
theorem kvd_step {f : Nat} (ihJV : JVD f) : KVD (f + 1) := by
  intro i i' kv h
  simp only [key_value] at h
  rcases charP_shape ',' i with ⟨rest0, hd0, hc0⟩ | hc0
  · simp only [hc0] at h
    by_cases hg : (((skipWs (i.advance 1)).startsWith '\x7d'
        || (skipWs (i.advance 1)).data.isEmpty) && !true) = true
    · rw [if_pos hg] at h
      cases h
    · rw [if_neg hg] at h
      cases hq : charP '"' (skipWs (i.advance 1)) with
      | errR e0 => simp only [hq] at h; cases h
      | errF e0 => simp only [hq] at h; cases h
      | noFuel => simp only [hq] at h; cases h
      | ok i2 cq =>
          simp only [hq] at h
          cases hstr : string f i2 with
          | errR e0 => simp only [hstr] at h; cases h
          | errF e0 => simp only [hstr] at h; cases h
          | noFuel => simp only [hstr] at h; cases h
          | ok i3 key =>
              simp only [hstr] at h
              cases hcl : charP ':' (skipWs i3) with
              | errR e0 => simp only [hcl] at h; cases h
              | errF e0 => simp only [hcl] at h; cases h
              | noFuel => simp only [hcl] at h; cases h
              | ok i5 cc =>
                  simp only [hcl] at h
                  cases hjv : json_value f i5 with
                  | errR e0 => simp only [hjv] at h; cases h
                  | errF e0 => simp only [hjv] at h; cases h
                  | noFuel => simp only [hjv] at h; cases h
                  | ok i6 v =>
                      simp only [hjv] at h
                      cases h
                      exact ihJV _ _ _ hjv
  · simp only [hc0] at h
    by_cases hg : (((skipWs i).startsWith '\x7d'
        || (skipWs i).data.isEmpty) && !false) = true
    · rw [if_pos hg] at h
      cases h
    · rw [if_neg hg] at h
      cases hq : charP '"' (skipWs i) with
      | errR e0 => simp only [hq] at h; cases h
      | errF e0 => simp only [hq] at h; cases h
      | noFuel => simp only [hq] at h; cases h
      | ok i2 cq =>
          simp only [hq] at h
          cases hstr : string f i2 with
          | errR e0 => simp only [hstr] at h; cases h
          | errF e0 => simp only [hstr] at h; cases h
          | noFuel => simp only [hstr] at h; cases h
          | ok i3 key =>
              simp only [hstr] at h
              cases hcl : charP ':' (skipWs i3) with
              | errR e0 => simp only [hcl] at h; cases h
              | errF e0 => simp only [hcl] at h; cases h
              | noFuel => simp only [hcl] at h; cases h
              | ok i5 cc =>
                  simp only [hcl] at h
                  cases hjv : json_value f i5 with
                  | errR e0 => simp only [hjv] at h; cases h
                  | errF e0 => simp only [hjv] at h; cases h
                  | noFuel => simp only [hjv] at h; cases h
                  | ok i6 v =>
                      simp only [hjv] at h
                      cases h
                      exact ihJV _ _ _ hjv

/-- One fuel step of the dedup invariant for `kv_loop`. -/
theorem kloopd_step {f : Nat} (ihKV : KVD f) (ihLoop : KLoopD f) :
    KLoopD (f + 1) := by
  intro i st acc i' out hacc h
  simp only [kv_loop] at h
  cases hs : hash_sep st i with
  | errR e => simp only [hs] at h; cases h; exact hacc
  | errF e => simp only [hs] at h; cases h
  | noFuel => simp only [hs] at h; cases h
  | ok i1 u =>
      simp only [hs] at h
      by_cases hlen : i1.data.length = i.data.length
      · rw [if_pos hlen] at h; cases h
      · rw [if_neg hlen] at h
        cases he : key_value f i1 with
        | errR e2 => simp only [he] at h; cases h; exact hacc
        | errF e2 => simp only [he] at h; cases h
        | noFuel => simp only [he] at h; cases h
        | ok i2 kv =>
            simp only [he] at h
            refine ihLoop _ _ _ _ _ ?_ h
            intro c hc
            rcases List.mem_append.mp hc with hcm | hcm
            · exact hacc c hcm
            · rw [List.mem_singleton.mp hcm]
              exact ihKV _ _ _ he

/-- One fuel step of the dedup invariant for `kv_items`. -/
theorem kitemsd_step {f : Nat} (ihKV : KVD f) (ihLoop : KLoopD f) :
    KItemsD (f + 1) := by
  intro i st i' out h
  simp only [kv_items] at h
  cases he : key_value f i with
  | errR e => simp only [he] at h; cases h; intro c hc; cases hc
  | errF e => simp only [he] at h; cases h
  | noFuel => simp only [he] at h; cases h
  | ok i1 kv =>
      simp only [he] at h
      refine ihLoop _ _ _ _ _ ?_ h
      intro c hc
      rw [List.mem_singleton.mp hc]
      exact ihKV _ _ _ he

/-- One fuel step of the dedup invariant for `hash`. -/
theorem hashd_step {f : Nat} (ihItems : KItemsD f) : HashD (f + 1) := by
  intro i i' prs h
  simp only [hash] at h
  cases hi : kv_items f i (Position.fromAhead i) with
  | ok i1 pairs =>
      simp only [hi] at h
      cases hc2 : charP '\x7d' (skipWs i1) with
      | ok i3 cc =>
          simp only [hc2] at h
          cases h
          refine ⟨collectPairs_keysND pairs, ?_⟩
          intro kv hkv
          exact ihItems _ _ _ _ hi kv (collectPairs_mem hkv)
      | errR e => simp only [hc2] at h; cases h
      | errF e => simp only [hc2] at h; cases h
      | noFuel => simp only [hc2] at h; cases h
  | errR e => simp only [hi] at h; cases h
  | errF e => simp only [hi] at h; cases h
  | noFuel => simp only [hi] at h; cases h

/-- Base case: no production succeeds at fuel 0. -/
theorem dedupInv_zero : JVD 0 ∧ ArrD 0 ∧ HashD 0 ∧ AElemD 0 ∧ ALoopD 0
    ∧ AItemsD 0 ∧ KVD 0 ∧ KLoopD 0 ∧ KItemsD 0 := by
  refine ⟨?_, ?_, ?_, ?_, ?_, ?_, ?_, ?_, ?_⟩
  · intro i i' v h; cases h
  · intro i i' es h; cases h
  · intro i i' prs h; cases h
  · intro i i' v h; cases h
  · intro i st acc i' out _ h; cases h
  · intro i st i' out h; cases h
  · intro i i' kv h; cases h
  · intro i st acc i' out _ h; cases h
  · intro i st i' out h; cases h

/-- The dedup invariant holds at every fuel. -/
theorem dedupInv : ∀ f, JVD f ∧ ArrD f ∧ HashD f ∧ AElemD f ∧ ALoopD f
    ∧ AItemsD f ∧ KVD f ∧ KLoopD f ∧ KItemsD f := by
  intro f
  induction f with
  | zero => exact dedupInv_zero
  | succ g ih =>
      obtain ⟨hJV, hArr, hHash, hAE, hAL, hAI, hKV, hKL, hKI⟩ := ih
      exact ⟨jvd_step hArr hHash, arrd_step hAI, hashd_step hKI,
        aelemd_step hJV, aloopd_step hAE hAL, aitemsd_step hAE hAL,
        kvd_step hJV, kloopd_step hKV hKL, kitemsd_step hKV hKL⟩

/-- On success, every object node of `parse`'s tree has distinct keys. -/
theorem parse_ok_dedup {s : String} {r : SpannedValue}
    (h : parse s = some (.ok r)) : dedupSp r = true := by
  unfold parse at h
  cases hj : json_value (8 * (s.data.length + 1)) (Input.new s.data) with
  | ok i v =>
      simp only [hj] at h
      cases he : end_chars i with
      | ok i2 =>
          simp only [he] at h
          cases h
          exact (dedupInv (8 * (s.data.length + 1))).1
            (Input.new s.data) i r hj
      | error e => simp only [he] at h; cases h
  | errR e => simp only [hj] at h; cases h
  | errF e => simp only [hj] at h; cases h
  | noFuel => simp only [hj] at h; cases h

/-- Any serializable dedup tree round-trips: parsing its canonical
serialization succeeds and yields the same tree modulo spans. -/
theorem parse_serialize {r : SpannedValue}
    (hser : serializableSp r = true) (hded : dedupSp r = true) :
    ∃ r2, parse (serialize r) = some (.ok r2) ∧ eraseSp r2 = eraseSp r := by
  obtain ⟨i2, sv, hjv, hd2, hw2, herase⟩ := ser_parse (sizeVal r.value)
    r.value (le_refl _)
    (by rw [← serializableSp_value]; exact hser)
    (by rw [← dedupSp_value]; exact hded)
    (8 * ((serialize r).data.length + 1)) (Input.new (serialize r).data) []
    (by
      show serSpanned r = serValue r.value ++ []
      rw [List.append_nil, serSpanned_value])
    rfl ⟨le_refl 1, le_refl 1⟩
    (by
      show 8 * (serialize r).data.length + 1
        ≤ 8 * ((serialize r).data.length + 1)
      omega)
  have hsw2 : (skipWs i2).data = [] := by
    show (i2.advance (i2.data.takeWhile isWsChar).length).data = []
    rw [advance_data, hd2]
    rfl
  have he2 : end_chars i2 = .ok (skipWs i2) := by
    simp only [end_chars]
    rw [if_pos (show (skipWs i2).data.isEmpty = true from by rw [hsw2]; rfl)]
  refine ⟨sv, ?_, by rw [eraseSp_value r]; exact herase⟩
  unfold parse
  simp only [hjv, he2]

/-! ### Claim theorems -/

/-- C4 (amended): every error `parse` returns carries one of the ten
user-facing kinds, or `NotANumber`, or the low-level `NomError` wrapper
(the latter two do surface, e.g. on the inputs `01` and the empty
string); the `ToBeDefined` placeholder never escapes. -/
theorem error_taxonomy_amended (s : String) (e : Error)
    (h : parse s = some (.error e)) :
    isSurfaceKind e.kind = true ∨ e.kind = .NotANumber
      ∨ ∃ nk, e.kind = .NomError nk :=
  surfaceable_split (parse_err_kind h)

/-- Witness for the amended C4 at the input `01`, whose error kind is
`NotANumber`. -/
theorem error_taxonomy_amended_witness :
    isSurfaceKind Kind.NotANumber = true ∨ Kind.NotANumber = Kind.NotANumber
      ∨ ∃ nk, Kind.NotANumber = Kind.NomError nk :=
  error_taxonomy_amended "01" ⟨⟨1, 1⟩, ⟨1, 1⟩, .NotANumber⟩ rfl

/-- C9 (amended): on success every position of every node of the result
tree is 1-indexed; on failure the 1-indexing can be violated — for the
input `[1` newline `2]` the error's end position has column 0. -/
theorem positions_one_indexed_amended (s : String) (r : SpannedValue)
    (h : parse s = some (.ok r)) :
    spanPosOK r = true
      ∧ parse "[1\n2]" = some (.error ⟨⟨1, 1⟩, ⟨0, 2⟩, .MissingComma⟩) :=
  ⟨(parse_ok_inv h).2.1, rfl⟩

/-- Witness for the amended C9 at the successful input `1`. -/
theorem positions_one_indexed_amended_witness :
    spanPosOK ⟨.Number (.PosInt 1), ⟨1, 1⟩, ⟨1, 1⟩⟩ = true
      ∧ parse "[1\n2]" = some (.error ⟨⟨1, 1⟩, ⟨0, 2⟩, .MissingComma⟩) :=
  positions_one_indexed_amended "1" _ rfl

/-- C3: on every input on which `parse` succeeds, every node of the
returned tree satisfies `start ≤ end` in `(line, col)` lexicographic
source order and strictly contains the span of each of its children
(array elements and object member values). -/
theorem parent_spans_contain_children (s : String) (r : SpannedValue)
    (h : parse s = some (.ok r)) : spanContainOK r = true :=
  (parse_ok_inv h).1

/-- Witness for C3: the nested array `[[1],2]` parses successfully and
its tree passes the span-containment check. -/
theorem parent_spans_contain_children_witness :
    spanContainOK ⟨.Array [⟨.Array [⟨.Number (.PosInt 1), ⟨3, 1⟩, ⟨3, 1⟩⟩],
        ⟨2, 1⟩, ⟨4, 1⟩⟩, ⟨.Number (.PosInt 2), ⟨6, 1⟩, ⟨6, 1⟩⟩],
      ⟨1, 1⟩, ⟨7, 1⟩⟩ = true :=
  parent_spans_contain_children "[[1],2]" _ rfl


/-- C2: for every advance of the positioned input past a consumed
prefix, the line increases by the number of newlines in the prefix; with
at least one newline the column becomes 1 plus the number of scalar
values after the last newline, otherwise it increases by the scalar
count of the prefix; an empty prefix leaves the position unchanged. -/
theorem slice_common_position_update (i : Input) (n : Nat) :
    (i.advance n).data = i.data.drop n
  ∧ (i.advance n).line = i.line + (i.data.take n).count '\n'
  ∧ ((i.data.take n).count '\n' = 0 →
      (i.advance n).col = i.col + (i.data.take n).length)
  ∧ (∀ a b, i.data.take n = a ++ '\n' :: b → b.count '\n' = 0 →
      (i.advance n).col = 1 + b.length)
  ∧ (i.data.take n = [] → i.advance n = i) := by
  refine ⟨?_, ?_, ?_, ?_, ?_⟩
  · unfold Input.advance
    by_cases h : (i.data.take n).isEmpty
    · rw [if_pos h]
    · rw [if_neg h]
  · unfold Input.advance
    by_cases h : (i.data.take n).isEmpty
    · rw [if_pos h]
      rw [List.isEmpty_iff] at h
      simp [h]
    · rw [if_neg h]
      unfold slicePos
      simp only
  · intro h0
    exact (advance_no_nl i n h0).2
  · intro a b hsplit hb
    have hne : ¬(i.data.take n).isEmpty := by
      rw [List.isEmpty_iff, hsplit]
      simp
    unfold Input.advance
    rw [if_neg hne]
    unfold slicePos
    have hcnt : (i.data.take n).count '\n' ≠ 0 := by
      rw [hsplit]
      simp [List.count_append, List.count_cons]
    simp only
    rw [if_neg hcnt, hsplit, afterLastNl_append_no_nl hb]
    omega
  · intro h
    unfold Input.advance
    rw [if_pos (List.isEmpty_iff.mpr h)]
    have : i.data.drop n = i.data := by
      rcases List.take_eq_nil_iff.mp h with h1 | h1
      · rw [h1]
        rfl
      · rw [h1]
        simp
    rw [this]

/-- Witness for C2 at a concrete input: advancing `"ab\nc"` by its four
characters lands on column 1 + 1. -/
theorem slice_common_position_update_witness :
    (Input.advance (Input.new ('a' :: 'b' :: '\n' :: 'c' :: [])) 4).col
      = 1 + ('c' :: []).length :=
  (slice_common_position_update (Input.new ('a' :: 'b' :: '\n' :: 'c' :: []))
    4).2.2.2.1 ('a' :: 'b' :: []) ('c' :: []) rfl rfl

/-- C1: a token accepted by the number production yields `Float` when it
contains `.`/`e`/`E`; otherwise a `-`-token yields `NegInt` exactly when
it parses in the i64 range and an unsigned token yields `PosInt` exactly
when it parses in the u64 range, with out-of-range integer tokens
falling back to `Float`; in particular the u64/i64 boundary literals
behave as claimed. -/
theorem number_variant_selection :
    (∀ (first : Char) (tok : List Char) (n : Number),
      classifyNumber first tok = some n →
      (((tok.contains '.' || tok.contains 'e' || tok.contains 'E') = true →
          ∃ f, n = .Float f)
        ∧ ((tok.contains '.' || tok.contains 'e' || tok.contains 'E') = false →
            first = '-' → ∀ v, parseI64 tok = some v → n = .NegInt v)
        ∧ ((tok.contains '.' || tok.contains 'e' || tok.contains 'E') = false →
            first ≠ '-' → ∀ v, parseU64 tok = some v → n = .PosInt v)
        ∧ ((tok.contains '.' || tok.contains 'e' || tok.contains 'E') = false →
            (first = '-' → parseI64 tok = none) →
            (first ≠ '-' → parseU64 tok = none) → ∃ f, n = .Float f)))
  ∧ parse "18446744073709551615"
      = some (.ok ⟨.Number (.PosInt 18446744073709551615), ⟨1, 1⟩, ⟨20, 1⟩⟩)
  ∧ parse "18446744073709551616"
      = some (.ok ⟨.Number (.Float ⟨"18446744073709551616"⟩), ⟨1, 1⟩, ⟨20, 1⟩⟩)
  ∧ parse "-9223372036854775808"
      = some (.ok ⟨.Number (.NegInt (-9223372036854775808)), ⟨1, 1⟩, ⟨20, 1⟩⟩)
  ∧ parse "-9223372036854775809"
      = some (.ok ⟨.Number (.Float ⟨"-9223372036854775809"⟩), ⟨1, 1⟩, ⟨20, 1⟩⟩) := by
  refine ⟨?_, rfl, rfl, rfl, rfl⟩
  intro first tok n h
  unfold classifyNumber at h
  by_cases hc : (tok.contains '.' || tok.contains 'e' || tok.contains 'E') = true
  · rw [if_pos hc] at h
    have hfl : ∃ f, n = Number.Float f := by
      cases hp : parseF64 tok with
      | none => rw [hp] at h; cases h
      | some f =>
          rw [hp] at h
          exact ⟨f, by cases h; rfl⟩
    refine ⟨fun _ => hfl, fun hf => ?_, fun hf => ?_, fun hf _ _ => hfl⟩
    · rw [hc] at hf; cases hf
    · rw [hc] at hf; cases hf
  · rw [if_neg hc] at h
    by_cases hm : first = '-'
    · rw [if_pos hm] at h
      cases hi : parseI64 tok with
      | some v =>
          rw [hi] at h
          have h2 : some (Number.NegInt v) = some n := h
          have hn : n = Number.NegInt v := by
            injection h2 with h3
            exact h3.symm
          refine ⟨fun hct => absurd hct hc, ?_, fun _ hm' => absurd hm hm', ?_⟩
          · intro _ _ v' hv'
            have hvv : v = v' := by injection hv'
            rw [hn, hvv]
          · intro _ hnone _
            exact Option.noConfusion (hnone hm)
      | none =>
          rw [hi] at h
          have h2 : (parseF64 tok).map (fun f => Number.Float f) = some n := h
          have hfl : ∃ f, n = Number.Float f := by
            cases hp : parseF64 tok with
            | none => rw [hp] at h2; cases h2
            | some f =>
                rw [hp] at h2
                exact ⟨f, by cases h2; rfl⟩
          refine ⟨fun hct => absurd hct hc, ?_, fun _ hm' => absurd hm hm',
            fun _ _ _ => hfl⟩
          intro _ _ v hv
          exact Option.noConfusion hv
    · rw [if_neg hm] at h
      cases hu : parseU64 tok with
      | some v =>
          rw [hu] at h
          have h2 : some (Number.PosInt v) = some n := h
          have hn : n = Number.PosInt v := by
            injection h2 with h3
            exact h3.symm
          refine ⟨fun hct => absurd hct hc, fun _ hm' => absurd hm' hm, ?_, ?_⟩
          · intro _ _ v' hv'
            have hvv : v = v' := by injection hv'
            rw [hn, hvv]
          · intro _ _ hnone
            exact Option.noConfusion (hnone hm)
      | none =>
          rw [hu] at h
          have h2 : (parseF64 tok).map (fun f => Number.Float f) = some n := h
          have hfl : ∃ f, n = Number.Float f := by
            cases hp : parseF64 tok with
            | none => rw [hp] at h2; cases h2
            | some f =>
                rw [hp] at h2
                exact ⟨f, by cases h2; rfl⟩
          refine ⟨fun hct => absurd hct hc, fun _ hm' => absurd hm' hm, ?_,
            fun _ _ _ => hfl⟩
          intro _ _ v hv
          exact Option.noConfusion hv

/-- Witness for C1: the classification applied at the first
out-of-range u64 literal produces the `Float` variant. -/
theorem number_variant_selection_witness :
    ∃ f, Number.Float (⟨"18446744073709551616"⟩ : F64Lit) = Number.Float f :=
  (number_variant_selection.1 '1' "18446744073709551616".data
    (.Float ⟨"18446744073709551616"⟩) rfl).2.2.2 rfl
    (fun h => absurd h (by decide)) (fun _ => rfl)

/-- C6 (code bug): `u16_hex` builds its `NotAnHex` diagnostic only as a
*recoverable* error, which `fold_many0(parse_char, ..)` silently
swallows; a string with a non-hex `\u` quadruple therefore surfaces
`MissingQuote`, never `NotAnHex`. -/
theorem not_an_hex_never_surfaced :
    u16_hex ⟨'Z' :: 'Z' :: 'Z' :: 'Z' :: '"' :: [], 1, 4⟩
      = .errR ⟨⟨4, 1⟩, ⟨8, 1⟩, .NotAnHex "'ZZZZ' is an invalid hex number"⟩
  ∧ parse "\"\\uZZZZ\"" = some (.error ⟨⟨1, 1⟩, ⟨1, 1⟩, .MissingQuote⟩) :=
  ⟨rfl, rfl⟩

/-- C7 (amended): whenever the root value parses and non-whitespace
characters remain, `parse` fails with `CharsAfterRoot` whose payload is
the fixed message followed by the remaining text, spanning from the
first non-whitespace character to the end of the source. -/
theorem chars_after_root_error (s : String) (i : Input) (v : SpannedValue)
    (h : json_value (8 * (s.data.length + 1)) (Input.new s.data) = .ok i v)
    (hne : (skipWs i).data ≠ []) :
    parse s = some (.error ⟨Position.ofInput (skipWs i),
      Position.fromAhead ((skipWs i).advance (skipWs i).data.length),
      .CharsAfterRoot ("Unexpected chararacters at the end: "
        ++ String.mk (skipWs i).data)⟩) := by
  unfold parse
  rw [h]
  simp only [end_chars]
  rw [if_neg (by simpa using hne)]

/-- Witness for C7 at seed scenario 9. -/
theorem chars_after_root_error_witness :
    parse "\x7b\"a\":1\x7d garbage" = some (.error ⟨⟨9, 1⟩, ⟨15, 1⟩,
      .CharsAfterRoot "Unexpected chararacters at the end: garbage"⟩) :=
  chars_after_root_error "\x7b\"a\":1\x7d garbage"
    ⟨' ' :: 'g' :: 'a' :: 'r' :: 'b' :: 'a' :: 'g' :: 'e' :: [], 1, 8⟩
    ⟨.Object [("a", ⟨.Number (.PosInt 1), ⟨6, 1⟩, ⟨6, 1⟩⟩)], ⟨1, 1⟩, ⟨7, 1⟩⟩
    rfl (by decide)

/-- C7 counterexample: the `CharsAfterRoot` payload is not the bare
remaining text but the formatted message around it. -/
theorem chars_after_root_payload_cex :
    parse "\x7b\"a\":1\x7d garbage" = some (.error ⟨⟨9, 1⟩, ⟨15, 1⟩,
      .CharsAfterRoot "Unexpected chararacters at the end: garbage"⟩)
  ∧ "Unexpected chararacters at the end: garbage" ≠ "garbage" :=
  ⟨rfl, by decide⟩

/-- C8 (amended): seed scenario 1 parses successfully with root span
(1,3)–(3,3) and `"world"` value span (2,14)–(2,20) (positions are
`⟨col, line⟩`). -/
theorem seed_scenario1_spans :
    parse "  \x7b\n    \"hello\": \"world\"\n  \x7d\n"
      = some (.ok ⟨.Object [("hello",
          ⟨.String "world", ⟨14, 2⟩, ⟨20, 2⟩⟩)], ⟨3, 1⟩, ⟨3, 3⟩⟩) := rfl

/-- C8 counterexample: the root span starts on line 1 (not 2) and the
`"world"` span is (2,14)–(2,20), not (2,15)–(2,21). -/
theorem seed_scenario1_spans_cex :
    parse "  \x7b\n    \"hello\": \"world\"\n  \x7d\n"
      = some (.ok ⟨.Object [("hello",
          ⟨.String "world", ⟨14, 2⟩, ⟨20, 2⟩⟩)], ⟨3, 1⟩, ⟨3, 3⟩⟩)
  ∧ (⟨3, 1⟩ : Position) ≠ ⟨3, 2⟩
  ∧ (⟨14, 2⟩ : Position) ≠ ⟨15, 2⟩
  ∧ (⟨20, 2⟩ : Position) ≠ ⟨21, 2⟩ :=
  ⟨rfl, by decide, by decide, by decide⟩

/-- C10: inside a string body, any character other than `"` and `\` —
raw control characters included — is consumed and emitted verbatim by
`parse_char`; end to end, a string with a raw newline or raw tab parses
successfully and decodes to the identical character. -/
theorem raw_control_chars_verbatim :
    (∀ (c : Char) (rest : List Char) (line col : Nat),
        c ≠ '"' → c ≠ '\\' →
        parse_char ⟨c :: rest, line, col⟩
          = .ok (Input.advance ⟨c :: rest, line, col⟩ 1) c)
  ∧ parse "\"a\nb\"" = some (.ok ⟨.String "a\nb", ⟨1, 1⟩, ⟨2, 2⟩⟩)
  ∧ parse "\"a\tb\"" = some (.ok ⟨.String "a\tb", ⟨1, 1⟩, ⟨5, 1⟩⟩) := by
  refine ⟨?_, rfl, rfl⟩
  intro c rest line col h1 h2
  simp only [parse_char]
  rw [if_neg h1, if_neg h2]

/-- Witness for C10: a raw SOH control character is consumed verbatim. -/
theorem raw_control_chars_verbatim_witness :
    parse_char ⟨'\x01' :: [], 1, 1⟩
      = .ok (Input.advance ⟨'\x01' :: [], 1, 1⟩ 1) '\x01' :=
  raw_control_chars_verbatim.1 '\x01' [] 1 1 (by decide) (by decide)

/-- C4 counterexample: `parse "01"` surfaces the internal `NotANumber`
kind and `parse ""` surfaces the low-level nom wrapper, neither of which
is among the ten user-facing kinds. -/
theorem error_taxonomy_cex :
    parse "01" = some (.error ⟨⟨1, 1⟩, ⟨1, 1⟩, .NotANumber⟩)
  ∧ isSurfaceKind .NotANumber = false
  ∧ parse "" = some (.error ⟨⟨1, 1⟩, ⟨1, 1⟩, .NomError .eof⟩)
  ∧ isSurfaceKind (.NomError .eof) = false :=
  ⟨rfl, rfl, rfl, rfl⟩

/-- C9 counterexample: the `MissingComma` remap decrements a column that
sits at the start of a line, producing an error end position with
column 0. -/
theorem positions_one_indexed_cex :
    parse "[1\n2]" = some (.error ⟨⟨1, 1⟩, ⟨0, 2⟩, .MissingComma⟩)
  ∧ posOneIndexed ⟨0, 2⟩ = false :=
  ⟨rfl, rfl⟩

/-- C5 counterexample: `-0` parses as `NegInt 0`, its canonical
serialization is `0`, and re-parsing yields `PosInt 0`, a different
value even with spans erased. -/
theorem roundtrip_cex :
    parse "-0" = some (.ok ⟨.Number (.NegInt 0), ⟨1, 1⟩, ⟨2, 1⟩⟩)
  ∧ serialize ⟨.Number (.NegInt 0), ⟨1, 1⟩, ⟨2, 1⟩⟩ = "0"
  ∧ parse "0" = some (.ok ⟨.Number (.PosInt 0), ⟨1, 1⟩, ⟨1, 1⟩⟩)
  ∧ eraseSp ⟨.Number (.PosInt 0), ⟨1, 1⟩, ⟨1, 1⟩⟩
      ≠ eraseSp ⟨.Number (.NegInt 0), ⟨1, 1⟩, ⟨2, 1⟩⟩ := by
  refine ⟨rfl, rfl, rfl, ?_⟩
  intro h
  have h2 : Number.PosInt 0 = Number.NegInt 0 := by
    have h3 : JVal.num (.PosInt 0) = JVal.num (.NegInt 0) := h
    injection h3
  exact absurd h2 (by decide)

/-- C5 (amended): if `parse s` succeeds with tree `r` and `r` contains
no float leaf (the claim is false for floats and for the negative-zero
literal, whose serializations reparse to different `Number` variants),
then parsing the canonical serialization `serialize r` succeeds and
yields `r` modulo spans (object keys are preserved exactly, in
insertion order, so no key-order quotient is even needed). -/
theorem roundtrip_amended (s : String) (r : SpannedValue)
    (h : parse s = some (.ok r)) (hser : serializableSp r = true) :
    ∃ r2, parse (serialize r) = some (.ok r2) ∧ eraseSp r2 = eraseSp r :=
  parse_serialize hser (parse_ok_dedup h)

/-- Witness for the amended C5: the parse tree of a two-member object
whose values are the number 1 and the array of `true` and `null`
round-trips through `serialize` modulo spans. -/
theorem roundtrip_amended_witness :
    ∃ r2, parse (serialize ⟨.Object [("a", ⟨.Number (.PosInt 1), ⟨6, 1⟩,
        ⟨6, 1⟩⟩), ("b", ⟨.Array [⟨.Bool true, ⟨13, 1⟩, ⟨16, 1⟩⟩,
        ⟨.Null, ⟨18, 1⟩, ⟨21, 1⟩⟩], ⟨12, 1⟩, ⟨22, 1⟩⟩)], ⟨1, 1⟩, ⟨23, 1⟩⟩)
      = some (.ok r2)
      ∧ eraseSp r2 = eraseSp ⟨.Object [("a", ⟨.Number (.PosInt 1), ⟨6, 1⟩,
        ⟨6, 1⟩⟩), ("b", ⟨.Array [⟨.Bool true, ⟨13, 1⟩, ⟨16, 1⟩⟩,
        ⟨.Null, ⟨18, 1⟩, ⟨21, 1⟩⟩], ⟨12, 1⟩, ⟨22, 1⟩⟩)], ⟨1, 1⟩, ⟨23, 1⟩⟩ :=
  roundtrip_amended "\x7b\"a\":1,\"b\":[true,null]\x7d" _ rfl rfl

end SJP
